import Mathlib

/-! Planejador de Caminhos: shallow embedding of `planejador.h` / `planejador.cpp`

The C++ classes `IDPonto`, `IDRota`, `Ponto`, `Rota`, `Planejador` and the A* search
`Planejador::calculaCaminho` are translated into pure Lean functions.

Modelling conventions
* `std::string` is `String`; `std::list<T>` is `List T` (front = head, `push_back` = append).
* The fields of type `double` of `Ponto` and `Rota` hold finite values, given by the
  rational numbers they denote.
* The search is embedded twice.  `sucessor`, `laco`, `calculaCaminho` compute in exact
  arithmetic over `ℚ`, with the great-circle branch of `haversine` as a parameter `arco`;
  they serve for the properties that do not depend on the arithmetic (shape of the path,
  counters, termination, the states of the loop).  `sucessorD`, `lacoD`,
  `calculaCaminhoD` compute on the type `Dbl` of the values of `double` (finite values,
  infinities, NaN), in an environment that gives the rounding of the arithmetic
  operations and the values of `sin`, `cos`, `acos`; they serve for the properties of the
  computed lengths.  `haversineD` is `haversine` on `Dbl`.
* The two `while` loops of `calculaCaminho` are translated with a fuel argument:
  `none` means that the fuel ran out before the loop finished.
* Reference parameters `C`, `NA`, `NF` are passed in and returned in the result record;
  `calculaCaminhoMem` is the call in state-passing form, on the memory made of the map
  and of these three variables.
-/

namespace Planner

/-! ## Identifiers -/

/-- Class `IDPonto`: a string-backed identifier of a point. -/
structure IDPonto where
  t : String
deriving DecidableEq, Repr

/-- Class `IDRota`: a string-backed identifier of a route. -/
structure IDRota where
  t : String
deriving DecidableEq, Repr

/-- Constructor `IDPonto()`: the empty string. -/
def IDPonto.default : IDPonto := ⟨""⟩

/-- Constructor `IDRota()`: the empty string, the "no route" sentinel. -/
def IDRota.default : IDRota := ⟨""⟩

/-- Method `IDPonto::valid`: `t.size()>=2 && t[0]=='#'`. -/
def IDPonto.valid (self : IDPonto) : Bool :=
  decide (self.t.length ≥ 2) && self.t.get 0 == '#'

/-- Method `IDRota::valid`: `t.size()>=2 && t[0]=='&'`. -/
def IDRota.valid (self : IDRota) : Bool :=
  decide (self.t.length ≥ 2) && self.t.get 0 == '&'

/-- Method `IDPonto::set`: `t=move(S); if (!valid()) t.clear();`. -/
def IDPonto.set (_self : IDPonto) (S : String) : IDPonto :=
  let novo : IDPonto := ⟨S⟩
  if !novo.valid then ⟨""⟩ else novo

/-- Method `IDRota::set`: `t=move(S); if (!valid()) t.clear();`. -/
def IDRota.set (_self : IDRota) (S : String) : IDRota :=
  let novo : IDRota := ⟨S⟩
  if !novo.valid then ⟨""⟩ else novo

/-! ## Points and routes -/

/-- Struct `Ponto`. -/
structure Ponto where
  id : IDPonto
  nome : String
  latitude : ℚ
  longitude : ℚ
deriving DecidableEq

/-- Constructor `Ponto()`. -/
def Ponto.default : Ponto := ⟨IDPonto.default, "", 0, 0⟩

/-- Method `Ponto::valid`. -/
def Ponto.valid (self : Ponto) : Bool := self.id.valid

/-- Struct `Rota`; the array `extremidade[2]` is the pair of fields
`extremidade0`, `extremidade1`. -/
structure Rota where
  id : IDRota
  nome : String
  extremidade0 : IDPonto
  extremidade1 : IDPonto
  comprimento : ℚ
deriving DecidableEq

/-- Constructor `Rota()`. -/
def Rota.default : Rota := ⟨IDRota.default, "", IDPonto.default, IDPonto.default, 0⟩

/-- Method `Rota::valid`. -/
def Rota.valid (self : Rota) : Bool := self.id.valid

/-- Function `haversine`: `0.0` at once when the two ids are equal, otherwise the
great-circle formula, which is the parameter `arco` applied to
`latitude`/`longitude` of `P1` and of `P2`. -/
def haversine (arco : ℚ → ℚ → ℚ → ℚ → ℚ) (P1 P2 : Ponto) : ℚ :=
  if P1.id = P2.id then 0
  else arco P1.latitude P1.longitude P2.latitude P2.longitude

/-- Type `Caminho`: a list of pairs `<IDRota,IDPonto>`. -/
abbrev Caminho := List (IDRota × IDPonto)

/-! ## The map -/

/-- Class `Planejador`: the lists `pontos` and `rotas`. -/
structure Planejador where
  pontos : List Ponto
  rotas : List Rota

/-- Method `Planejador::empty`. -/
def Planejador.empty (self : Planejador) : Bool := self.pontos.isEmpty

/-- Method `Planejador::getPonto`: first point with the given id, else `Ponto()`. -/
def Planejador.getPonto (self : Planejador) (Id : IDPonto) : Ponto :=
  match self.pontos.find? (fun ponto => decide (ponto.id = Id)) with
  | some ponto => ponto
  | none => Ponto.default

/-- Method `Planejador::getRota`: first route with the given id, else `Rota()`. -/
def Planejador.getRota (self : Planejador) (Id : IDRota) : Rota :=
  match self.rotas.find? (fun rota => decide (rota.id = Id)) with
  | some rota => rota
  | none => Rota.default

/-! ## A* search -/

/-- Struct `Noh`: a node of the search sets. -/
structure Noh where
  id_pt : IDPonto
  id_rt : IDRota
  g : ℚ
  h : ℚ
deriving DecidableEq

/-- Method `Noh::f`. -/
def Noh.f (self : Noh) : ℚ := self.g + self.h

/-- Insertion of an element `a` that stood before all the elements of the sorted list:
`a` goes after the elements that `comp` puts strictly before it and before all the
others, so that equivalent elements keep their original order (stable sort). -/
def insereOrdenado (comp : Noh → Noh → Bool) (a : Noh) : List Noh → List Noh
  | [] => [a]
  | b :: l => if comp b a then b :: insereOrdenado comp a l else a :: b :: l

/-- The call `Aberto.sort(comp)`: `std::list::sort` is a stable sort, so its result is
the stable rearrangement of the list; computed here by insertion. -/
def sort (comp : Noh → Noh → Bool) : List Noh → List Noh
  | [] => []
  | a :: l => insereOrdenado comp a (sort comp l)

/-- The result of `calculaCaminho`: the returned `double` and the final values of the
reference parameters `C`, `NA`, `NF`. -/
structure Saida where
  comprimento : ℚ
  C : Caminho
  NA : Int
  NF : Int
deriving DecidableEq

/-- Body of the `for (const Rota& rota : rotas)` loop of `calculaCaminho` for one
route: the new contents of `Aberto`. -/
def sucessor (P : Planejador) (arco : ℚ → ℚ → ℚ → ℚ → ℚ) (pt_dest : Ponto)
    (atual : Noh) (Fechado : List Noh) (Aberto : List Noh) (rota : Rota) : List Noh :=
  if rota.extremidade0 ≠ atual.id_pt ∧ rota.extremidade1 ≠ atual.id_pt then Aberto
  else
    let id_suc := if rota.extremidade0 = atual.id_pt then rota.extremidade1
                  else rota.extremidade0
    if Fechado.any (fun n => decide (n.id_pt = id_suc)) then Aberto
    else
      let pt_suc := P.getPonto id_suc
      let custo_g := atual.g + rota.comprimento
      let custo_h := haversine arco pt_suc pt_dest
      match Aberto.find? (fun n => decide (n.id_pt = id_suc)) with
      | some it =>
        if custo_g + custo_h < it.f then
          Aberto.eraseP (fun n => decide (n.id_pt = id_suc)) ++ [⟨id_suc, rota.id, custo_g, custo_h⟩]
        else Aberto
      | none => Aberto ++ [⟨id_suc, rota.id, custo_g, custo_h⟩]

/-- The inner `while (atual.id_rt != IDRota())` loop of `calculaCaminho`, which rebuilds
the path from `Fechado`; `C.push_front` is list cons. -/
def reconstroi (P : Planejador) (Fechado : List Noh) : Nat → Noh → Caminho → Option Caminho
  | fuel, atual, C =>
    if atual.id_rt ≠ IDRota.default then
      match fuel with
      | 0 => none
      | fuel + 1 =>
        let C := (atual.id_rt, atual.id_pt) :: C
        let rota_ant := P.getRota atual.id_rt
        let atual : Noh := { atual with
          id_pt := if rota_ant.extremidade0 = atual.id_pt then rota_ant.extremidade1
                   else rota_ant.extremidade0 }
        match Fechado.find? (fun n => decide (n.id_pt = atual.id_pt)) with
        | some it => reconstroi P Fechado fuel it C
        | none => reconstroi P Fechado fuel atual C
    else some C

/-- The main loop `while (!Aberto.empty())` of `calculaCaminho`, followed by the
"no solution" exit.  `fuelR` is the fuel handed to the reconstruction loop.  Inside the
loop the list is not empty, so `front()` is the head of the sorted list and the `[]`
branch of the match is never taken. -/
def laco (P : Planejador) (arco : ℚ → ℚ → ℚ → ℚ → ℚ) (id_destino : IDPonto)
    (pt_dest : Ponto) (fuelR : Nat) : Nat → List Noh → List Noh → Option Saida
  | fuel, Aberto, Fechado =>
    if Aberto.isEmpty then some ⟨-1, [], Aberto.length, Fechado.length⟩
    else
      match fuel with
      | 0 => none
      | fuel + 1 =>
        match sort (fun a b => decide (a.f < b.f)) Aberto with
        | [] => none
        | atual :: Aberto =>
          if atual.id_pt = id_destino then
            match reconstroi P Fechado fuelR atual [] with
            | some C => some ⟨atual.g, C, Aberto.length, Fechado.length + 1⟩
            | none => none
          else
            let Fechado := Fechado ++ [atual]
            laco P arco id_destino pt_dest fuelR fuel
              (P.rotas.foldl (sucessor P arco pt_dest atual Fechado) Aberto) Fechado

/-- Method `Planejador::calculaCaminho`.  The previous contents of `C`, `NA`, `NF` are
arguments; the result holds the returned length and their final contents. -/
def Planejador.calculaCaminho (self : Planejador) (arco : ℚ → ℚ → ℚ → ℚ → ℚ)
    (id_origem id_destino : IDPonto) (_C : Caminho) (_NA _NF : Int) (fuel : Nat) :
    Option Saida :=
  if self.empty then some ⟨-1, [], -1, -1⟩
  else
    let pt_orig := self.getPonto id_origem
    if !pt_orig.valid then some ⟨-1, [], -1, -1⟩
    else
      let pt_dest := self.getPonto id_destino
      if !pt_dest.valid then some ⟨-1, [], -1, -1⟩
      else
        laco self arco id_destino pt_dest fuel fuel
          [⟨id_origem, IDRota.default, 0, haversine arco pt_orig pt_dest⟩] []

/-! ## Example map of the specification -/

/-- Points `#A (0,0)`, `#B (0,1)`, `#C (0,2)`; routes `&R1` (`#A`-`#B`, 5 km) and
`&R2` (`#B`-`#C`, 5 km). -/
def mapaABC : Planejador where
  pontos := [⟨⟨"#A"⟩, "Ponto A", 0, 0⟩, ⟨⟨"#B"⟩, "Ponto B", 0, 1⟩, ⟨⟨"#C"⟩, "Ponto C", 0, 2⟩]
  rotas := [⟨⟨"&R1"⟩, "Rota 1", ⟨"#A"⟩, ⟨"#B"⟩, 5⟩, ⟨⟨"&R2"⟩, "Rota 2", ⟨"#B"⟩, ⟨"#C"⟩, 5⟩]

/-- Great-circle distance along the equator, with `pi` replaced by `355/113`: a value
of the parameter `arco` for concrete runs. -/
def arcoEquador (_lat1 lon1 _lat2 lon2 : ℚ) : ℚ :=
  6371 * (355 / 113) * |lon1 - lon2| / 180

/-- The well-formedness test of the data model for an identifier string: at least two
characters, the first one being the sigil. -/
def bemFormado (sigil : Char) (s : String) : Prop :=
  2 ≤ s.length ∧ s.data.head? = some sigil

/-- Map with the points `#A`, `#B` and the single route `&R1` joining them. -/
def mapaAB : Planejador where
  pontos := [⟨⟨"#A"⟩, "Ponto A", 0, 0⟩, ⟨⟨"#B"⟩, "Ponto B", 0, 1⟩]
  rotas := [⟨⟨"&R1"⟩, "Rota 1", ⟨"#A"⟩, ⟨"#B"⟩, 5⟩]

/-! ## Vocabulary of the specification -/

/-- Route `r` joins the points `u` and `v`, in either direction. -/
def Rota.liga (r : Rota) (u v : IDPonto) : Prop :=
  (r.extremidade0 = u ∧ r.extremidade1 = v) ∨ (r.extremidade1 = u ∧ r.extremidade0 = v)

instance (r : Rota) (u v : IDPonto) : Decidable (r.liga u v) := by
  unfold Rota.liga; exact inferInstance

/-- The sequence of routes `rs` of the map, travelled in order, leads from `a` to `b`. -/
def conecta (P : Planejador) : IDPonto → List Rota → IDPonto → Prop
  | a, [], b => a = b
  | a, r :: rs, b =>
    r ∈ P.rotas ∧ ((r.extremidade0 = a ∧ conecta P r.extremidade1 rs b) ∨
      (r.extremidade1 = a ∧ conecta P r.extremidade0 rs b))

/-- Sum of the lengths of a sequence of routes. -/
def comprimentoTotal (rs : List Rota) : ℚ := (rs.map (fun r => r.comprimento)).sum

/-- Data-model invariants of a loaded map (those enforced by `Planejador::ler`): valid
and unique point ids, valid and unique route ids, every route endpoint is the id of a
point of the map. -/
structure Invariantes (P : Planejador) : Prop where
  pontos_validos : ∀ p ∈ P.pontos, p.valid = true
  pontos_unicos : (P.pontos.map (fun p => p.id)).Nodup
  rotas_validas : ∀ r ∈ P.rotas, r.valid = true
  rotas_unicas : (P.rotas.map (fun r => r.id)).Nodup
  extremidades : ∀ r ∈ P.rotas,
    (∃ p ∈ P.pontos, p.id = r.extremidade0) ∧ (∃ p ∈ P.pontos, p.id = r.extremidade1)

/-- The heuristic value the search stores for the point `v`:
`haversine(getPonto(v), pt_dest)`. -/
def heuristica (P : Planejador) (arco : ℚ → ℚ → ℚ → ℚ → ℚ) (pt_dest : Ponto)
    (v : IDPonto) : ℚ :=
  haversine arco (P.getPonto v) pt_dest

/-- The heuristic never overestimates the length of a route sequence to the destination. -/
def Admissivel (P : Planejador) (arco : ℚ → ℚ → ℚ → ℚ → ℚ) (id_destino : IDPonto) : Prop :=
  ∀ (v : IDPonto) (rs : List Rota), conecta P v rs id_destino →
    heuristica P arco (P.getPonto id_destino) v ≤ comprimentoTotal rs

/-- The heuristic is consistent: along every route it decreases by at most the length
of the route. -/
def Consistente (P : Planejador) (arco : ℚ → ℚ → ℚ → ℚ → ℚ) (pt_dest : Ponto) : Prop :=
  ∀ r ∈ P.rotas,
    heuristica P arco pt_dest r.extremidade0
      ≤ r.comprimento + heuristica P arco pt_dest r.extremidade1 ∧
    heuristica P arco pt_dest r.extremidade1
      ≤ r.comprimento + heuristica P arco pt_dest r.extremidade0

/-- Point `b` is reached from `a` by routes of the map of total length `L`. -/
inductive Alcanca (P : Planejador) (a : IDPonto) : IDPonto → ℚ → Prop
  | refl : Alcanca P a a 0
  | passo {u v : IDPonto} {L : ℚ} {rota : Rota} :
      Alcanca P a u L → rota ∈ P.rotas → rota.liga u v →
      Alcanca P a v (L + rota.comprimento)

/-- Node `n` was generated by the search from the closed list `F`: it carries the
heuristic of its point and it is either the origin node or the extension of a node of
`F` by one route of the map. -/
def NohOK (P : Planejador) (arco : ℚ → ℚ → ℚ → ℚ → ℚ) (id_origem : IDPonto)
    (pt_dest : Ponto) (F : List Noh) (n : Noh) : Prop :=
  n.h = heuristica P arco pt_dest n.id_pt ∧
  ((n.id_pt = id_origem ∧ n.id_rt = IDRota.default ∧ n.g = 0) ∨
   (∃ m ∈ F, ∃ rota ∈ P.rotas, rota.liga m.id_pt n.id_pt ∧ m.id_pt ≠ n.id_pt ∧
      n.id_rt = rota.id ∧ n.g = m.g + rota.comprimento))

/-- Invariant of the main loop of `calculaCaminho` on the lists `Aberto` (`A`) and
`Fechado` (`F`). -/
structure Inv (P : Planejador) (arco : ℚ → ℚ → ℚ → ℚ → ℚ) (id_origem id_destino : IDPonto)
    (pt_dest : Ponto) (A F : List Noh) : Prop where
  nodup : ((A ++ F).map (fun n => n.id_pt)).Nodup
  aberto : ∀ n ∈ A, NohOK P arco id_origem pt_dest F n
  fechado : ∀ F1 n F2, F = F1 ++ n :: F2 → NohOK P arco id_origem pt_dest F1 n
  origem : id_origem ∈ F.map (fun n => n.id_pt) ∨ ∃ n ∈ A, n.id_pt = id_origem ∧ n.g ≤ 0
  fronteira : ∀ m ∈ F, ∀ rota ∈ P.rotas, ∀ v, rota.liga m.id_pt v →
    v ∉ F.map (fun n => n.id_pt) → ∃ n ∈ A, n.id_pt = v ∧ n.g ≤ m.g + rota.comprimento
  destino : id_destino ∉ F.map (fun n => n.id_pt)
  otimo : Consistente P arco pt_dest →
    ∀ m ∈ F, ∀ L, Alcanca P id_origem m.id_pt L → m.g ≤ L

/-- Invariant of the `for` loop over the routes, for the node `atual` being expanded
and the closed list `F` that already holds it. -/
structure AbOK (P : Planejador) (arco : ℚ → ℚ → ℚ → ℚ → ℚ) (id_origem : IDPonto)
    (pt_dest : Ponto) (F A : List Noh) : Prop where
  nodup : (A.map (fun n => n.id_pt)).Nodup
  fora : ∀ n ∈ A, n.id_pt ∉ F.map (fun n => n.id_pt)
  gerado : ∀ n ∈ A, NohOK P arco id_origem pt_dest F n

/-- Map on the equator with route lengths not shorter than the great-circle distances:
`#A (0,0)`, `#B (0,1)`, `#C (0,2)`, routes `&R1` (`#A`-`#B`, 112 km) and `&R2`
(`#B`-`#C`, 112 km). -/
def mapaEquador : Planejador where
  pontos := [⟨⟨"#A"⟩, "Ponto A", 0, 0⟩, ⟨⟨"#B"⟩, "Ponto B", 0, 1⟩, ⟨⟨"#C"⟩, "Ponto C", 0, 2⟩]
  rotas := [⟨⟨"&R1"⟩, "Rota 1", ⟨"#A"⟩, ⟨"#B"⟩, 112⟩, ⟨⟨"&R2"⟩, "Rota 2", ⟨"#B"⟩, ⟨"#C"⟩, 112⟩]

/-- Map on the equator whose heuristic is admissible but not consistent: points `#G`
(longitude 0), `#B` (0.01), `#S` (0.02), `#A` (0.06); routes `&SA` (3 km), `&SB` (5 km),
`&AB` (1 km), `&BG` (10 km). -/
def mapaSABG : Planejador where
  pontos := [⟨⟨"#S"⟩, "Ponto S", 0, 2 / 100⟩, ⟨⟨"#A"⟩, "Ponto A", 0, 6 / 100⟩,
    ⟨⟨"#B"⟩, "Ponto B", 0, 1 / 100⟩, ⟨⟨"#G"⟩, "Ponto G", 0, 0⟩]
  rotas := [⟨⟨"&SA"⟩, "Rota SA", ⟨"#S"⟩, ⟨"#A"⟩, 3⟩, ⟨⟨"&SB"⟩, "Rota SB", ⟨"#S"⟩, ⟨"#B"⟩, 5⟩,
    ⟨⟨"&AB"⟩, "Rota AB", ⟨"#A"⟩, ⟨"#B"⟩, 1⟩, ⟨⟨"&BG"⟩, "Rota BG", ⟨"#B"⟩, ⟨"#G"⟩, 10⟩]

/-- Length of the shortest route sequence from each point of `mapaSABG` to `#G`. -/
def distanciaSABG (v : IDPonto) : ℚ :=
  if v = ⟨"#S"⟩ then 14 else if v = ⟨"#A"⟩ then 11 else if v = ⟨"#B"⟩ then 10 else 0

/-! ## Stand-ins for the functions of `<cmath>` -/

/-- Rational stand-in for `acos` in concrete runs: decreasing from `22/7` at `-1` to `0`
at `1`. -/
def acosQ (x : ℚ) : ℚ := (1 - x) * (11 / 7)


/-! ## States of the main loop -/

/-- The values of the type `double`: the finite values, the two infinities and NaN.
A finite value is the rational number it denotes; the two zeros are identified. -/
inductive Dbl where
  | fin (q : ℚ)
  | pinf
  | ninf
  | nan
deriving DecidableEq

/-- The constant `DBL_MAX`, the largest finite `double`. -/
def Dbl.MAX : ℚ := 2 ^ 1024 - 2 ^ 971

/-- The `double` result of an arithmetic operation on finite values whose exact value is
`q`.  The function `arr` is the rounding of the arithmetic unit (to the nearest value
of the format, with unbounded exponent); a rounded value beyond `DBL_MAX` overflows to
an infinity. -/
def Dbl.ofRat (arr : ℚ → ℚ) (q : ℚ) : Dbl :=
  if arr q > Dbl.MAX then Dbl.pinf
  else if arr q < -Dbl.MAX then Dbl.ninf
  else Dbl.fin (arr q)

/-- Unary minus on `double`. -/
def Dbl.neg : Dbl → Dbl
  | Dbl.fin q => Dbl.fin (-q)
  | Dbl.pinf => Dbl.ninf
  | Dbl.ninf => Dbl.pinf
  | Dbl.nan => Dbl.nan

/-- Addition on `double`: NaN propagates and the sum of opposite infinities is NaN. -/
def Dbl.add (arr : ℚ → ℚ) : Dbl → Dbl → Dbl
  | Dbl.fin a, Dbl.fin b => Dbl.ofRat arr (a + b)
  | Dbl.nan, _ => Dbl.nan
  | _, Dbl.nan => Dbl.nan
  | Dbl.pinf, Dbl.ninf => Dbl.nan
  | Dbl.ninf, Dbl.pinf => Dbl.nan
  | Dbl.pinf, _ => Dbl.pinf
  | _, Dbl.pinf => Dbl.pinf
  | Dbl.ninf, _ => Dbl.ninf
  | _, Dbl.ninf => Dbl.ninf

/-- Subtraction on `double`. -/
def Dbl.sub (arr : ℚ → ℚ) : Dbl → Dbl → Dbl
  | Dbl.fin a, Dbl.fin b => Dbl.ofRat arr (a - b)
  | a, b => Dbl.add arr a (Dbl.neg b)

/-- Product of an infinity of the given sign (`true` for positive) by a finite value. -/
def Dbl.infVezes (positivo : Bool) (a : ℚ) : Dbl :=
  if a = 0 then Dbl.nan
  else if (decide (a > 0)) = positivo then Dbl.pinf else Dbl.ninf

/-- Multiplication on `double`: NaN propagates and zero times an infinity is NaN. -/
def Dbl.mul (arr : ℚ → ℚ) : Dbl → Dbl → Dbl
  | Dbl.fin a, Dbl.fin b => Dbl.ofRat arr (a * b)
  | Dbl.nan, _ => Dbl.nan
  | _, Dbl.nan => Dbl.nan
  | Dbl.fin a, Dbl.pinf => Dbl.infVezes true a
  | Dbl.fin a, Dbl.ninf => Dbl.infVezes false a
  | Dbl.pinf, Dbl.fin b => Dbl.infVezes true b
  | Dbl.ninf, Dbl.fin b => Dbl.infVezes false b
  | Dbl.pinf, Dbl.pinf => Dbl.pinf
  | Dbl.ninf, Dbl.ninf => Dbl.pinf
  | Dbl.pinf, Dbl.ninf => Dbl.ninf
  | Dbl.ninf, Dbl.pinf => Dbl.ninf

/-- Division on `double`: NaN propagates, the quotient of two infinities and `0/0` are
NaN, a non-zero finite value divided by zero is an infinity. -/
def Dbl.div (arr : ℚ → ℚ) : Dbl → Dbl → Dbl
  | Dbl.fin a, Dbl.fin b =>
    if b = 0 then (if a > 0 then Dbl.pinf else if a < 0 then Dbl.ninf else Dbl.nan)
    else Dbl.ofRat arr (a / b)
  | Dbl.nan, _ => Dbl.nan
  | _, Dbl.nan => Dbl.nan
  | Dbl.fin _, _ => Dbl.fin 0
  | Dbl.pinf, Dbl.fin b => if b < 0 then Dbl.ninf else Dbl.pinf
  | Dbl.ninf, Dbl.fin b => if b < 0 then Dbl.pinf else Dbl.ninf
  | _, _ => Dbl.nan

/-- The comparison `a < b` on `double`: false when an operand is NaN. -/
def Dbl.lt : Dbl → Dbl → Bool
  | Dbl.fin a, Dbl.fin b => decide (a < b)
  | Dbl.nan, _ => false
  | _, Dbl.nan => false
  | Dbl.ninf, Dbl.ninf => false
  | Dbl.ninf, _ => true
  | Dbl.pinf, _ => false
  | Dbl.fin _, Dbl.pinf => true
  | Dbl.fin _, Dbl.ninf => false

/-- The comparison `a <= b` on `double`: false when an operand is NaN. -/
def Dbl.le : Dbl → Dbl → Bool
  | Dbl.fin a, Dbl.fin b => decide (a ≤ b)
  | Dbl.nan, _ => false
  | _, Dbl.nan => false
  | Dbl.ninf, _ => true
  | _, Dbl.pinf => true
  | _, _ => false

/-- The comparison `a == b` on `double`: false when an operand is NaN. -/
def Dbl.igual : Dbl → Dbl → Bool
  | Dbl.fin a, Dbl.fin b => decide (a = b)
  | Dbl.pinf, Dbl.pinf => true
  | Dbl.ninf, Dbl.ninf => true
  | _, _ => false

/-- The functions `sin` and `cos` of `<cmath>` on `double`, from their values `f` on the
finite arguments: NaN at an infinity and at NaN. -/
def Dbl.trig (f : ℚ → ℚ) : Dbl → Dbl
  | Dbl.fin x => Dbl.fin (f x)
  | _ => Dbl.nan

/-- The function `acos` of `<cmath>` on `double`, from its values `f` on `[-1, 1]`: NaN
outside `[-1, 1]`, at an infinity and at NaN. -/
def Dbl.acos (f : ℚ → ℚ) : Dbl → Dbl
  | Dbl.fin x => if x < -1 ∨ x > 1 then Dbl.nan else Dbl.fin (f x)
  | _ => Dbl.nan

/-- The rational denoted by a finite `double`; 0 for the infinities and NaN. -/
def Dbl.valor : Dbl → ℚ
  | Dbl.fin q => q
  | _ => 0

/-- The floating-point environment of a run: the rounding `arr` of the arithmetic
operations and of the decimal literals, and the values of the functions `sin`, `cos`
and `acos` of `<cmath>` on finite arguments. -/
structure Ambiente where
  arr : ℚ → ℚ
  sin : ℚ → ℚ
  cos : ℚ → ℚ
  acos : ℚ → ℚ

/-- The statements of `haversine` after the identical-id test, on `double` values:
conversion to radians, `cosseno`, the two clamping tests and `R_EARTH*acos(cosseno)`.
The literal of `MY_PI` is rounded to a `double`; `6371.0`, `180.0`, `1.0` and `-1.0`
are values of the format. -/
def arcoD (E : Ambiente) (latitude1 longitude1 latitude2 longitude2 : ℚ) : Dbl :=
  let MY_PI : Dbl := Dbl.ofRat E.arr 3.14159265358979323846
  let R_EARTH : Dbl := Dbl.fin 6371
  let lat1 := Dbl.div E.arr (Dbl.mul E.arr MY_PI (Dbl.fin latitude1)) (Dbl.fin 180)
  let lat2 := Dbl.div E.arr (Dbl.mul E.arr MY_PI (Dbl.fin latitude2)) (Dbl.fin 180)
  let lon1 := Dbl.div E.arr (Dbl.mul E.arr MY_PI (Dbl.fin longitude1)) (Dbl.fin 180)
  let lon2 := Dbl.div E.arr (Dbl.mul E.arr MY_PI (Dbl.fin longitude2)) (Dbl.fin 180)
  let cosseno := Dbl.add E.arr
    (Dbl.mul E.arr (Dbl.trig E.sin lat1) (Dbl.trig E.sin lat2))
    (Dbl.mul E.arr (Dbl.mul E.arr (Dbl.trig E.cos lat1) (Dbl.trig E.cos lat2))
      (Dbl.trig E.cos (Dbl.sub E.arr lon1 lon2)))
  let cosseno := if Dbl.lt (Dbl.fin 1) cosseno then Dbl.fin 1 else cosseno
  let cosseno := if Dbl.lt cosseno (Dbl.fin (-1)) then Dbl.fin (-1) else cosseno
  Dbl.mul E.arr R_EARTH (Dbl.acos E.acos cosseno)

/-- Function `haversine` on `double` values, with rounding, overflow and NaN: `0.0` at
once when the two ids are equal, otherwise the great-circle formula. -/
def haversineD (E : Ambiente) (P1 P2 : Ponto) : Dbl :=
  if P1.id = P2.id then Dbl.fin 0
  else arcoD E P1.latitude P1.longitude P2.latitude P2.longitude

/-- The great-circle formula of the environment `E` as a function into the rationals:
the value of the `double` it returns. -/
def arcoValor (E : Ambiente) (latitude1 longitude1 latitude2 longitude2 : ℚ) : ℚ :=
  (arcoD E latitude1 longitude1 latitude2 longitude2).valor

/-! ## Rounding to the nearest `double` -/

/-- The power `2^e` for an integer exponent. -/
def Dbl.pot2 (e : Int) : ℚ :=
  if 0 ≤ e then ((2 ^ e.toNat : Nat) : ℚ) else 1 / ((2 ^ (-e).toNat : Nat) : ℚ)

/-- The integer nearest to `k`, the even one when `k` is halfway between two integers. -/
def Dbl.inteiroProximo (k : ℚ) : Int :=
  let n := Rat.floor k
  let r := k - n
  if r < 1 / 2 then n else if r > 1 / 2 then n + 1 else if n % 2 = 0 then n else n + 1

/-- Number of binary digits of `n` (0 for 0), for `n` below `2^fuel`. -/
def Dbl.bits : Nat → Nat → Nat
  | 0, _ => 0
  | fuel + 1, n => if n = 0 then 0 else Dbl.bits fuel (n / 2) + 1

/-- Rounding of the binary64 format, to nearest with ties to even and unbounded
exponent: for `2^e <= |q| < 2^(e+1)` the result is the multiple of `2^(e-52)` nearest
to `q` (of `2^(-1074)` in the subnormal range).  The exponent `e` is computed from the
numbers of binary digits of the numerator and of the denominator of `q`, which are
counted up to 4096 digits. -/
def Dbl.arredonda (q : ℚ) : ℚ :=
  if q = 0 then 0
  else
    let e0 : Int := (Dbl.bits 4096 q.num.natAbs : Int) - (Dbl.bits 4096 q.den : Int)
    let e : Int := if Dbl.pot2 e0 ≤ |q| then e0 else e0 - 1
    let ulp : ℚ := Dbl.pot2 (max e (-1022) - 52)
    (Dbl.inteiroProximo (q / ulp) : ℚ) * ulp

/-- Rational stand-in for `sin` in concrete runs, with values in `[-1, 1]`. -/
def senoLim (x : ℚ) : ℚ := x / (1 + x * x)

/-- Rational stand-in for `cos` in concrete runs: even, with values in `[-1, 1]`. -/
def cossenoLim (x : ℚ) : ℚ := 1 / (1 + x * x)

/-- Environment of concrete runs without rounding error: every arithmetic result is
exact, and `sin`, `cos`, `acos` are the rational stand-ins. -/
def ambienteExato : Ambiente := ⟨fun q => q, senoLim, cossenoLim, acosQ⟩

/-- Environment of concrete runs in binary64 arithmetic: results are rounded to the
nearest `double`, and `sin`, `cos`, `acos` are the rounded rational stand-ins. -/
def ambienteBinario : Ambiente :=
  ⟨Dbl.arredonda, fun x => Dbl.arredonda (senoLim x), fun x => Dbl.arredonda (cossenoLim x),
    fun x => Dbl.arredonda (acosQ x)⟩

/-- Properties of the rounding to nearest that the proofs use: it is monotone, odd, and
exact on the integers up to `2^53`. -/
structure Arredondamento (arr : ℚ → ℚ) : Prop where
  monotono : ∀ x y, x ≤ y → arr x ≤ arr y
  impar : ∀ x, arr (-x) = -arr x
  inteiros : ∀ n : ℤ, |n| ≤ 2 ^ 53 → arr n = n

/-- Properties of `sin`, `cos` and `acos` that the proofs use: `sin` and `cos` take
their values in `[-1, 1]`, `cos` is even, `acos` maps `[-1, 1]` into `[0, PI]`, and the
bound `PI` is at most 4. -/
structure Cmath (E : Ambiente) (PI : ℚ) : Prop where
  sin_lim : ∀ x, |E.sin x| ≤ 1
  cos_lim : ∀ x, |E.cos x| ≤ 1
  cos_par : ∀ x, E.cos (-x) = E.cos x
  acos_lim : ∀ x, -1 ≤ x → x ≤ 1 → 0 ≤ E.acos x ∧ E.acos x ≤ PI
  pi_lim : PI ≤ 4

/-- The coordinates of a point are within the ranges of the data model: latitude in
`[-90, 90]` and longitude in `[-180, 180]`. -/
def Ponto.noGlobo (p : Ponto) : Prop :=
  |p.latitude| ≤ 90 ∧ |p.longitude| ≤ 180


/-! ## The search on `double` values -/

/-- Struct `Noh` with the fields `g` and `h` of type `double`. -/
structure NohD where
  id_pt : IDPonto
  id_rt : IDRota
  g : Dbl
  h : Dbl
deriving DecidableEq

/-- Method `Noh::f`: the rounded sum `g+h`, computed at each call. -/
def NohD.f (arr : ℚ → ℚ) (self : NohD) : Dbl := Dbl.add arr self.g self.h

/-- Stable insertion into a sorted list of nodes with `double` fields. -/
def insereOrdenadoD (comp : NohD → NohD → Bool) (a : NohD) : List NohD → List NohD
  | [] => [a]
  | b :: l => if comp b a then b :: insereOrdenadoD comp a l else a :: b :: l

/-- The stable rearrangement of a list of nodes with `double` fields: the result of
`std::list::sort` when the comparison is a strict weak ordering. -/
def sortD (comp : NohD → NohD → Bool) : List NohD → List NohD
  | [] => []
  | a :: l => insereOrdenadoD comp a (sortD comp l)

/-- The result of `calculaCaminho` with the returned value of type `double`. -/
structure SaidaD where
  comprimento : Dbl
  C : Caminho
  NA : Int
  NF : Int
deriving DecidableEq

/-- Body of the `for (const Rota& rota : rotas)` loop of `calculaCaminho` for one route,
on `double` values: `custo_g` is the rounded sum `atual.g + rota.comprimento`, `custo_h`
the value of `haversine`, and the test is `custo_g + custo_h < it->f()`. -/
def sucessorD (P : Planejador) (E : Ambiente) (pt_dest : Ponto)
    (atual : NohD) (Fechado : List NohD) (Aberto : List NohD) (rota : Rota) : List NohD :=
  if rota.extremidade0 ≠ atual.id_pt ∧ rota.extremidade1 ≠ atual.id_pt then Aberto
  else
    let id_suc := if rota.extremidade0 = atual.id_pt then rota.extremidade1
                  else rota.extremidade0
    if Fechado.any (fun n => decide (n.id_pt = id_suc)) then Aberto
    else
      let pt_suc := P.getPonto id_suc
      let custo_g := Dbl.add E.arr atual.g (Dbl.fin rota.comprimento)
      let custo_h := haversineD E pt_suc pt_dest
      match Aberto.find? (fun n => decide (n.id_pt = id_suc)) with
      | some it =>
        if Dbl.lt (Dbl.add E.arr custo_g custo_h) (it.f E.arr) then
          Aberto.eraseP (fun n => decide (n.id_pt = id_suc)) ++ [⟨id_suc, rota.id, custo_g, custo_h⟩]
        else Aberto
      | none => Aberto ++ [⟨id_suc, rota.id, custo_g, custo_h⟩]

/-- The inner `while (atual.id_rt != IDRota())` loop of `calculaCaminho` on nodes with
`double` fields. -/
def reconstroiD (P : Planejador) (Fechado : List NohD) :
    Nat → NohD → Caminho → Option Caminho
  | fuel, atual, C =>
    if atual.id_rt ≠ IDRota.default then
      match fuel with
      | 0 => none
      | fuel + 1 =>
        let C := (atual.id_rt, atual.id_pt) :: C
        let rota_ant := P.getRota atual.id_rt
        let atual : NohD := { atual with
          id_pt := if rota_ant.extremidade0 = atual.id_pt then rota_ant.extremidade1
                   else rota_ant.extremidade0 }
        match Fechado.find? (fun n => decide (n.id_pt = atual.id_pt)) with
        | some it => reconstroiD P Fechado fuel it C
        | none => reconstroiD P Fechado fuel atual C
    else some C

/-- The main loop `while (!Aberto.empty())` of `calculaCaminho` on `double` values,
followed by the "no solution" exit.  The parameter `ordena` is the library routine
`std::list::sort`, called with the comparison `a.f() < b.f()`. -/
def lacoD (P : Planejador) (E : Ambiente)
    (ordena : (NohD → NohD → Bool) → List NohD → List NohD) (id_destino : IDPonto)
    (pt_dest : Ponto) (fuelR : Nat) : Nat → List NohD → List NohD → Option SaidaD
  | fuel, Aberto, Fechado =>
    if Aberto.isEmpty then some ⟨Dbl.fin (-1), [], Aberto.length, Fechado.length⟩
    else
      match fuel with
      | 0 => none
      | fuel + 1 =>
        match ordena (fun a b => Dbl.lt (a.f E.arr) (b.f E.arr)) Aberto with
        | [] => none
        | atual :: Aberto =>
          if atual.id_pt = id_destino then
            match reconstroiD P Fechado fuelR atual [] with
            | some C => some ⟨atual.g, C, Aberto.length, Fechado.length + 1⟩
            | none => none
          else
            let Fechado := Fechado ++ [atual]
            lacoD P E ordena id_destino pt_dest fuelR fuel
              (P.rotas.foldl (sucessorD P E pt_dest atual Fechado) Aberto) Fechado

/-- Method `Planejador::calculaCaminho` on `double` values: the fields `g` and `h` of the
nodes, the returned length and every sum and comparison of the search are those of the
type `double` in the environment `E`. -/
def Planejador.calculaCaminhoD (self : Planejador) (E : Ambiente)
    (ordena : (NohD → NohD → Bool) → List NohD → List NohD)
    (id_origem id_destino : IDPonto) (_C : Caminho) (_NA _NF : Int) (fuel : Nat) :
    Option SaidaD :=
  if self.empty then some ⟨Dbl.fin (-1), [], -1, -1⟩
  else
    let pt_orig := self.getPonto id_origem
    if !pt_orig.valid then some ⟨Dbl.fin (-1), [], -1, -1⟩
    else
      let pt_dest := self.getPonto id_destino
      if !pt_dest.valid then some ⟨Dbl.fin (-1), [], -1, -1⟩
      else
        lacoD self E ordena id_destino pt_dest fuel fuel
          [⟨id_origem, IDRota.default, Dbl.fin 0, haversineD E pt_orig pt_dest⟩] []

/-- Accumulation, in a variable of type `double` that starts at `0.0`, of the
`comprimento` of the routes referenced by the steps of a path, in the order of the
path, each non-sentinel `IDRota` being looked up with `getRota`. -/
def somaCaminhoD (arr : ℚ → ℚ) (P : Planejador) (C : Caminho) : Dbl :=
  (C.filter (fun s => decide (s.1 ≠ IDRota.default))).foldl
    (fun acc s => Dbl.add arr acc (Dbl.fin (P.getRota s.1).comprimento)) (Dbl.fin 0)

/-- Node `n` was generated by the search on `double` values from the closed list `F`:
it is either the origin node or the extension of a node of `F` by one route of the
map, with `g` the rounded sum of the `g` of that node and the length of the route. -/
def NohOKD (P : Planejador) (arr : ℚ → ℚ) (id_origem : IDPonto) (F : List NohD)
    (n : NohD) : Prop :=
  (n.id_pt = id_origem ∧ n.id_rt = IDRota.default ∧ n.g = Dbl.fin 0) ∨
  (∃ m ∈ F, ∃ rota ∈ P.rotas, rota.liga m.id_pt n.id_pt ∧
      n.id_rt = rota.id ∧ n.g = Dbl.add arr m.g (Dbl.fin rota.comprimento))

/-- Invariant of the main loop of the search on `double` values. -/
structure InvD (P : Planejador) (arr : ℚ → ℚ) (id_origem : IDPonto)
    (A F : List NohD) : Prop where
  nodup : ((A ++ F).map (fun n => n.id_pt)).Nodup
  aberto : ∀ n ∈ A, NohOKD P arr id_origem F n
  fechado : ∀ F1 n F2, F = F1 ++ n :: F2 → NohOKD P arr id_origem F1 n

/-- Invariant of the `for` loop over the routes in the search on `double` values. -/
structure AbOKD (P : Planejador) (arr : ℚ → ℚ) (id_origem : IDPonto)
    (F A : List NohD) : Prop where
  nodup : (A.map (fun n => n.id_pt)).Nodup
  fora : ∀ n ∈ A, n.id_pt ∉ F.map (fun n => n.id_pt)
  gerado : ∀ n ∈ A, NohOKD P arr id_origem F n

/-- The steps `C` lead from `a` to `b` along routes of the map, and `L` is the `double`
accumulated from `0.0` by adding the lengths of the routes in the order of the steps. -/
inductive TrilhaD (P : Planejador) (arr : ℚ → ℚ) (a : IDPonto) :
    Caminho → IDPonto → Dbl → Prop
  | nil : TrilhaD P arr a [] a (Dbl.fin 0)
  | snoc {C : Caminho} {u v : IDPonto} {L : Dbl} {rota : Rota} :
      TrilhaD P arr a C u L → rota ∈ P.rotas → rota.liga u v →
      TrilhaD P arr a (C ++ [(rota.id, v)]) v (Dbl.add arr L (Dbl.fin rota.comprimento))

/-- Map with route lengths that are not sums of few powers of two: points `#A`, `#B`,
`#C`, `#D` on the equator and routes `&R1` (`#A`-`#B`), `&R2` (`#B`-`#C`), `&R3`
(`#C`-`#D`) whose lengths are the values of type `double` nearest to 0.1, 0.2 and 0.3. -/
def mapaDecimos : Planejador where
  pontos := [⟨⟨"#A"⟩, "Ponto A", 0, 0⟩, ⟨⟨"#B"⟩, "Ponto B", 0, 1⟩,
    ⟨⟨"#C"⟩, "Ponto C", 0, 2⟩, ⟨⟨"#D"⟩, "Ponto D", 0, 3⟩]
  rotas := [⟨⟨"&R1"⟩, "Rota 1", ⟨"#A"⟩, ⟨"#B"⟩, Dbl.arredonda (1 / 10)⟩,
    ⟨⟨"&R2"⟩, "Rota 2", ⟨"#B"⟩, ⟨"#C"⟩, Dbl.arredonda (2 / 10)⟩,
    ⟨⟨"&R3"⟩, "Rota 3", ⟨"#C"⟩, ⟨"#D"⟩, Dbl.arredonda (3 / 10)⟩]


/-! ## The call as a transformation of the memory -/

/-- The memory a call of `calculaCaminho` can read and write: the object `*this` (the
lists `pontos` and `rotas`) and the variables bound to the reference parameters `C`,
`NA` and `NF`. -/
structure Memoria where
  planejador : Planejador
  C : Caminho
  NA : Int
  NF : Int

/-- Method `Planejador::calculaCaminho` in state-passing form, on `double` values: the
returned `double` and the memory after the call.  `C.clear()` is executed first; the
`catch` block assigns `NA = NF = -1`; the exits of the main loop assign `C`, `NA` and
`NF` (the "no solution" exit leaves in `C` the empty list of the initial `C.clear()`);
no statement assigns `pontos` or `rotas`. -/
def calculaCaminhoMem (m : Memoria) (E : Ambiente)
    (ordena : (NohD → NohD → Bool) → List NohD → List NohD)
    (id_origem id_destino : IDPonto) (fuel : Nat) : Option (Dbl × Memoria) :=
  let m : Memoria := { m with C := [] }
  if m.planejador.empty then some (Dbl.fin (-1), { m with NA := -1, NF := -1 })
  else
    let pt_orig := m.planejador.getPonto id_origem
    if !pt_orig.valid then some (Dbl.fin (-1), { m with NA := -1, NF := -1 })
    else
      let pt_dest := m.planejador.getPonto id_destino
      if !pt_dest.valid then some (Dbl.fin (-1), { m with NA := -1, NF := -1 })
      else
        match lacoD m.planejador E ordena id_destino pt_dest fuel fuel
            [⟨id_origem, IDRota.default, Dbl.fin 0, haversineD E pt_orig pt_dest⟩] [] with
        | some r => some (r.comprimento, { m with C := r.C, NA := r.NA, NF := r.NF })
        | none => none

/-! ## Exact runs of the search on `double` values -/

/-- A node of the search in exact arithmetic, as a node with finite `double` fields. -/
def Noh.paraD (n : Noh) : NohD := ⟨n.id_pt, n.id_rt, Dbl.fin n.g, Dbl.fin n.h⟩

/-- A result of the search in exact arithmetic, as a result with a finite length. -/
def Saida.paraD (r : Saida) : SaidaD := ⟨Dbl.fin r.comprimento, r.C, r.NA, r.NF⟩

/-- The costs the search stores in the field `g` of a node of the point `v` when every
closed node carries the length of a shortest route sequence from the origin: 0 for the
origin, and the length `L` of a shortest route sequence from the origin to a neighbour
`u` of `v` plus the length of a route joining `u` and `v`. -/
def Gerado (P : Planejador) (id_origem : IDPonto) (v : IDPonto) (x : ℚ) : Prop :=
  (v = id_origem ∧ x = 0) ∨
  ∃ u L rota, Alcanca P id_origem u L ∧ (∀ L', Alcanca P id_origem u L' → L ≤ L') ∧
    rota ∈ P.rotas ∧ rota.liga u v ∧ x = L + rota.comprimento

/-- The floating-point operations of a search from `id_origem` to `id_destino` are free
of rounding error and overflow where it matters: `haversine` to the destination is
finite at every point of the map; the sum `atual.g + rota.comprimento` is exact when
`atual.g` is the length of a shortest route sequence from the origin; and the
comparison `<` of two sums `g + h` gives the order of the exact sums. -/
structure SomasExatas (P : Planejador) (E : Ambiente) (id_origem id_destino : IDPonto) :
    Prop where
  finita : ∀ p ∈ P.pontos, ∃ q, haversineD E p (P.getPonto id_destino) = Dbl.fin q
  custo : ∀ u L, Alcanca P id_origem u L → (∀ L', Alcanca P id_origem u L' → L ≤ L') →
    ∀ rota ∈ P.rotas, ∀ v, rota.liga u v →
      Dbl.add E.arr (Dbl.fin L) (Dbl.fin rota.comprimento) = Dbl.fin (L + rota.comprimento)
  ordem : ∀ v1 x1 v2 x2, Gerado P id_origem v1 x1 → Gerado P id_origem v2 x2 →
    Dbl.lt
        (Dbl.add E.arr (Dbl.fin x1)
          (Dbl.fin (heuristica P (arcoValor E) (P.getPonto id_destino) v1)))
        (Dbl.add E.arr (Dbl.fin x2)
          (Dbl.fin (heuristica P (arcoValor E) (P.getPonto id_destino) v2)))
      = decide (x1 + heuristica P (arcoValor E) (P.getPonto id_destino) v1
          < x2 + heuristica P (arcoValor E) (P.getPonto id_destino) v2)


/-- Map with three points at the same coordinates, so that the heuristic is 0
everywhere, and routes `&R1` (`#S`-`#A`, 3 km), `&R2` (`#A`-`#G`, 10^16 km) and `&R3`
(`#S`-`#G`, 10^16 + 4 km): in binary64 arithmetic `3 + 10^16` is rounded to
`10^16 + 4`. -/
def mapaGrande : Planejador where
  pontos := [⟨⟨"#S"⟩, "Ponto S", 0, 0⟩, ⟨⟨"#A"⟩, "Ponto A", 0, 0⟩, ⟨⟨"#G"⟩, "Ponto G", 0, 0⟩]
  rotas := [⟨⟨"&R1"⟩, "Rota 1", ⟨"#S"⟩, ⟨"#A"⟩, 3⟩,
    ⟨⟨"&R2"⟩, "Rota 2", ⟨"#A"⟩, ⟨"#G"⟩, 10000000000000000⟩,
    ⟨⟨"&R3"⟩, "Rota 3", ⟨"#S"⟩, ⟨"#G"⟩, 10000000000000004⟩]


/-- Length of the shortest route sequence from `#A` to each point of `mapaEquador`. -/
def distanciaEquador (v : IDPonto) : ℚ :=
  if v = ⟨"#B"⟩ then 112 else if v = ⟨"#C"⟩ then 224 else 0

/-- The costs that `Gerado` allows on `mapaEquador` for a search from `#A`. -/
def geradosEquador : List (IDPonto × ℚ) :=
  [(⟨"#A"⟩, 0), (⟨"#B"⟩, 112), (⟨"#A"⟩, 224), (⟨"#C"⟩, 224), (⟨"#B"⟩, 336)]


/-! # Theorems -/

/-! ## Identifiers -/

theorem get_zero_eq_head (s : String) (c : Char) (h : 1 ≤ s.length) :
    (s.get 0 = c) ↔ s.data.head? = some c := by
  rcases s with ⟨data⟩
  cases data with
  | nil => simp [String.length] at h
  | cons a l => simp [String.get, String.utf8GetAux]

theorem IDPonto_valid_iff (i : IDPonto) : i.valid = true ↔ bemFormado '#' i.t := by
  unfold IDPonto.valid bemFormado
  by_cases h : 2 ≤ i.t.length
  · have h1 : 1 ≤ i.t.length := by omega
    simp [h, get_zero_eq_head _ _ h1]
  · simp [h]

theorem IDRota_valid_iff (i : IDRota) : i.valid = true ↔ bemFormado '&' i.t := by
  unfold IDRota.valid bemFormado
  by_cases h : 2 ≤ i.t.length
  · have h1 : 1 ≤ i.t.length := by omega
    simp [h, get_zero_eq_head _ _ h1]
  · simp [h]

theorem IDPonto_default_not_valid : IDPonto.default.valid = false := by decide

theorem IDRota_default_not_valid : IDRota.default.valid = false := by decide

/-- C10: after `set(s)` the identifier stores `s`, is valid and equals exactly the
identifiers storing `s` when `s` has length at least 2 and starts with the sigil;
otherwise it stores the empty string, is invalid and equals the default-constructed
identifier.  Holds for `IDPonto` (sigil `#`) and for `IDRota` (sigil `&`). -/
theorem set_spec (s : String) :
    (∀ self : IDPonto,
      (bemFormado '#' s →
        (self.set s).t = s ∧ (self.set s).valid = true ∧
        ∀ outro : IDPonto, (self.set s = outro ↔ outro.t = s)) ∧
      (¬ bemFormado '#' s →
        (self.set s).t = "" ∧ (self.set s).valid = false ∧
        self.set s = IDPonto.default)) ∧
    (∀ self : IDRota,
      (bemFormado '&' s →
        (self.set s).t = s ∧ (self.set s).valid = true ∧
        ∀ outro : IDRota, (self.set s = outro ↔ outro.t = s)) ∧
      (¬ bemFormado '&' s →
        (self.set s).t = "" ∧ (self.set s).valid = false ∧
        self.set s = IDRota.default)) := by
  refine ⟨fun self => ⟨fun h => ?_, fun h => ?_⟩, fun self => ⟨fun h => ?_, fun h => ?_⟩⟩
  · have hv : (IDPonto.mk s).valid = true := (IDPonto_valid_iff ⟨s⟩).2 h
    have hs : self.set s = ⟨s⟩ := by simp [IDPonto.set, hv]
    rw [hs]
    refine ⟨rfl, hv, fun outro => ?_⟩
    constructor
    · intro e; rw [← e]
    · intro e; cases outro; simp_all
  · have hv : (IDPonto.mk s).valid = false := by
      cases hb : (IDPonto.mk s).valid
      · rfl
      · exact absurd ((IDPonto_valid_iff ⟨s⟩).1 hb) h
    have hs : self.set s = ⟨""⟩ := by simp [IDPonto.set, hv]
    rw [hs]
    exact ⟨rfl, IDPonto_default_not_valid, rfl⟩
  · have hv : (IDRota.mk s).valid = true := (IDRota_valid_iff ⟨s⟩).2 h
    have hs : self.set s = ⟨s⟩ := by simp [IDRota.set, hv]
    rw [hs]
    refine ⟨rfl, hv, fun outro => ?_⟩
    constructor
    · intro e; rw [← e]
    · intro e; cases outro; simp_all
  · have hv : (IDRota.mk s).valid = false := by
      cases hb : (IDRota.mk s).valid
      · rfl
      · exact absurd ((IDRota_valid_iff ⟨s⟩).1 hb) h
    have hs : self.set s = ⟨""⟩ := by simp [IDRota.set, hv]
    rw [hs]
    exact ⟨rfl, IDRota_default_not_valid, rfl⟩

/-! ## Lookup -/

theorem getPonto_ausente (P : Planejador) (Id : IDPonto)
    (h : ∀ p ∈ P.pontos, p.id ≠ Id) : P.getPonto Id = Ponto.default := by
  have : P.pontos.find? (fun ponto => decide (ponto.id = Id)) = none := by
    rw [List.find?_eq_none]
    intro p hp
    simpa using h p hp
  simp [Planejador.getPonto, this]

theorem Ponto_default_not_valid : Ponto.default.valid = false := by decide

theorem getPonto_presente (P : Planejador) (Id : IDPonto)
    (h : ∃ p ∈ P.pontos, p.id = Id) : P.getPonto Id ∈ P.pontos ∧ (P.getPonto Id).id = Id := by
  obtain ⟨p, hp, hid⟩ := h
  cases hf : P.pontos.find? (fun ponto => decide (ponto.id = Id)) with
  | none =>
    rw [List.find?_eq_none] at hf
    exact absurd hid (by simpa using hf p hp)
  | some q =>
    have h1 := List.mem_of_find?_eq_some hf
    have h2 := List.find?_some hf
    simp only [Planejador.getPonto, hf]
    exact ⟨h1, by simpa using h2⟩

theorem find_unico {α β : Type} [DecidableEq β] (f : α → β) :
    ∀ (l : List α) (a : α), a ∈ l → (l.map f).Nodup →
      l.find? (fun x => decide (f x = f a)) = some a := by
  intro l
  induction l with
  | nil => intro a ha; simp at ha
  | cons b l ih =>
    intro a ha hnd
    rw [List.map_cons, List.nodup_cons] at hnd
    rcases List.mem_cons.1 ha with rfl | hal
    · simp
    · have hne : f b ≠ f a := by
        intro e
        exact hnd.1 (e ▸ List.mem_map_of_mem f hal)
      rw [List.find?_cons_of_neg _ (by simpa using hne)]
      exact ih a hal hnd.2

theorem getRota_unica (P : Planejador) (hnd : (P.rotas.map (fun r => r.id)).Nodup)
    (rota : Rota) (h : rota ∈ P.rotas) : P.getRota rota.id = rota := by
  have := find_unico (fun r : Rota => r.id) P.rotas rota h hnd
  simp only [Planejador.getRota, this]

/-! ## The stable sort -/

theorem insereOrdenado_perm (comp : Noh → Noh → Bool) (a : Noh) :
    ∀ l : List Noh, (insereOrdenado comp a l).Perm (a :: l) := by
  intro l
  induction l with
  | nil => exact List.Perm.refl _
  | cons b l ih =>
    unfold insereOrdenado
    split
    · exact ((List.Perm.cons b ih).trans (List.Perm.swap a b l))
    · exact List.Perm.refl _

theorem sort_perm (comp : Noh → Noh → Bool) : ∀ l : List Noh, (sort comp l).Perm l := by
  intro l
  induction l with
  | nil => exact List.Perm.refl _
  | cons a l ih =>
    unfold sort
    exact (insereOrdenado_perm comp a _).trans (List.Perm.cons a ih)

theorem insereOrdenado_min (a : Noh) :
    ∀ (l : List Noh) (x : Noh) (xs : List Noh),
      (∀ y ys, l = y :: ys → ∀ n ∈ ys, y.f ≤ n.f) →
      insereOrdenado (fun a b => decide (a.f < b.f)) a l = x :: xs → ∀ n ∈ xs, x.f ≤ n.f := by
  intro l
  cases l with
  | nil =>
    intro x xs _ h n hn
    simp only [insereOrdenado, List.cons.injEq] at h
    rw [← h.2] at hn
    simp at hn
  | cons b l =>
    intro x xs hl h n hn
    have hb := hl b l rfl
    unfold insereOrdenado at h
    split at h
    · rename_i hba
      simp only [List.cons.injEq] at h
      rw [← h.2] at hn
      rw [← h.1]
      have hba' : b.f < a.f := by simpa using hba
      have hmem : n ∈ a :: l := (insereOrdenado_perm _ a l).mem_iff.1 hn
      rcases List.mem_cons.1 hmem with rfl | hn'
      · exact le_of_lt hba'
      · exact hb n hn'
    · rename_i hba
      simp only [List.cons.injEq] at h
      rw [← h.2] at hn
      rw [← h.1]
      have hba' : a.f ≤ b.f := by simpa using hba
      rcases List.mem_cons.1 hn with rfl | hn'
      · exact hba'
      · exact le_trans hba' (hb n hn')

theorem sort_min : ∀ (l : List Noh) (x : Noh) (xs : List Noh),
    sort (fun a b => decide (a.f < b.f)) l = x :: xs → ∀ n ∈ xs, x.f ≤ n.f := by
  intro l
  induction l with
  | nil => intro x xs h; simp [sort] at h
  | cons a l ih =>
    intro x xs h
    unfold sort at h
    exact insereOrdenado_min a _ x xs (fun y ys e => ih y ys e) h

/-! ## Route sequences -/

theorem liga_symm {r : Rota} {u v : IDPonto} (h : r.liga u v) : r.liga v u := by
  rcases h with ⟨h0, h1⟩ | ⟨h1, h0⟩
  · exact Or.inr ⟨h1, h0⟩
  · exact Or.inl ⟨h0, h1⟩

theorem conecta_cons_iff (P : Planejador) (a b : IDPonto) (r : Rota) (rs : List Rota) :
    conecta P a (r :: rs) b ↔ r ∈ P.rotas ∧ ∃ u, r.liga a u ∧ conecta P u rs b := by
  simp only [conecta]
  constructor
  · rintro ⟨hr, ⟨h0, hc⟩ | ⟨h1, hc⟩⟩
    · exact ⟨hr, _, Or.inl ⟨h0, rfl⟩, hc⟩
    · exact ⟨hr, _, Or.inr ⟨h1, rfl⟩, hc⟩
  · rintro ⟨hr, u, ⟨h0, h1⟩ | ⟨h1, h0⟩, hc⟩
    · exact ⟨hr, Or.inl ⟨h0, h1 ▸ hc⟩⟩
    · exact ⟨hr, Or.inr ⟨h1, h0 ▸ hc⟩⟩

theorem alcanca_cons (P : Planejador) {a u : IDPonto} {rota : Rota} (hr : rota ∈ P.rotas)
    (hl : rota.liga a u) {b : IDPonto} {L : ℚ} (h : Alcanca P u b L) :
    Alcanca P a b (rota.comprimento + L) := by
  induction h with
  | refl =>
    have h0 : Alcanca P a a 0 := Alcanca.refl
    have := Alcanca.passo h0 hr hl
    simpa using this
  | passo _ hr2 hl2 ih =>
    have := Alcanca.passo ih hr2 hl2
    rw [add_assoc] at this
    exact this

theorem conecta_alcanca (P : Planejador) :
    ∀ (rs : List Rota) (a b : IDPonto), conecta P a rs b →
      Alcanca P a b (comprimentoTotal rs) := by
  intro rs
  induction rs with
  | nil =>
    intro a b h
    simp only [conecta] at h
    subst h
    exact Alcanca.refl
  | cons r rs ih =>
    intro a b h
    obtain ⟨hr, u, hl, hc⟩ := (conecta_cons_iff P a b r rs).1 h
    have := alcanca_cons P hr hl (ih u b hc)
    simpa [comprimentoTotal] using this

theorem conecta_snoc (P : Planejador) {rota : Rota} (hr : rota ∈ P.rotas) {u v : IDPonto}
    (hl : rota.liga u v) :
    ∀ (rs : List Rota) (a : IDPonto), conecta P a rs u → conecta P a (rs ++ [rota]) v := by
  intro rs
  induction rs with
  | nil =>
    intro a h
    simp only [conecta] at h
    subst h
    exact (conecta_cons_iff P _ _ _ _).2 ⟨hr, v, hl, rfl⟩
  | cons r rs ih =>
    intro a h
    obtain ⟨hr1, w, hl1, hc⟩ := (conecta_cons_iff P _ _ _ _).1 h
    exact (conecta_cons_iff P _ _ _ _).2 ⟨hr1, w, hl1, ih w hc⟩

theorem alcanca_conecta (P : Planejador) {a b : IDPonto} {L : ℚ} (h : Alcanca P a b L) :
    ∃ rs, conecta P a rs b ∧ comprimentoTotal rs = L := by
  induction h with
  | refl => exact ⟨[], rfl, rfl⟩
  | passo _ hr hl ih =>
    obtain ⟨rs, hc, hL⟩ := ih
    refine ⟨rs ++ [_], conecta_snoc P hr hl rs a hc, ?_⟩
    simp [comprimentoTotal] at hL ⊢
    rw [hL]

theorem consistente_liga {P : Planejador} {arco : ℚ → ℚ → ℚ → ℚ → ℚ} {pt_dest : Ponto}
    (hc : Consistente P arco pt_dest) {rota : Rota} (hr : rota ∈ P.rotas) {u v : IDPonto}
    (hl : rota.liga u v) :
    heuristica P arco pt_dest u ≤ rota.comprimento + heuristica P arco pt_dest v := by
  rcases hl with ⟨h0, h1⟩ | ⟨h1, h0⟩
  · rw [← h0, ← h1]; exact (hc rota hr).1
  · rw [← h0, ← h1]; exact (hc rota hr).2

/-! ## One route of the expansion loop -/

theorem eraseP_sem_id {α β : Type} [DecidableEq β] (f : α → β) (v : β) :
    ∀ l : List α, (l.map f).Nodup →
      ∀ a ∈ l.eraseP (fun x => decide (f x = v)), f a ≠ v := by
  intro l
  induction l with
  | nil => intro _ a ha; simp at ha
  | cons b l ih =>
    intro hnd a ha
    rw [List.map_cons, List.nodup_cons] at hnd
    by_cases hb : f b = v
    · rw [List.eraseP_cons_of_pos (by simpa using hb)] at ha
      intro e
      exact hnd.1 (hb ▸ e ▸ List.mem_map_of_mem f ha)
    · rw [List.eraseP_cons_of_neg (by simpa using hb)] at ha
      rcases List.mem_cons.1 ha with rfl | ha'
      · exact hb
      · exact ih hnd.2 a ha'

theorem nohOK_mono {P : Planejador} {arco : ℚ → ℚ → ℚ → ℚ → ℚ} {id_origem : IDPonto}
    {pt_dest : Ponto} {F F' : List Noh} (hsub : ∀ m ∈ F, m ∈ F') {n : Noh}
    (h : NohOK P arco id_origem pt_dest F n) : NohOK P arco id_origem pt_dest F' n := by
  refine ⟨h.1, ?_⟩
  rcases h.2 with ho | ⟨m, hm, rest⟩
  · exact Or.inl ho
  · exact Or.inr ⟨m, hsub m hm, rest⟩

theorem id_suc_liga {rota : Rota} {a v : IDPonto} (h : rota.liga a v) :
    (if rota.extremidade0 = a then rota.extremidade1 else rota.extremidade0) = v := by
  rcases h with ⟨h0, h1⟩ | ⟨h1, h0⟩
  · simp [h0, h1]
  · by_cases e : rota.extremidade0 = a
    · simp only [e, if_true]; rw [h1, ← h0, e]
    · simp only [e, if_false]; exact h0

theorem sucessor_of_liga (P : Planejador) (arco : ℚ → ℚ → ℚ → ℚ → ℚ) (pt_dest : Ponto)
    (atual : Noh) (F A : List Noh) (rota : Rota) (v : IDPonto)
    (hl : rota.liga atual.id_pt v) (hv : v ∉ F.map (fun n => n.id_pt)) :
    sucessor P arco pt_dest atual F A rota =
      match A.find? (fun n => decide (n.id_pt = v)) with
      | some it =>
        if atual.g + rota.comprimento + heuristica P arco pt_dest v < it.f then
          A.eraseP (fun n => decide (n.id_pt = v)) ++
            [⟨v, rota.id, atual.g + rota.comprimento, heuristica P arco pt_dest v⟩]
        else A
      | none =>
        A ++ [⟨v, rota.id, atual.g + rota.comprimento, heuristica P arco pt_dest v⟩] := by
  have hinc : ¬ (rota.extremidade0 ≠ atual.id_pt ∧ rota.extremidade1 ≠ atual.id_pt) := by
    rcases hl with ⟨h0, _⟩ | ⟨h1, _⟩
    · exact fun h => h.1 h0
    · exact fun h => h.2 h1
  have hany : F.any (fun n => decide (n.id_pt = v)) = false := by
    rw [List.any_eq_false]
    intro n hn
    have : n.id_pt ≠ v := fun e => hv (e ▸ List.mem_map_of_mem (fun n => n.id_pt) hn)
    simpa using this
  unfold sucessor
  simp only [if_neg hinc, id_suc_liga hl, hany, Bool.false_eq_true, if_false, heuristica]

theorem sucessor_cases (P : Planejador) (arco : ℚ → ℚ → ℚ → ℚ → ℚ) (pt_dest : Ponto)
    (atual : Noh) (F A : List Noh) (rota : Rota) :
    sucessor P arco pt_dest atual F A rota = A ∨
      ∃ v, rota.liga atual.id_pt v ∧ v ∉ F.map (fun n => n.id_pt) := by
  by_cases hinc : rota.extremidade0 ≠ atual.id_pt ∧ rota.extremidade1 ≠ atual.id_pt
  · left; unfold sucessor; simp only [if_pos hinc]
  · by_cases hany : F.any (fun n => decide (n.id_pt =
        (if rota.extremidade0 = atual.id_pt then rota.extremidade1
          else rota.extremidade0))) = true
    · left; unfold sucessor; simp only [if_neg hinc, hany, if_true]
    · right
      refine ⟨if rota.extremidade0 = atual.id_pt then rota.extremidade1
          else rota.extremidade0, ?_, ?_⟩
      · by_cases e : rota.extremidade0 = atual.id_pt
        · simp only [e, if_true]; exact Or.inl ⟨e, rfl⟩
        · simp only [e, if_false]
          have e1 : rota.extremidade1 = atual.id_pt := by
            by_contra e1; exact hinc ⟨e, e1⟩
          exact Or.inr ⟨e1, rfl⟩
      · intro hmem
        apply hany
        rw [List.any_eq_true]
        obtain ⟨n, hn, hid⟩ := List.mem_map.1 hmem
        exact ⟨n, hn, by simpa using hid⟩

theorem sucessor_abOK {P : Planejador} {arco : ℚ → ℚ → ℚ → ℚ → ℚ} {id_origem : IDPonto}
    {pt_dest : Ponto} {atual : Noh} {F A : List Noh} {rota : Rota}
    (hA : AbOK P arco id_origem pt_dest F A) (hr : rota ∈ P.rotas) (hat : atual ∈ F) :
    AbOK P arco id_origem pt_dest F (sucessor P arco pt_dest atual F A rota) := by
  rcases sucessor_cases P arco pt_dest atual F A rota with h | ⟨v, hl, hv⟩
  · rw [h]; exact hA
  · rw [sucessor_of_liga P arco pt_dest atual F A rota v hl hv]
    have hne : atual.id_pt ≠ v :=
      fun e => hv (e ▸ List.mem_map_of_mem (fun n => n.id_pt) hat)
    have hnovo : NohOK P arco id_origem pt_dest F
        ⟨v, rota.id, atual.g + rota.comprimento, heuristica P arco pt_dest v⟩ :=
      ⟨rfl, Or.inr ⟨atual, hat, rota, hr, hl, hne, rfl, rfl⟩⟩
    cases hf : A.find? (fun n => decide (n.id_pt = v)) with
    | none =>
      simp only []
      rw [List.find?_eq_none] at hf
      refine ⟨?_, ?_, ?_⟩
      · rw [List.map_append, List.nodup_append]
        refine ⟨hA.nodup, by simp, ?_⟩
        intro x hx hx'
        simp only [List.map_cons, List.map_nil, List.mem_singleton] at hx'
        obtain ⟨n, hn, hid⟩ := List.mem_map.1 hx
        have := hf n hn
        simp only [decide_eq_true_eq] at this
        exact this (hid.trans hx')
      · intro n hn
        rcases List.mem_append.1 hn with h | h
        · exact hA.fora n h
        · rw [List.mem_singleton.1 h]; exact hv
      · intro n hn
        rcases List.mem_append.1 hn with h | h
        · exact hA.gerado n h
        · rw [List.mem_singleton.1 h]; exact hnovo
    | some it =>
      simp only []
      split
      · refine ⟨?_, ?_, ?_⟩
        · rw [List.map_append, List.nodup_append]
          refine ⟨hA.nodup.sublist ((List.eraseP_sublist A).map _), by simp, ?_⟩
          intro x hx hx'
          simp only [List.map_cons, List.map_nil, List.mem_singleton] at hx'
          obtain ⟨n, hn, hid⟩ := List.mem_map.1 hx
          exact eraseP_sem_id (fun n : Noh => n.id_pt) v A hA.nodup n hn (hid.trans hx')
        · intro n hn
          rcases List.mem_append.1 hn with h | h
          · exact hA.fora n (List.mem_of_mem_eraseP h)
          · rw [List.mem_singleton.1 h]; exact hv
        · intro n hn
          rcases List.mem_append.1 hn with h | h
          · exact hA.gerado n (List.mem_of_mem_eraseP h)
          · rw [List.mem_singleton.1 h]; exact hnovo
      · exact hA

theorem sucessor_mantem {P : Planejador} {arco : ℚ → ℚ → ℚ → ℚ → ℚ} {id_origem : IDPonto}
    {pt_dest : Ponto} {atual : Noh} {F A : List Noh} {rota : Rota}
    (hA : AbOK P arco id_origem pt_dest F A) {w : IDPonto} {c : ℚ}
    (h : ∃ n ∈ A, n.id_pt = w ∧ n.g ≤ c) :
    ∃ n ∈ sucessor P arco pt_dest atual F A rota, n.id_pt = w ∧ n.g ≤ c := by
  rcases sucessor_cases P arco pt_dest atual F A rota with hs | ⟨v, hl, hv⟩
  · rw [hs]; exact h
  · rw [sucessor_of_liga P arco pt_dest atual F A rota v hl hv]
    obtain ⟨n, hn, hid, hg⟩ := h
    cases hf : A.find? (fun n => decide (n.id_pt = v)) with
    | none => exact ⟨n, List.mem_append_left _ hn, hid, hg⟩
    | some it =>
      simp only []
      split
      · rename_i hlt
        by_cases e : n.id_pt = v
        · have hit : it ∈ A := List.mem_of_find?_eq_some hf
          have hitv : it.id_pt = v := by simpa using List.find?_some hf
          have hnit : n = it :=
            List.inj_on_of_nodup_map hA.nodup hn hit (e.trans hitv.symm)
          have hh : n.h = heuristica P arco pt_dest v := by
            rw [(hA.gerado n hn).1, e]
          refine ⟨_, List.mem_append_right _ (List.mem_singleton.2 rfl), e ▸ hid, ?_⟩
          rw [← hnit, Noh.f, hh] at hlt
          simp only
          linarith
        · refine ⟨n, List.mem_append_left _ ?_, hid, hg⟩
          exact (List.mem_eraseP_of_neg (by simpa using e)).2 hn
      · exact ⟨n, hn, hid, hg⟩

theorem sucessor_cobre {P : Planejador} {arco : ℚ → ℚ → ℚ → ℚ → ℚ} {id_origem : IDPonto}
    {pt_dest : Ponto} {atual : Noh} {F A : List Noh} {rota : Rota}
    (hA : AbOK P arco id_origem pt_dest F A) {v : IDPonto}
    (hl : rota.liga atual.id_pt v) (hv : v ∉ F.map (fun n => n.id_pt)) :
    ∃ n ∈ sucessor P arco pt_dest atual F A rota,
      n.id_pt = v ∧ n.g ≤ atual.g + rota.comprimento := by
  rw [sucessor_of_liga P arco pt_dest atual F A rota v hl hv]
  cases hf : A.find? (fun n => decide (n.id_pt = v)) with
  | none => exact ⟨_, List.mem_append_right _ (List.mem_singleton.2 rfl), rfl, le_refl _⟩
  | some it =>
    simp only []
    split
    · exact ⟨_, List.mem_append_right _ (List.mem_singleton.2 rfl), rfl, le_refl _⟩
    · rename_i hlt
      have hit : it ∈ A := List.mem_of_find?_eq_some hf
      have hitv : it.id_pt = v := by simpa using List.find?_some hf
      have hh : it.h = heuristica P arco pt_dest v := by
        rw [(hA.gerado it hit).1, hitv]
      refine ⟨it, hit, hitv, ?_⟩
      rw [Noh.f, hh] at hlt
      linarith

/-! ## The whole expansion loop -/

theorem expande_abOK {P : Planejador} {arco : ℚ → ℚ → ℚ → ℚ → ℚ} {id_origem : IDPonto}
    {pt_dest : Ponto} {atual : Noh} {F : List Noh} (hat : atual ∈ F) :
    ∀ (rs : List Rota) (A : List Noh), (∀ r ∈ rs, r ∈ P.rotas) →
      AbOK P arco id_origem pt_dest F A →
      AbOK P arco id_origem pt_dest F (rs.foldl (sucessor P arco pt_dest atual F) A) := by
  intro rs
  induction rs with
  | nil => intro A _ hA; exact hA
  | cons r rs ih =>
    intro A hsub hA
    rw [List.foldl_cons]
    exact ih _ (fun x hx => hsub x (List.mem_cons_of_mem _ hx))
      (sucessor_abOK hA (hsub r (List.mem_cons_self _ _)) hat)

theorem expande_mantem {P : Planejador} {arco : ℚ → ℚ → ℚ → ℚ → ℚ} {id_origem : IDPonto}
    {pt_dest : Ponto} {atual : Noh} {F : List Noh} (hat : atual ∈ F) {w : IDPonto} {c : ℚ} :
    ∀ (rs : List Rota) (A : List Noh), (∀ r ∈ rs, r ∈ P.rotas) →
      AbOK P arco id_origem pt_dest F A → (∃ n ∈ A, n.id_pt = w ∧ n.g ≤ c) →
      ∃ n ∈ rs.foldl (sucessor P arco pt_dest atual F) A, n.id_pt = w ∧ n.g ≤ c := by
  intro rs
  induction rs with
  | nil => intro A _ _ h; exact h
  | cons r rs ih =>
    intro A hsub hA h
    rw [List.foldl_cons]
    exact ih _ (fun x hx => hsub x (List.mem_cons_of_mem _ hx))
      (sucessor_abOK hA (hsub r (List.mem_cons_self _ _)) hat) (sucessor_mantem hA h)

theorem expande_cobre {P : Planejador} {arco : ℚ → ℚ → ℚ → ℚ → ℚ} {id_origem : IDPonto}
    {pt_dest : Ponto} {atual : Noh} {F : List Noh} (hat : atual ∈ F) {rota : Rota}
    {v : IDPonto} (hl : rota.liga atual.id_pt v) (hv : v ∉ F.map (fun n => n.id_pt)) :
    ∀ (rs : List Rota) (A : List Noh), (∀ r ∈ rs, r ∈ P.rotas) → rota ∈ rs →
      AbOK P arco id_origem pt_dest F A →
      ∃ n ∈ rs.foldl (sucessor P arco pt_dest atual F) A,
        n.id_pt = v ∧ n.g ≤ atual.g + rota.comprimento := by
  intro rs
  induction rs with
  | nil => intro A _ hmem; simp at hmem
  | cons r rs ih =>
    intro A hsub hmem hA
    rw [List.foldl_cons]
    have hA' : AbOK P arco id_origem pt_dest F (sucessor P arco pt_dest atual F A r) :=
      sucessor_abOK hA (hsub r (List.mem_cons_self _ _)) hat
    have hsub' : ∀ x ∈ rs, x ∈ P.rotas := fun x hx => hsub x (List.mem_cons_of_mem _ hx)
    rcases List.mem_cons.1 hmem with rfl | hin
    · exact expande_mantem hat rs _ hsub' hA' (sucessor_cobre hA hl hv)
    · exact ih _ hsub' hin hA'

/-! ## Consequences of the loop invariant -/

theorem inv_perm {P : Planejador} {arco : ℚ → ℚ → ℚ → ℚ → ℚ} {id_origem id_destino : IDPonto}
    {pt_dest : Ponto} {A A' F : List Noh} (h : Inv P arco id_origem id_destino pt_dest A F)
    (hp : A'.Perm A) : Inv P arco id_origem id_destino pt_dest A' F := by
  refine ⟨?_, ?_, h.fechado, ?_, ?_, h.destino, h.otimo⟩
  · exact (((hp.append_right F).map _).nodup_iff).2 h.nodup
  · intro n hn; exact h.aberto n (hp.mem_iff.1 hn)
  · rcases h.origem with ho | ⟨n, hn, rest⟩
    · exact Or.inl ho
    · exact Or.inr ⟨n, hp.mem_iff.2 hn, rest⟩
  · intro m hm rota hr v hl hv
    obtain ⟨n, hn, rest⟩ := h.fronteira m hm rota hr v hl hv
    exact ⟨n, hp.mem_iff.2 hn, rest⟩

theorem inv_inicial (P : Planejador) (arco : ℚ → ℚ → ℚ → ℚ → ℚ)
    (id_origem id_destino : IDPonto) (pt_dest : Ponto) :
    Inv P arco id_origem id_destino pt_dest
      [⟨id_origem, IDRota.default, 0, haversine arco (P.getPonto id_origem) pt_dest⟩] [] := by
  refine ⟨by simp, ?_, ?_, ?_, ?_, by simp, ?_⟩
  · intro n hn
    rw [List.mem_singleton.1 hn]
    exact ⟨rfl, Or.inl ⟨rfl, rfl, rfl⟩⟩
  · intro F1 n F2 h
    exact absurd h (by simp)
  · exact Or.inr ⟨_, List.mem_singleton.2 rfl, rfl, le_refl _⟩
  · intro m hm; simp at hm
  · intro _ m hm; simp at hm

theorem fechado_prefixo {P : Planejador} {arco : ℚ → ℚ → ℚ → ℚ → ℚ} {id_origem : IDPonto}
    {pt_dest : Ponto} {F G1 G2 : List Noh} (hF : F = G1 ++ G2)
    (h : ∀ F1 n F2, F = F1 ++ n :: F2 → NohOK P arco id_origem pt_dest F1 n) :
    ∀ F1 n F2, G1 = F1 ++ n :: F2 → NohOK P arco id_origem pt_dest F1 n := by
  intro F1 n F2 e
  apply h F1 n (F2 ++ G2)
  rw [hF, e]; simp

theorem nohOK_alcanca {P : Planejador} {arco : ℚ → ℚ → ℚ → ℚ → ℚ} {id_origem : IDPonto}
    {pt_dest : Ponto} :
    ∀ (k : Nat) (F : List Noh), F.length ≤ k →
      (∀ F1 n F2, F = F1 ++ n :: F2 → NohOK P arco id_origem pt_dest F1 n) →
      ∀ n, NohOK P arco id_origem pt_dest F n → Alcanca P id_origem n.id_pt n.g := by
  intro k
  induction k with
  | zero =>
    intro F hk _ n hn
    have hF : F = [] := List.length_eq_zero.1 (Nat.le_zero.1 hk)
    rcases hn.2 with ⟨hid, _, hg⟩ | ⟨m, hm, _⟩
    · rw [hid, hg]; exact Alcanca.refl
    · rw [hF] at hm; simp at hm
  | succ k ih =>
    intro F hk hF n hn
    rcases hn.2 with ⟨hid, _, hg⟩ | ⟨m, hm, rota, hr, hl, _, _, hg⟩
    · rw [hid, hg]; exact Alcanca.refl
    · obtain ⟨G1, G2, e⟩ := List.append_of_mem hm
      have hlen : G1.length ≤ k := by
        have := congrArg List.length e
        simp at this
        omega
      have hG1 : ∀ F1 x F2, G1 = F1 ++ x :: F2 → NohOK P arco id_origem pt_dest F1 x :=
        fechado_prefixo e hF
      have hm' := ih G1 hlen hG1 m (hF G1 m G2 e)
      rw [hg]
      exact Alcanca.passo hm' hr hl

theorem inv_alcanca {P : Planejador} {arco : ℚ → ℚ → ℚ → ℚ → ℚ} {id_origem id_destino : IDPonto}
    {pt_dest : Ponto} {A F : List Noh} (h : Inv P arco id_origem id_destino pt_dest A F)
    {n : Noh} (hn : n ∈ A) : Alcanca P id_origem n.id_pt n.g :=
  nohOK_alcanca F.length F (le_refl _) h.fechado n (h.aberto n hn)

theorem inv_cota {P : Planejador} {arco : ℚ → ℚ → ℚ → ℚ → ℚ} {id_origem id_destino : IDPonto}
    {pt_dest : Ponto} {A F : List Noh} (h : Inv P arco id_origem id_destino pt_dest A F)
    (hc : Consistente P arco pt_dest) {b : IDPonto} {L : ℚ}
    (hb : Alcanca P id_origem b L) :
    b ∈ F.map (fun n => n.id_pt) ∨ ∃ n ∈ A, n.f ≤ L + heuristica P arco pt_dest b := by
  induction hb with
  | refl =>
    rcases h.origem with ho | ⟨n, hn, hid, hg⟩
    · exact Or.inl ho
    · refine Or.inr ⟨n, hn, ?_⟩
      rw [Noh.f, (h.aberto n hn).1, hid]
      linarith
  | @passo u v L rota hu hr hl ih =>
    have hcons := consistente_liga hc hr hl
    rcases ih with hF | ⟨n, hn, hf⟩
    · by_cases hv : v ∈ F.map (fun n => n.id_pt)
      · exact Or.inl hv
      · obtain ⟨m, hm, hmid⟩ := List.mem_map.1 hF
        have hopt := h.otimo hc m hm L (hmid ▸ hu)
        obtain ⟨n, hn, hid, hg⟩ := h.fronteira m hm rota hr v (hmid ▸ hl) hv
        refine Or.inr ⟨n, hn, ?_⟩
        rw [Noh.f, (h.aberto n hn).1, hid]
        linarith
    · exact Or.inr ⟨n, hn, by linarith⟩

theorem inv_topo_otimo {P : Planejador} {arco : ℚ → ℚ → ℚ → ℚ → ℚ}
    {id_origem id_destino : IDPonto} {pt_dest : Ponto} {atual : Noh} {A F : List Noh}
    (h : Inv P arco id_origem id_destino pt_dest (atual :: A) F)
    (hmin : ∀ n ∈ A, atual.f ≤ n.f) (hc : Consistente P arco pt_dest) {L : ℚ}
    (hL : Alcanca P id_origem atual.id_pt L) : atual.g ≤ L := by
  have hnd := h.nodup
  rw [List.cons_append, List.map_cons, List.nodup_cons, List.map_append] at hnd
  rcases inv_cota h hc hL with hF | ⟨n, hn, hf⟩
  · exact absurd (List.mem_append_right _ hF) hnd.1
  · have hle : atual.f ≤ n.f := by
      rcases List.mem_cons.1 hn with rfl | hn'
      · exact le_refl _
      · exact hmin n hn'
    have hh := (h.aberto atual (List.mem_cons_self _ _)).1
    rw [Noh.f, hh] at hle
    linarith

theorem inv_passo {P : Planejador} {arco : ℚ → ℚ → ℚ → ℚ → ℚ}
    {id_origem id_destino : IDPonto} {pt_dest : Ponto} {atual : Noh} {A F : List Noh}
    (h : Inv P arco id_origem id_destino pt_dest (atual :: A) F)
    (hmin : ∀ n ∈ A, atual.f ≤ n.f) (hdest : atual.id_pt ≠ id_destino) :
    Inv P arco id_origem id_destino pt_dest
      (P.rotas.foldl (sucessor P arco pt_dest atual (F ++ [atual])) A) (F ++ [atual]) := by
  have hnd := h.nodup
  rw [List.cons_append, List.map_cons, List.nodup_cons, List.map_append,
    List.mem_append, List.nodup_append] at hnd
  obtain ⟨hat_fora, hndA, hndF, hdisj⟩ := hnd
  have hatA : atual.id_pt ∉ A.map (fun n => n.id_pt) := fun x => hat_fora (Or.inl x)
  have hatF : atual.id_pt ∉ F.map (fun n => n.id_pt) := fun x => hat_fora (Or.inr x)
  have hat : atual ∈ F ++ [atual] := List.mem_append_right _ (List.mem_singleton.2 rfl)
  have hsubF : ∀ m ∈ F, m ∈ F ++ [atual] := fun m hm => List.mem_append_left _ hm
  have hidsF' : ∀ v, v ∈ (F ++ [atual]).map (fun n => n.id_pt) ↔
      v ∈ F.map (fun n => n.id_pt) ∨ v = atual.id_pt := by
    intro v; simp
  have hAb : AbOK P arco id_origem pt_dest (F ++ [atual]) A := by
    refine ⟨hndA, ?_, ?_⟩
    · intro n hn hmem
      have hnid : n.id_pt ∈ A.map (fun n => n.id_pt) := List.mem_map_of_mem _ hn
      rcases (hidsF' _).1 hmem with hF | he
      · exact hdisj hnid hF
      · exact hatA (he ▸ hnid)
    · intro n hn
      exact nohOK_mono hsubF (h.aberto n (List.mem_cons_of_mem _ hn))
  have hAb' := expande_abOK hat P.rotas A (fun r hr => hr) hAb
  refine ⟨?_, hAb'.gerado, ?_, ?_, ?_, ?_, ?_⟩
  · rw [List.map_append, List.nodup_append]
    refine ⟨hAb'.nodup, ?_, ?_⟩
    · rw [List.map_append, List.nodup_append]
      refine ⟨hndF, by simp, ?_⟩
      intro x hx hx'
      simp only [List.map_cons, List.map_nil, List.mem_singleton] at hx'
      exact hatF (hx' ▸ hx)
    · intro x hx hx'
      obtain ⟨n, hn, hid⟩ := List.mem_map.1 hx
      exact hAb'.fora n hn (hid ▸ hx')
  · intro F1 n F2 e
    rcases List.eq_nil_or_concat F2 with rfl | ⟨F2', x, rfl⟩
    · have := List.append_inj' e (by simp)
      have hn : atual = n := by simpa using this.2
      rw [← this.1, ← hn]
      exact h.aberto atual (List.mem_cons_self _ _)
    · have e' : F ++ [atual] = (F1 ++ n :: F2') ++ [x] := by rw [e]; simp
      have := List.append_inj' e' (by simp)
      exact h.fechado F1 n F2' this.1
  · rcases h.origem with ho | ⟨n, hn, hid, hg⟩
    · exact Or.inl ((hidsF' _).2 (Or.inl ho))
    · rcases List.mem_cons.1 hn with rfl | hn'
      · exact Or.inl ((hidsF' _).2 (Or.inr hid.symm))
      · exact Or.inr (expande_mantem hat P.rotas A (fun r hr => hr) hAb ⟨n, hn', hid, hg⟩)
  · intro m hm rota hr v hl hv
    have hvF : v ∉ F.map (fun n => n.id_pt) := fun x => hv ((hidsF' _).2 (Or.inl x))
    have hvat : v ≠ atual.id_pt := fun x => hv ((hidsF' _).2 (Or.inr x))
    rcases List.mem_append.1 hm with hmF | hmat
    · obtain ⟨n, hn, hid, hg⟩ := h.fronteira m hmF rota hr v hl hvF
      rcases List.mem_cons.1 hn with rfl | hn'
      · exact absurd hid.symm hvat
      · exact expande_mantem hat P.rotas A (fun r hr => hr) hAb ⟨n, hn', hid, hg⟩
    · rw [List.mem_singleton.1 hmat] at hl ⊢
      exact expande_cobre hat hl hv P.rotas A (fun r hr => hr) hr hAb
  · intro hmem
    rcases (hidsF' _).1 hmem with hF | he
    · exact h.destino hF
    · exact hdest he.symm
  · intro hc m hm L hL
    rcases List.mem_append.1 hm with hmF | hmat
    · exact h.otimo hc m hmF L hL
    · rw [List.mem_singleton.1 hmat] at hL ⊢
      exact inv_topo_otimo h hmin hc hL

/-! ## The main loop -/

theorem laco_vazio (P : Planejador) (arco : ℚ → ℚ → ℚ → ℚ → ℚ) (id_destino : IDPonto)
    (pt_dest : Ponto) (fuelR fuel : Nat) (F : List Noh) :
    laco P arco id_destino pt_dest fuelR fuel [] F = some ⟨-1, [], 0, F.length⟩ := by
  cases fuel <;> rw [laco] <;> rfl

theorem laco_zero (P : Planejador) (arco : ℚ → ℚ → ℚ → ℚ → ℚ) (id_destino : IDPonto)
    (pt_dest : Ponto) (fuelR : Nat) (a : Noh) (A F : List Noh) :
    laco P arco id_destino pt_dest fuelR 0 (a :: A) F = none := by
  rw [laco]; rfl

theorem laco_succ (P : Planejador) (arco : ℚ → ℚ → ℚ → ℚ → ℚ) (id_destino : IDPonto)
    (pt_dest : Ponto) (fuelR fuel : Nat) (a : Noh) (A F : List Noh) :
    laco P arco id_destino pt_dest fuelR (fuel + 1) (a :: A) F =
      match sort (fun a b => decide (a.f < b.f)) (a :: A) with
      | [] => none
      | atual :: Aberto =>
        if atual.id_pt = id_destino then
          match reconstroi P F fuelR atual [] with
          | some C => some ⟨atual.g, C, Aberto.length, F.length + 1⟩
          | none => none
        else
          laco P arco id_destino pt_dest fuelR fuel
            (P.rotas.foldl (sucessor P arco pt_dest atual (F ++ [atual])) Aberto)
            (F ++ [atual]) := by
  rw [laco]; rfl

theorem laco_some {P : Planejador} {arco : ℚ → ℚ → ℚ → ℚ → ℚ}
    {id_origem id_destino : IDPonto} {pt_dest : Ponto} {fuelR : Nat} {r : Saida} :
    ∀ (fuel : Nat) (A F : List Noh), Inv P arco id_origem id_destino pt_dest A F →
      laco P arco id_destino pt_dest fuelR fuel A F = some r →
      (∃ F', Inv P arco id_origem id_destino pt_dest [] F' ∧
        r = ⟨-1, [], 0, F'.length⟩) ∨
      (∃ atual A' F' C, Inv P arco id_origem id_destino pt_dest (atual :: A') F' ∧
        (∀ n ∈ A', atual.f ≤ n.f) ∧ atual.id_pt = id_destino ∧
        reconstroi P F' fuelR atual [] = some C ∧
        r = ⟨atual.g, C, A'.length, F'.length + 1⟩) := by
  intro fuel
  induction fuel with
  | zero =>
    intro A F hinv h
    cases A with
    | nil =>
      rw [laco_vazio] at h
      exact Or.inl ⟨F, hinv, (Option.some.inj h).symm⟩
    | cons a A => rw [laco_zero] at h; simp at h
  | succ fuel ih =>
    intro A F hinv h
    cases A with
    | nil =>
      rw [laco_vazio] at h
      exact Or.inl ⟨F, hinv, (Option.some.inj h).symm⟩
    | cons a A =>
      rw [laco_succ] at h
      cases hs : sort (fun a b => decide (a.f < b.f)) (a :: A) with
      | nil => rw [hs] at h; simp at h
      | cons atual A' =>
        rw [hs] at h
        simp only at h
        have hinv' : Inv P arco id_origem id_destino pt_dest (atual :: A') F :=
          inv_perm hinv (hs ▸ sort_perm _ (a :: A))
        have hmin := sort_min (a :: A) atual A' hs
        by_cases hd : atual.id_pt = id_destino
        · rw [if_pos hd] at h
          cases hrec : reconstroi P F fuelR atual [] with
          | none => rw [hrec] at h; simp at h
          | some C =>
            rw [hrec] at h
            simp only [Option.some.injEq] at h
            exact Or.inr ⟨atual, A', F, C, hinv', hmin, hd, hrec, h.symm⟩
        · rw [if_neg hd] at h
          exact ih _ _ (inv_passo hinv' hmin hd) h

/-! ## Path reconstruction -/

theorem reconstroi_sentinela (P : Planejador) (F : List Noh) (fuel : Nat) (n : Noh)
    (C : Caminho) (h : n.id_rt = IDRota.default) : reconstroi P F fuel n C = some C := by
  cases fuel <;> rw [reconstroi, if_neg (by simpa using h)]

theorem reconstroi_zero (P : Planejador) (F : List Noh) (n : Noh) (C : Caminho)
    (h : n.id_rt ≠ IDRota.default) : reconstroi P F 0 n C = none := by
  rw [reconstroi, if_pos h]

theorem reconstroi_succ (P : Planejador) (F : List Noh) (fuel : Nat) (n : Noh) (C : Caminho)
    (h : n.id_rt ≠ IDRota.default) :
    reconstroi P F (fuel + 1) n C =
      match F.find? (fun x => decide (x.id_pt =
          if (P.getRota n.id_rt).extremidade0 = n.id_pt then (P.getRota n.id_rt).extremidade1
          else (P.getRota n.id_rt).extremidade0)) with
      | some it => reconstroi P F fuel it ((n.id_rt, n.id_pt) :: C)
      | none => reconstroi P F fuel
          { n with id_pt :=
              if (P.getRota n.id_rt).extremidade0 = n.id_pt
              then (P.getRota n.id_rt).extremidade1
              else (P.getRota n.id_rt).extremidade0 } ((n.id_rt, n.id_pt) :: C) := by
  rw [reconstroi, if_pos h]

theorem reconstroi_mono (P : Planejador) (F : List Noh) :
    ∀ (fuel fuel' : Nat) (n : Noh) (C R : Caminho), fuel ≤ fuel' →
      reconstroi P F fuel n C = some R → reconstroi P F fuel' n C = some R := by
  intro fuel
  induction fuel with
  | zero =>
    intro fuel' n C R _ h
    by_cases hrt : n.id_rt = IDRota.default
    · rw [reconstroi_sentinela P F _ n C hrt] at h ⊢; exact h
    · rw [reconstroi_zero P F n C hrt] at h; simp at h
  | succ fuel ih =>
    intro fuel' n C R hle h
    obtain ⟨fuel'', rfl⟩ : ∃ k, fuel' = k + 1 := ⟨fuel' - 1, by omega⟩
    by_cases hrt : n.id_rt = IDRota.default
    · rw [reconstroi_sentinela P F _ n C hrt] at h ⊢; exact h
    · rw [reconstroi_succ P F _ n C hrt] at h ⊢
      cases hf : F.find? (fun x => decide (x.id_pt =
          if (P.getRota n.id_rt).extremidade0 = n.id_pt then (P.getRota n.id_rt).extremidade1
          else (P.getRota n.id_rt).extremidade0)) with
      | none =>
        rw [hf] at h
        exact ih _ _ _ _ (by omega) h
      | some it =>
        rw [hf] at h
        exact ih _ _ _ _ (by omega) h

theorem rota_id_ne_default {P : Planejador} (hP : Invariantes P) {rota : Rota}
    (hr : rota ∈ P.rotas) : rota.id ≠ IDRota.default := by
  intro e
  have hv := hP.rotas_validas rota hr
  rw [Rota.valid, e, IDRota_default_not_valid] at hv
  exact absurd hv (by simp)

theorem calculaCaminho_cases {P : Planejador} {arco : ℚ → ℚ → ℚ → ℚ → ℚ}
    {id_origem id_destino : IDPonto} {C : Caminho} {NA NF : Int} {fuel : Nat} {r : Saida}
    (h : P.calculaCaminho arco id_origem id_destino C NA NF fuel = some r) :
    r = ⟨-1, [], -1, -1⟩ ∨
      laco P arco id_destino (P.getPonto id_destino) fuel fuel
        [⟨id_origem, IDRota.default, 0,
          haversine arco (P.getPonto id_origem) (P.getPonto id_destino)⟩] [] = some r := by
  unfold Planejador.calculaCaminho at h
  by_cases he : P.empty = true
  · rw [if_pos he] at h
    exact Or.inl (Option.some.inj h).symm
  · rw [if_neg he] at h
    simp only at h
    by_cases ho : (!(P.getPonto id_origem).valid) = true
    · rw [if_pos ho] at h
      exact Or.inl (Option.some.inj h).symm
    · rw [if_neg ho] at h
      by_cases hd : (!(P.getPonto id_destino).valid) = true
      · rw [if_pos hd] at h
        exact Or.inl (Option.some.inj h).symm
      · rw [if_neg hd] at h
        exact Or.inr h

theorem calculaCaminho_sucesso_inv {P : Planejador} {arco : ℚ → ℚ → ℚ → ℚ → ℚ}
    {id_origem id_destino : IDPonto} {C : Caminho} {NA NF : Int} {fuel : Nat} {r : Saida}
    (h : P.calculaCaminho arco id_origem id_destino C NA NF fuel = some r)
    (hs : 0 ≤ r.comprimento) :
    ∃ atual A F,
      Inv P arco id_origem id_destino (P.getPonto id_destino) (atual :: A) F ∧
      (∀ n ∈ A, atual.f ≤ n.f) ∧ atual.id_pt = id_destino ∧
      reconstroi P F fuel atual [] = some r.C ∧ r.comprimento = atual.g := by
  rcases calculaCaminho_cases h with hr | hl
  · rw [hr] at hs; norm_num at hs
  · rcases laco_some fuel _ _ (inv_inicial P arco id_origem id_destino _) hl with
      ⟨F, _, hr⟩ | ⟨atual, A, F, C', hinv, hmin, hd, hrec, hr⟩
    · rw [hr] at hs; norm_num at hs
    · exact ⟨atual, A, F, hinv, hmin, hd, by rw [hr]; exact hrec, by rw [hr]⟩

/-- C5: when the map is empty, or the origin id or the destination id is the id of no
point of the map, `calculaCaminho` returns length -1, an empty path and both counters
equal to -1, whatever `C`, `NA`, `NF` held before and whatever the fuel. -/
theorem calculaCaminho_parametros_invalidos (P : Planejador) (arco : ℚ → ℚ → ℚ → ℚ → ℚ)
    (id_origem id_destino : IDPonto) (C : Caminho) (NA NF : Int) (fuel : Nat)
    (h : P.pontos = [] ∨ (∀ p ∈ P.pontos, p.id ≠ id_origem) ∨
      (∀ p ∈ P.pontos, p.id ≠ id_destino)) :
    P.calculaCaminho arco id_origem id_destino C NA NF fuel = some ⟨-1, [], -1, -1⟩ := by
  unfold Planejador.calculaCaminho
  by_cases he : P.empty = true
  · simp [he]
  · rcases h with h | h | h
    · simp [Planejador.empty, h] at he
    · simp [he, getPonto_ausente P _ h, Ponto_default_not_valid]
    · simp only [he, getPonto_ausente P _ h, Ponto_default_not_valid]
      by_cases ho : (P.getPonto id_origem).valid = true <;> simp [ho]

/-- Witness of C5: the map `#A`, `#B`, `#C` with routes `&R1`, `&R2`, query `#A` to `#D`,
starting from a non-empty `C` and arbitrary counters. -/
theorem calculaCaminho_parametros_invalidos_witness :
    mapaABC.calculaCaminho arcoEquador ⟨"#A"⟩ ⟨"#D"⟩ [(⟨"&R1"⟩, ⟨"#B"⟩)] 7 9 10
      = some ⟨-1, [], -1, -1⟩ :=
  calculaCaminho_parametros_invalidos mapaABC arcoEquador ⟨"#A"⟩ ⟨"#D"⟩ [(⟨"&R1"⟩, ⟨"#B"⟩)] 7 9 10
    (Or.inr (Or.inr (by decide)))

/-! ## Concrete maps satisfy the data-model invariants -/

theorem invariantes_mapaEquador : Invariantes mapaEquador :=
  ⟨by decide, by decide, by decide, by decide, by decide⟩

theorem invariantes_mapaSABG : Invariantes mapaSABG :=
  ⟨by decide, by decide, by decide, by decide, by decide⟩

/-! ## Potentials and admissibility -/

theorem potencial_conecta (P : Planejador) (φ : IDPonto → ℚ)
    (hφ : ∀ r ∈ P.rotas, φ r.extremidade0 ≤ r.comprimento + φ r.extremidade1 ∧
      φ r.extremidade1 ≤ r.comprimento + φ r.extremidade0) :
    ∀ (rs : List Rota) (a b : IDPonto), conecta P a rs b →
      φ a ≤ comprimentoTotal rs + φ b := by
  intro rs
  induction rs with
  | nil =>
    intro a b h
    simp only [conecta] at h
    simp [comprimentoTotal, h]
  | cons r rs ih =>
    intro a b h
    obtain ⟨hr, h0 | h1⟩ := h
    · have := ih _ _ h0.2
      have := (hφ r hr).1
      rw [h0.1] at this
      simp only [comprimentoTotal, List.map_cons, List.sum_cons] at *
      linarith
    · have := ih _ _ h1.2
      have := (hφ r hr).2
      rw [h1.1] at this
      simp only [comprimentoTotal, List.map_cons, List.sum_cons] at *
      linarith

theorem heuristica_destino (P : Planejador) (arco : ℚ → ℚ → ℚ → ℚ → ℚ)
    (id_destino : IDPonto) :
    heuristica P arco (P.getPonto id_destino) id_destino = 0 := by
  simp [heuristica, haversine]

theorem consistente_admissivel {P : Planejador} {arco : ℚ → ℚ → ℚ → ℚ → ℚ}
    {id_destino : IDPonto} (hc : Consistente P arco (P.getPonto id_destino)) :
    Admissivel P arco id_destino := by
  intro v rs h
  have := potencial_conecta P (heuristica P arco (P.getPonto id_destino)) hc rs v _ h
  rw [heuristica_destino] at this
  linarith

/-- Optimality in exact arithmetic: when the heuristic is consistent and the search in
exact arithmetic succeeds, the returned length is the length of a route sequence
connecting origin to destination and no connecting route sequence is shorter. -/
theorem calculaCaminho_minimo (P : Planejador) (arco : ℚ → ℚ → ℚ → ℚ → ℚ)
    (id_origem id_destino : IDPonto) (C : Caminho) (NA NF : Int) (fuel : Nat) (r : Saida)
    (hc : Consistente P arco (P.getPonto id_destino))
    (h : P.calculaCaminho arco id_origem id_destino C NA NF fuel = some r)
    (hs : 0 ≤ r.comprimento) :
    (∃ rs, conecta P id_origem rs id_destino ∧ comprimentoTotal rs = r.comprimento) ∧
      ∀ rs, conecta P id_origem rs id_destino → r.comprimento ≤ comprimentoTotal rs := by
  obtain ⟨atual, A, F, hinv, hmin, hdest, _, hg⟩ := calculaCaminho_sucesso_inv h hs
  have hal := inv_alcanca hinv (List.mem_cons_self atual A)
  rw [hdest, ← hg] at hal
  refine ⟨alcanca_conecta P hal, fun rs hrs => ?_⟩
  rw [hg]
  exact inv_topo_otimo hinv hmin hc (hdest ▸ conecta_alcanca P rs _ _ hrs)

theorem potencial_mapaSABG :
    ∀ r ∈ mapaSABG.rotas,
      distanciaSABG r.extremidade0 ≤ r.comprimento + distanciaSABG r.extremidade1 ∧
      distanciaSABG r.extremidade1 ≤ r.comprimento + distanciaSABG r.extremidade0 := by
  decide!

theorem heuristica_le_distanciaSABG (v : IDPonto) :
    heuristica mapaSABG arcoEquador (mapaSABG.getPonto ⟨"#G"⟩) v ≤ distanciaSABG v := by
  by_cases hS : v = ⟨"#S"⟩
  · subst hS; decide!
  · by_cases hA : v = ⟨"#A"⟩
    · subst hA; decide!
    · by_cases hB : v = ⟨"#B"⟩
      · subst hB; decide!
      · by_cases hG : v = ⟨"#G"⟩
        · subst hG; decide!
        · have hdef : mapaSABG.getPonto v = Ponto.default := by
            apply getPonto_ausente
            intro p hp
            simp only [mapaSABG, List.mem_cons, List.mem_singleton, List.not_mem_nil,
              or_false] at hp
            rcases hp with rfl | rfl | rfl | rfl
            · exact fun e => hS e.symm
            · exact fun e => hA e.symm
            · exact fun e => hB e.symm
            · exact fun e => hG e.symm
          have hd : distanciaSABG v = 0 := by simp [distanciaSABG, hS, hA, hB]
          rw [heuristica, hdef, hd]
          decide!

theorem admissivel_mapaSABG : Admissivel mapaSABG arcoEquador ⟨"#G"⟩ := by
  intro v rs h
  have h1 := potencial_conecta mapaSABG distanciaSABG potencial_mapaSABG rs v _ h
  have h2 := heuristica_le_distanciaSABG v
  have h3 : distanciaSABG ⟨"#G"⟩ = 0 := by decide
  linarith

/-- C1 (counterexample): the map `mapaSABG` satisfies the data-model invariants, its
route lengths are non-negative and its heuristic never overestimates the length of a
route sequence to `#G`; the search from `#S` to `#G` succeeds with length 15, while the
route sequence `&SA`, `&AB`, `&BG` connects `#S` to `#G` with total length 14. -/
theorem calculaCaminho_nao_minimo :
    Invariantes mapaSABG ∧ (∀ r ∈ mapaSABG.rotas, 0 ≤ r.comprimento) ∧
    Admissivel mapaSABG arcoEquador ⟨"#G"⟩ ∧
    mapaSABG.calculaCaminho arcoEquador ⟨"#S"⟩ ⟨"#G"⟩ [] 0 0 10
      = some ⟨15, [(⟨"&SB"⟩, ⟨"#B"⟩), (⟨"&BG"⟩, ⟨"#G"⟩)], 0, 4⟩ ∧
    conecta mapaSABG ⟨"#S"⟩
      [⟨⟨"&SA"⟩, "Rota SA", ⟨"#S"⟩, ⟨"#A"⟩, 3⟩, ⟨⟨"&AB"⟩, "Rota AB", ⟨"#A"⟩, ⟨"#B"⟩, 1⟩,
        ⟨⟨"&BG"⟩, "Rota BG", ⟨"#B"⟩, ⟨"#G"⟩, 10⟩] ⟨"#G"⟩ ∧
    comprimentoTotal
      [⟨⟨"&SA"⟩, "Rota SA", ⟨"#S"⟩, ⟨"#A"⟩, 3⟩, ⟨⟨"&AB"⟩, "Rota AB", ⟨"#A"⟩, ⟨"#B"⟩, 1⟩,
        ⟨⟨"&BG"⟩, "Rota BG", ⟨"#B"⟩, ⟨"#G"⟩, 10⟩] = 14 := by
  refine ⟨invariantes_mapaSABG, by decide!, admissivel_mapaSABG, by decide!, ?_, ?_⟩
  · simp [conecta, mapaSABG]
  · simp [comprimentoTotal]; norm_num

/-! ## Runs on concrete maps -/

/-- C2 (code evaluated at the failing input): on the map `#A`-`#B`, the search from
`#A` to `#B` succeeds with length 5 but the returned path is `[(&R1,#B)]`: its first
element is not the pair (empty route, origin). -/
theorem calculaCaminho_AB_sem_origem :
    mapaAB.calculaCaminho arcoEquador ⟨"#A"⟩ ⟨"#B"⟩ [] 0 0 10
      = some ⟨5, [(⟨"&R1"⟩, ⟨"#B"⟩)], 0, 2⟩ := by decide!

/-- C8 (code evaluated at the failing input): on the map `#A`-`#B`, the search from
`#A` to `#A` returns length 0 and an empty path, not the one-element path. -/
theorem calculaCaminho_AA_vazio :
    mapaAB.calculaCaminho arcoEquador ⟨"#A"⟩ ⟨"#A"⟩ [] 0 0 10
      = some ⟨0, [], 0, 1⟩ := by decide!

/-- C9 (code evaluated at the failing input): on the example map the search from `#A` to
`#C` returns length 10 and the two-element path `[(&R1,#B),(&R2,#C)]`, for every
great-circle function `arco`. -/
theorem calculaCaminho_ABC (arco : ℚ → ℚ → ℚ → ℚ → ℚ) :
    mapaABC.calculaCaminho arco ⟨"#A"⟩ ⟨"#C"⟩ [] 0 0 10
      = some ⟨10, [(⟨"&R1"⟩, ⟨"#B"⟩), (⟨"&R2"⟩, ⟨"#C"⟩)], 0, 3⟩ := by
  with_unfolding_all rfl

/-! ## Lookup by identifier -/

theorem find_primeiro {α : Type} (p : α → Bool) :
    ∀ (l1 : List α) (a : α) (l2 : List α), (∀ x ∈ l1, p x = false) → p a = true →
      (l1 ++ a :: l2).find? p = some a := by
  intro l1
  induction l1 with
  | nil => intro a l2 _ ha; simp [ha]
  | cons b l1 ih =>
    intro a l2 h ha
    have hb : p b = false := h b (List.mem_cons_self _ _)
    rw [List.cons_append, List.find?_cons_of_neg _ (by simp [hb])]
    exact ih a l2 (fun x hx => h x (List.mem_cons_of_mem _ hx)) ha

theorem getRota_ausente (P : Planejador) (Id : IDRota)
    (h : ∀ r ∈ P.rotas, r.id ≠ Id) : P.getRota Id = Rota.default := by
  have : P.rotas.find? (fun rota => decide (rota.id = Id)) = none := by
    rw [List.find?_eq_none]
    intro r hr
    simpa using h r hr
  simp [Planejador.getRota, this]

theorem getRota_presente (P : Planejador) (Id : IDRota)
    (h : ∃ r ∈ P.rotas, r.id = Id) : P.getRota Id ∈ P.rotas ∧ (P.getRota Id).id = Id := by
  obtain ⟨r, hr, hid⟩ := h
  cases hf : P.rotas.find? (fun rota => decide (rota.id = Id)) with
  | none =>
    rw [List.find?_eq_none] at hf
    exact absurd hid (by simpa using hf r hr)
  | some q =>
    have h1 := List.mem_of_find?_eq_some hf
    have h2 := List.find?_some hf
    simp only [Planejador.getRota, hf]
    exact ⟨h1, by simpa using h2⟩

theorem Rota_default_not_valid : Rota.default.valid = false := by decide

/-- C11: `getPonto(id)` returns the first stored point whose id equals `id` when there
is one, and otherwise the default `Ponto`, which is not valid.  Hence, when all stored
points are valid, `getPonto(id).valid()` holds exactly when some point of the map has
that id, and then the returned point has that id.  `getRota` satisfies the same
contract for routes. -/
theorem getPonto_getRota_spec (P : Planejador) :
    (∀ Id : IDPonto,
      (∀ l1 p l2, P.pontos = l1 ++ p :: l2 → (∀ q ∈ l1, q.id ≠ Id) → p.id = Id →
        P.getPonto Id = p) ∧
      ((∀ p ∈ P.pontos, p.id ≠ Id) → P.getPonto Id = Ponto.default) ∧
      ((∀ p ∈ P.pontos, p.valid = true) →
        ((P.getPonto Id).valid = true ↔ ∃ p ∈ P.pontos, p.id = Id) ∧
        ((P.getPonto Id).valid = true → (P.getPonto Id).id = Id))) ∧
    Ponto.default.valid = false ∧
    (∀ Id : IDRota,
      (∀ l1 r l2, P.rotas = l1 ++ r :: l2 → (∀ q ∈ l1, q.id ≠ Id) → r.id = Id →
        P.getRota Id = r) ∧
      ((∀ r ∈ P.rotas, r.id ≠ Id) → P.getRota Id = Rota.default) ∧
      ((∀ r ∈ P.rotas, r.valid = true) →
        ((P.getRota Id).valid = true ↔ ∃ r ∈ P.rotas, r.id = Id) ∧
        ((P.getRota Id).valid = true → (P.getRota Id).id = Id))) ∧
    Rota.default.valid = false := by
  refine ⟨fun Id => ⟨?_, getPonto_ausente P Id, ?_⟩, Ponto_default_not_valid,
    fun Id => ⟨?_, getRota_ausente P Id, ?_⟩, Rota_default_not_valid⟩
  · intro l1 p l2 hl hl1 hp
    have := find_primeiro (fun ponto : Ponto => decide (ponto.id = Id)) l1 p l2
      (fun x hx => by simpa using hl1 x hx) (by simpa using hp)
    simp only [Planejador.getPonto, hl, this]
  · intro hval
    have hiff : (P.getPonto Id).valid = true ↔ ∃ p ∈ P.pontos, p.id = Id := by
      constructor
      · intro hv
        by_contra hne
        have hdef := getPonto_ausente P Id (fun p hp e => hne ⟨p, hp, e⟩)
        rw [hdef, Ponto_default_not_valid] at hv
        exact absurd hv (by simp)
      · intro hex
        exact hval _ (getPonto_presente P Id hex).1
    exact ⟨hiff, fun hv => (getPonto_presente P Id (hiff.1 hv)).2⟩
  · intro l1 r l2 hl hl1 hr
    have := find_primeiro (fun rota : Rota => decide (rota.id = Id)) l1 r l2
      (fun x hx => by simpa using hl1 x hx) (by simpa using hr)
    simp only [Planejador.getRota, hl, this]
  · intro hval
    have hiff : (P.getRota Id).valid = true ↔ ∃ r ∈ P.rotas, r.id = Id := by
      constructor
      · intro hv
        by_contra hne
        have hdef := getRota_ausente P Id (fun r hr e => hne ⟨r, hr, e⟩)
        rw [hdef, Rota_default_not_valid] at hv
        exact absurd hv (by simp)
      · intro hex
        exact hval _ (getRota_presente P Id hex).1
    exact ⟨hiff, fun hv => (getRota_presente P Id (hiff.1 hv)).2⟩

/-! ## The distance function -/

/-- C12: for two points with equal ids `haversine` returns 0, whatever their
coordinates and whatever the great-circle formula would give; in particular
`haversine(P, P) = 0`. -/
theorem haversine_mesmo_id (arco : ℚ → ℚ → ℚ → ℚ → ℚ) (P1 P2 : Ponto)
    (h : P1.id = P2.id) :
    haversine arco P1 P2 = 0 ∧ haversine arco P1 P1 = 0 := by
  simp [haversine, h]

/-- Witness of C12: two points with the id `#A`, 50 degrees of longitude apart. -/
theorem haversine_mesmo_id_witness :
    haversine arcoEquador ⟨⟨"#A"⟩, "Ponto A", 0, 0⟩ ⟨⟨"#A"⟩, "Outro A", 0, 50⟩ = 0 ∧
      haversine arcoEquador ⟨⟨"#A"⟩, "Ponto A", 0, 0⟩ ⟨⟨"#A"⟩, "Ponto A", 0, 0⟩ = 0 :=
  haversine_mesmo_id arcoEquador ⟨⟨"#A"⟩, "Ponto A", 0, 0⟩ ⟨⟨"#A"⟩, "Outro A", 0, 50⟩ rfl

theorem acosQ_limites : ∀ x : ℚ, -1 ≤ x → x ≤ 1 → 0 ≤ acosQ x ∧ acosQ x ≤ 22 / 7 := by
  intro x h1 h2
  unfold acosQ
  constructor
  · exact mul_nonneg (by linarith) (by norm_num)
  · nlinarith

/-! ## Determinism -/

theorem laco_mono {P : Planejador} {arco : ℚ → ℚ → ℚ → ℚ → ℚ} {id_destino : IDPonto}
    {pt_dest : Ponto} {fuelR fuelR' : Nat} (hR : fuelR ≤ fuelR') {r : Saida} :
    ∀ (fuel fuel' : Nat) (A F : List Noh), fuel ≤ fuel' →
      laco P arco id_destino pt_dest fuelR fuel A F = some r →
      laco P arco id_destino pt_dest fuelR' fuel' A F = some r := by
  intro fuel
  induction fuel with
  | zero =>
    intro fuel' A F _ h
    cases A with
    | nil => rw [laco_vazio] at h ⊢; exact h
    | cons a A => rw [laco_zero] at h; simp at h
  | succ fuel ih =>
    intro fuel' A F hle h
    cases A with
    | nil => rw [laco_vazio] at h ⊢; exact h
    | cons a A =>
      obtain ⟨k, rfl⟩ : ∃ k, fuel' = k + 1 := ⟨fuel' - 1, by omega⟩
      rw [laco_succ] at h ⊢
      cases hs : sort (fun a b => decide (a.f < b.f)) (a :: A) with
      | nil => rw [hs] at h; simp at h
      | cons atual A' =>
        rw [hs] at h
        simp only at h ⊢
        by_cases hd : atual.id_pt = id_destino
        · rw [if_pos hd] at h ⊢
          cases hrec : reconstroi P F fuelR atual [] with
          | none => rw [hrec] at h; simp at h
          | some C =>
            rw [hrec] at h
            rw [reconstroi_mono P F fuelR fuelR' atual [] C hR hrec]
            exact h
        · rw [if_neg hd] at h ⊢
          exact ih k _ _ (by omega) h

theorem calculaCaminho_mono {P : Planejador} {arco : ℚ → ℚ → ℚ → ℚ → ℚ}
    {id_origem id_destino : IDPonto} {C C' : Caminho} {NA NF NA' NF' : Int}
    {fuel fuel' : Nat} {r : Saida} (hle : fuel ≤ fuel')
    (h : P.calculaCaminho arco id_origem id_destino C NA NF fuel = some r) :
    P.calculaCaminho arco id_origem id_destino C' NA' NF' fuel' = some r := by
  unfold Planejador.calculaCaminho at h ⊢
  by_cases he : P.empty = true
  · rw [if_pos he] at h ⊢; exact h
  · rw [if_neg he] at h ⊢
    simp only at h ⊢
    by_cases ho : (!(P.getPonto id_origem).valid) = true
    · rw [if_pos ho] at h ⊢; exact h
    · rw [if_neg ho] at h ⊢
      by_cases hd : (!(P.getPonto id_destino).valid) = true
      · rw [if_pos hd] at h ⊢; exact h
      · rw [if_neg hd] at h ⊢
        exact laco_mono hle fuel fuel' _ _ hle h


/-! ## Counters when no path exists -/

theorem laco_passo (P : Planejador) (arco : ℚ → ℚ → ℚ → ℚ → ℚ) (id_destino : IDPonto)
    (pt_dest : Ponto) (fuelR fuel : Nat) (A F : List Noh) (atual : Noh) (A' : List Noh)
    (hs : sort (fun a b => decide (a.f < b.f)) A = atual :: A')
    (hd : atual.id_pt ≠ id_destino) :
    laco P arco id_destino pt_dest fuelR (fuel + 1) A F =
      laco P arco id_destino pt_dest fuelR fuel
        (P.rotas.foldl (sucessor P arco pt_dest atual (F ++ [atual])) A')
        (F ++ [atual]) := by
  cases A with
  | nil => simp [sort] at hs
  | cons a A =>
    rw [laco_succ, hs]
    simp only [if_neg hd]

theorem abOK_inicial {P : Planejador} {arco : ℚ → ℚ → ℚ → ℚ → ℚ}
    {id_origem id_destino : IDPonto} {pt_dest : Ponto} {atual : Noh} {A F : List Noh}
    (h : Inv P arco id_origem id_destino pt_dest (atual :: A) F) :
    AbOK P arco id_origem pt_dest (F ++ [atual]) A := by
  have hnd := h.nodup
  rw [List.cons_append, List.map_cons, List.nodup_cons, List.map_append,
    List.mem_append, List.nodup_append] at hnd
  obtain ⟨hat_fora, hndA, _, hdisj⟩ := hnd
  refine ⟨hndA, ?_, ?_⟩
  · intro n hn hmem
    have hnid : n.id_pt ∈ A.map (fun n => n.id_pt) := List.mem_map_of_mem _ hn
    simp only [List.map_append, List.map_cons, List.map_nil, List.mem_append,
      List.mem_singleton] at hmem
    rcases hmem with hF | he
    · exact hdisj hnid hF
    · exact hat_fora (Or.inl (he ▸ hnid))
  · intro n hn
    exact nohOK_mono (fun m hm => List.mem_append_left _ hm)
      (h.aberto n (List.mem_cons_of_mem _ hn))

theorem inv_fechado_alcanca {P : Planejador} {arco : ℚ → ℚ → ℚ → ℚ → ℚ}
    {id_origem id_destino : IDPonto} {pt_dest : Ponto} {A F : List Noh}
    (h : Inv P arco id_origem id_destino pt_dest A F) {m : Noh} (hm : m ∈ F) :
    Alcanca P id_origem m.id_pt m.g := by
  obtain ⟨G1, G2, e⟩ := List.append_of_mem hm
  have hG1 : ∀ F1 x F2, G1 = F1 ++ x :: F2 → NohOK P arco id_origem pt_dest F1 x :=
    fechado_prefixo e h.fechado
  exact nohOK_alcanca G1.length G1 (le_refl _) hG1 m (h.fechado G1 m G2 e)

theorem Dbl.MAX_grande : (2 : ℚ) ^ 53 ≤ Dbl.MAX := by decide!

theorem Arredondamento.limite {arr : ℚ → ℚ} (hA : Arredondamento arr) {q : ℚ} (N : ℤ)
    (hN : |N| ≤ 2 ^ 53) (hq : |q| ≤ N) : |arr q| ≤ N := by
  have hq' := abs_le.1 hq
  have h1 := hA.monotono _ _ hq'.1
  have h2 := hA.monotono _ _ hq'.2
  have hneg : |(-N)| ≤ (2 : ℤ) ^ 53 := by rwa [abs_neg]
  have e1 := hA.inteiros (-N) hneg
  have e2 := hA.inteiros N hN
  push_cast at e1
  rw [e1] at h1
  rw [e2] at h2
  exact abs_le.2 ⟨h1, h2⟩

theorem Dbl.ofRat_fin {arr : ℚ → ℚ} (hA : Arredondamento arr) {q : ℚ} (N : ℤ)
    (hN : |N| ≤ 2 ^ 53) (hq : |q| ≤ N) : Dbl.ofRat arr q = Dbl.fin (arr q) := by
  have hM := Dbl.MAX_grande
  have hb := abs_le.1 (hA.limite N hN hq)
  have hN' : (N : ℚ) ≤ 2 ^ 53 := by
    have := (abs_le.1 hN).2
    exact_mod_cast this
  unfold Dbl.ofRat
  rw [if_neg (by linarith [hb.2]), if_neg (by linarith [hb.1])]


theorem abs_mul_le_of_le {a b A B : ℚ} (ha : |a| ≤ A) (hb : |b| ≤ B) : |a * b| ≤ A * B := by
  rw [abs_mul]
  exact mul_le_mul ha hb (abs_nonneg b) (le_trans (abs_nonneg a) ha)

theorem Dbl.radianos {arr : ℚ → ℚ} (hA : Arredondamento arr) (x : ℚ) (hx : |x| ≤ 180) :
    ∃ a, |a| ≤ 4 ∧
      Dbl.div arr (Dbl.mul arr (Dbl.ofRat arr 3.14159265358979323846) (Dbl.fin x))
        (Dbl.fin 180) = Dbl.fin a := by
  have hpi : |(3.14159265358979323846 : ℚ)| ≤ ((4 : ℤ) : ℚ) := by
    rw [abs_le]; constructor <;> norm_num
  have e0 := Dbl.ofRat_fin hA 4 (by norm_num) hpi
  have b0 := hA.limite 4 (by norm_num) hpi
  have h1 : |arr 3.14159265358979323846 * x| ≤ ((720 : ℤ) : ℚ) := by
    have := abs_mul_le_of_le b0 hx
    norm_num at this ⊢
    exact this
  have e1 := Dbl.ofRat_fin hA 720 (by norm_num) h1
  have b1 := hA.limite 720 (by norm_num) h1
  have h2 : |arr (arr 3.14159265358979323846 * x) / 180| ≤ ((4 : ℤ) : ℚ) := by
    rw [abs_div]
    norm_num at b1 ⊢
    rw [div_le_iff₀ (by norm_num)]
    linarith
  have e2 := Dbl.ofRat_fin hA 4 (by norm_num) h2
  have b2 := hA.limite 4 (by norm_num) h2
  refine ⟨arr (arr (arr 3.14159265358979323846 * x) / 180), by exact_mod_cast b2, ?_⟩
  rw [e0]
  have hm : Dbl.mul arr (Dbl.fin (arr 3.14159265358979323846)) (Dbl.fin x)
      = Dbl.ofRat arr (arr 3.14159265358979323846 * x) := rfl
  rw [hm, e1]
  have hd : Dbl.div arr (Dbl.fin (arr (arr 3.14159265358979323846 * x))) (Dbl.fin 180)
      = Dbl.ofRat arr (arr (arr 3.14159265358979323846 * x) / 180) := by
    simp [Dbl.div]
  rw [hd, e2]

/-- Within the ranges of the data model no operation of the great-circle formula
overflows or yields NaN: the argument of `acos` is a finite value `c` of `[-1, 1]` and
the result is the rounded product `6371 * acos c`. -/
theorem arcoD_finito {E : Ambiente} {PI : ℚ} (hA : Arredondamento E.arr) (hC : Cmath E PI)
    (lat1 lon1 lat2 lon2 : ℚ) (h1 : |lat1| ≤ 90) (h2 : |lon1| ≤ 180) (h3 : |lat2| ≤ 90)
    (h4 : |lon2| ≤ 180) :
    ∃ c, -1 ≤ c ∧ c ≤ 1 ∧ arcoD E lat1 lon1 lat2 lon2 = Dbl.fin (E.arr (6371 * E.acos c)) := by
  obtain ⟨a1, _, ea1⟩ := Dbl.radianos hA lat1 (le_trans h1 (by norm_num))
  obtain ⟨a2, _, ea2⟩ := Dbl.radianos hA lat2 (le_trans h3 (by norm_num))
  obtain ⟨b1, hb1, eb1⟩ := Dbl.radianos hA lon1 h2
  obtain ⟨b2, hb2, eb2⟩ := Dbl.radianos hA lon2 h4
  unfold arcoD
  simp only [ea1, ea2, eb1, eb2]
  have hsub : |b1 - b2| ≤ ((8 : ℤ) : ℚ) := by
    have := abs_sub b1 b2
    norm_num
    linarith
  have esub : Dbl.sub E.arr (Dbl.fin b1) (Dbl.fin b2) = Dbl.fin (E.arr (b1 - b2)) :=
    Dbl.ofRat_fin hA 8 (by norm_num) hsub
  rw [esub]
  simp only [Dbl.trig]
  have hs : |E.sin a1 * E.sin a2| ≤ ((1 : ℤ) : ℚ) := by
    have := abs_mul_le_of_le (hC.sin_lim a1) (hC.sin_lim a2)
    norm_num at this ⊢
    exact this
  have es : Dbl.mul E.arr (Dbl.fin (E.sin a1)) (Dbl.fin (E.sin a2))
      = Dbl.fin (E.arr (E.sin a1 * E.sin a2)) := Dbl.ofRat_fin hA 1 (by norm_num) hs
  have bs := hA.limite 1 (by norm_num) hs
  have hc : |E.cos a1 * E.cos a2| ≤ ((1 : ℤ) : ℚ) := by
    have := abs_mul_le_of_le (hC.cos_lim a1) (hC.cos_lim a2)
    norm_num at this ⊢
    exact this
  have ec : Dbl.mul E.arr (Dbl.fin (E.cos a1)) (Dbl.fin (E.cos a2))
      = Dbl.fin (E.arr (E.cos a1 * E.cos a2)) := Dbl.ofRat_fin hA 1 (by norm_num) hc
  have bc := hA.limite 1 (by norm_num) hc
  have hc3 : |E.arr (E.cos a1 * E.cos a2) * E.cos (E.arr (b1 - b2))| ≤ ((1 : ℤ) : ℚ) := by
    have := abs_mul_le_of_le bc (hC.cos_lim (E.arr (b1 - b2)))
    norm_num at this ⊢
    exact this
  have ec3 : Dbl.mul E.arr (Dbl.fin (E.arr (E.cos a1 * E.cos a2)))
      (Dbl.fin (E.cos (E.arr (b1 - b2))))
      = Dbl.fin (E.arr (E.arr (E.cos a1 * E.cos a2) * E.cos (E.arr (b1 - b2)))) :=
    Dbl.ofRat_fin hA 1 (by norm_num) hc3
  have bc3 := hA.limite 1 (by norm_num) hc3
  rw [es, ec, ec3]
  have hsum : |E.arr (E.sin a1 * E.sin a2)
      + E.arr (E.arr (E.cos a1 * E.cos a2) * E.cos (E.arr (b1 - b2)))| ≤ ((2 : ℤ) : ℚ) := by
    have := abs_add (E.arr (E.sin a1 * E.sin a2))
      (E.arr (E.arr (E.cos a1 * E.cos a2) * E.cos (E.arr (b1 - b2))))
    norm_num at bs bc3 ⊢
    linarith
  have esum : Dbl.add E.arr (Dbl.fin (E.arr (E.sin a1 * E.sin a2)))
      (Dbl.fin (E.arr (E.arr (E.cos a1 * E.cos a2) * E.cos (E.arr (b1 - b2)))))
      = Dbl.fin (E.arr (E.arr (E.sin a1 * E.sin a2)
        + E.arr (E.arr (E.cos a1 * E.cos a2) * E.cos (E.arr (b1 - b2))))) :=
    Dbl.ofRat_fin hA 2 (by norm_num) hsum
  rw [esum]
  generalize E.arr (E.arr (E.sin a1 * E.sin a2)
    + E.arr (E.arr (E.cos a1 * E.cos a2) * E.cos (E.arr (b1 - b2)))) = v
  have hfim : ∀ c : ℚ, -1 ≤ c → c ≤ 1 →
      Dbl.mul E.arr (Dbl.fin 6371) (Dbl.acos E.acos (Dbl.fin c))
        = Dbl.fin (E.arr (6371 * E.acos c)) := by
    intro c hc1 hc2
    have hac : Dbl.acos E.acos (Dbl.fin c) = Dbl.fin (E.acos c) := by
      simp only [Dbl.acos]
      rw [if_neg]
      rintro (h | h) <;> linarith
    rw [hac]
    obtain ⟨h0, hP⟩ := hC.acos_lim c hc1 hc2
    have hpi := hC.pi_lim
    have hb : |6371 * E.acos c| ≤ ((25484 : ℤ) : ℚ) := by
      rw [abs_of_nonneg (by positivity)]
      norm_num
      linarith
    exact Dbl.ofRat_fin hA 25484 (by norm_num) hb
  by_cases hv1 : 1 < v
  · refine ⟨1, by norm_num, le_refl _, ?_⟩
    have e1 : Dbl.lt (Dbl.fin 1) (Dbl.fin v) = true := by simpa [Dbl.lt] using hv1
    have e2 : Dbl.lt (Dbl.fin 1) (Dbl.fin (-1)) = false := by
      simp only [Dbl.lt]; norm_num
    simp only [e1, e2, if_true, Bool.false_eq_true, if_false]
    exact hfim 1 (by norm_num) (le_refl _)
  · have e1 : Dbl.lt (Dbl.fin 1) (Dbl.fin v) = false := by simpa [Dbl.lt] using hv1
    simp only [e1, Bool.false_eq_true, if_false]
    by_cases hv2 : v < -1
    · refine ⟨-1, le_refl _, by norm_num, ?_⟩
      have e2 : Dbl.lt (Dbl.fin v) (Dbl.fin (-1)) = true := by simpa [Dbl.lt] using hv2
      simp only [e2, if_true]
      exact hfim (-1) (le_refl _) (by norm_num)
    · refine ⟨v, not_lt.1 hv2, not_lt.1 hv1, ?_⟩
      have e2 : Dbl.lt (Dbl.fin v) (Dbl.fin (-1)) = false := by simpa [Dbl.lt] using hv2
      simp only [e2, Bool.false_eq_true, if_false]
      exact hfim v (not_lt.1 hv2) (not_lt.1 hv1)


theorem Dbl.MAX_pos : 0 < Dbl.MAX := lt_of_lt_of_le (by norm_num) Dbl.MAX_grande

theorem Dbl.mul_comuta (arr : ℚ → ℚ) (a b : Dbl) : Dbl.mul arr a b = Dbl.mul arr b a := by
  cases a <;> cases b <;> first
    | rfl
    | (simp only [Dbl.mul]; rw [mul_comm])

theorem Dbl.add_comuta (arr : ℚ → ℚ) (a b : Dbl) : Dbl.add arr a b = Dbl.add arr b a := by
  cases a <;> cases b <;> first
    | rfl
    | (simp only [Dbl.add]; rw [add_comm])

theorem Dbl.ofRat_neg {arr : ℚ → ℚ} (hodd : ∀ x, arr (-x) = -arr x) (z : ℚ) :
    Dbl.ofRat arr (-z) = Dbl.neg (Dbl.ofRat arr z) := by
  have hM := Dbl.MAX_pos
  unfold Dbl.ofRat
  rw [hodd]
  by_cases h1 : arr z > Dbl.MAX
  · rw [if_pos h1, if_neg (by linarith), if_pos (by linarith)]
    rfl
  · rw [if_neg h1]
    by_cases h2 : arr z < -Dbl.MAX
    · rw [if_pos h2, if_pos (by linarith)]
      rfl
    · rw [if_neg h2, if_neg (by linarith), if_neg (by linarith)]
      rfl

theorem Dbl.trig_neg {f : ℚ → ℚ} (hf : ∀ x, f (-x) = f x) (d : Dbl) :
    Dbl.trig f (Dbl.neg d) = Dbl.trig f d := by
  cases d with
  | fin q => simp only [Dbl.neg, Dbl.trig, hf]
  | pinf => rfl
  | ninf => rfl
  | nan => rfl

theorem Dbl.trig_sub {arr f : ℚ → ℚ} (hodd : ∀ x, arr (-x) = -arr x)
    (hf : ∀ x, f (-x) = f x) (a b : Dbl) :
    Dbl.trig f (Dbl.sub arr a b) = Dbl.trig f (Dbl.sub arr b a) := by
  cases a <;> cases b <;> first
    | rfl
    | skip
  rename_i x y
  have e : Dbl.sub arr (Dbl.fin y) (Dbl.fin x) = Dbl.neg (Dbl.sub arr (Dbl.fin x) (Dbl.fin y)) := by
    have e1 : Dbl.sub arr (Dbl.fin y) (Dbl.fin x) = Dbl.ofRat arr (y - x) := rfl
    have e2 : Dbl.sub arr (Dbl.fin x) (Dbl.fin y) = Dbl.ofRat arr (x - y) := rfl
    have e3 : y - x = -(x - y) := by ring
    rw [e1, e2, e3]
    exact Dbl.ofRat_neg hodd _
  rw [e, Dbl.trig_neg hf]

/-- The great-circle formula returns the same `double` in both orders of the points,
whatever their coordinates, when the rounding is odd and `cos` is even. -/
theorem arcoD_simetrico {E : Ambiente} (hodd : ∀ x, E.arr (-x) = -E.arr x)
    (hcos : ∀ x, E.cos (-x) = E.cos x) (lat1 lon1 lat2 lon2 : ℚ) :
    arcoD E lat1 lon1 lat2 lon2 = arcoD E lat2 lon2 lat1 lon1 := by
  unfold arcoD
  simp only
  rw [Dbl.trig_sub hodd hcos,
    Dbl.mul_comuta E.arr (Dbl.trig E.sin _) (Dbl.trig E.sin _),
    Dbl.mul_comuta E.arr (Dbl.trig E.cos _) (Dbl.trig E.cos _)]

theorem haversineD_simetrico {E : Ambiente} (hodd : ∀ x, E.arr (-x) = -E.arr x)
    (hcos : ∀ x, E.cos (-x) = E.cos x) (A B : Ponto) :
    haversineD E A B = haversineD E B A := by
  unfold haversineD
  by_cases h : A.id = B.id
  · rw [if_pos h, if_pos h.symm]
  · rw [if_neg h, if_neg (fun e => h e.symm)]
    exact arcoD_simetrico hodd hcos _ _ _ _

theorem haversineD_finito {E : Ambiente} {PI : ℚ} (hA : Arredondamento E.arr)
    (hC : Cmath E PI) {A B : Ponto} (ha : A.noGlobo) (hb : B.noGlobo) :
    ∃ q, haversineD E A B = Dbl.fin q ∧ 0 ≤ q ∧ q ≤ E.arr (PI * 6371) := by
  have h0 : E.arr 0 = 0 := by
    have := hA.inteiros 0 (by norm_num)
    simpa using this
  have hPI : 0 ≤ PI := le_trans (hC.acos_lim 0 (by norm_num) (by norm_num)).1
    (hC.acos_lim 0 (by norm_num) (by norm_num)).2
  unfold haversineD
  by_cases h : A.id = B.id
  · rw [if_pos h]
    refine ⟨0, rfl, le_refl _, ?_⟩
    rw [← h0]
    exact hA.monotono _ _ (by positivity)
  · rw [if_neg h]
    obtain ⟨c, hc1, hc2, e⟩ := arcoD_finito hA hC A.latitude A.longitude B.latitude
      B.longitude ha.1 ha.2 hb.1 hb.2
    obtain ⟨hq0, hqP⟩ := hC.acos_lim c hc1 hc2
    refine ⟨_, e, ?_, ?_⟩
    · rw [← h0]
      exact hA.monotono _ _ (by positivity)
    · apply hA.monotono
      rw [mul_comm]
      exact mul_le_mul_of_nonneg_right hqP (by norm_num)


theorem Dbl.mul_nan_esq (arr : ℚ → ℚ) (x : Dbl) : Dbl.mul arr Dbl.nan x = Dbl.nan := by
  cases x <;> rfl

theorem Dbl.mul_nan_dir (arr : ℚ → ℚ) (x : Dbl) : Dbl.mul arr x Dbl.nan = Dbl.nan := by
  cases x <;> rfl

theorem Dbl.add_nan_esq (arr : ℚ → ℚ) (x : Dbl) : Dbl.add arr Dbl.nan x = Dbl.nan := by
  cases x <;> rfl

theorem Dbl.MY_PI_binario :
    Dbl.ofRat Dbl.arredonda 3.14159265358979323846
      = Dbl.fin (884279719003555 / 281474976710656) := by
  decide!

theorem Dbl.overflow_MY_PI :
    Dbl.mul Dbl.arredonda (Dbl.fin (884279719003555 / 281474976710656)) (Dbl.fin 1e308)
      = Dbl.pinf := by
  decide!

theorem Dbl.radianos_overflow :
    Dbl.div Dbl.arredonda
      (Dbl.mul Dbl.arredonda (Dbl.ofRat Dbl.arredonda 3.14159265358979323846) (Dbl.fin 1e308))
      (Dbl.fin 180) = Dbl.pinf := by
  rw [Dbl.MY_PI_binario, Dbl.overflow_MY_PI]
  decide!

/-- In binary64 arithmetic the great-circle formula returns NaN when the first latitude
is `1e308`: `MY_PI*latitude` overflows to infinity and `sin` of infinity is NaN. -/
theorem arcoD_overflow_esq (sin cos acos : ℚ → ℚ) (lon1 lat2 lon2 : ℚ) :
    arcoD ⟨Dbl.arredonda, sin, cos, acos⟩ 1e308 lon1 lat2 lon2 = Dbl.nan := by
  unfold arcoD
  simp only
  rw [Dbl.radianos_overflow]
  have h2 : Dbl.trig sin Dbl.pinf = Dbl.nan := rfl
  rw [h2, Dbl.mul_nan_esq, Dbl.add_nan_esq]
  rfl

/-- In binary64 arithmetic the great-circle formula returns NaN when the second
latitude is `1e308`. -/
theorem arcoD_overflow_dir (sin cos acos : ℚ → ℚ) (lat1 lon1 lon2 : ℚ) :
    arcoD ⟨Dbl.arredonda, sin, cos, acos⟩ lat1 lon1 1e308 lon2 = Dbl.nan := by
  unfold arcoD
  simp only
  rw [Dbl.radianos_overflow]
  have h2 : Dbl.trig sin Dbl.pinf = Dbl.nan := rfl
  rw [h2, Dbl.mul_nan_dir, Dbl.add_nan_esq]
  rfl

theorem arredondamento_exato : Arredondamento ambienteExato.arr :=
  ⟨fun _ _ h => h, fun _ => rfl, fun _ _ => rfl⟩

theorem senoLim_lim (x : ℚ) : |senoLim x| ≤ 1 := by
  unfold senoLim
  have hp : (0 : ℚ) < 1 + x * x := by nlinarith [mul_self_nonneg x]
  rw [abs_le]
  constructor
  · rw [le_div_iff₀ hp]
    nlinarith [mul_self_nonneg (x + 1)]
  · rw [div_le_iff₀ hp]
    nlinarith [mul_self_nonneg (x - 1)]

theorem cossenoLim_lim (x : ℚ) : |cossenoLim x| ≤ 1 := by
  unfold cossenoLim
  have hp : (0 : ℚ) < 1 + x * x := by nlinarith [mul_self_nonneg x]
  rw [abs_le]
  constructor
  · rw [le_div_iff₀ hp]
    nlinarith [mul_self_nonneg x]
  · rw [div_le_iff₀ hp]
    nlinarith [mul_self_nonneg x]

theorem cmath_exato : Cmath ambienteExato (22 / 7) :=
  ⟨senoLim_lim, cossenoLim_lim, fun x => by simp [ambienteExato, cossenoLim],
    acosQ_limites, by norm_num⟩


/-- C13 (amended): when the rounding is that of a round-to-nearest unit and `sin`, `cos`,
`acos` keep their mathematical ranges with `cos` even, `haversine(A, B)` and
`haversine(B, A)` are the same `double` for every two points; and when the coordinates
of both points are within the ranges of the data model (latitude in `[-90, 90]`,
longitude in `[-180, 180]`) that value is not NaN, so that the comparison
`haversine(A, B) == haversine(B, A)` is true. -/
theorem haversineD_simetrica (E : Ambiente) (PI : ℚ) (A B : Ponto)
    (hA : Arredondamento E.arr) (hC : Cmath E PI) :
    haversineD E A B = haversineD E B A ∧
      (A.noGlobo → B.noGlobo →
        Dbl.igual (haversineD E A B) (haversineD E B A) = true) := by
  have hsim := haversineD_simetrico hA.impar hC.cos_par A B
  refine ⟨hsim, fun ha hb => ?_⟩
  obtain ⟨q, hq, _⟩ := haversineD_finito hA hC ha hb
  rw [← hsim, hq]
  simp [Dbl.igual]

/-- Witness of C13 (amended): the points `#A (10,20)` and `#B (30,-40)` in the
environment without rounding error. -/
theorem haversineD_simetrica_witness :
    haversineD ambienteExato ⟨⟨"#A"⟩, "Ponto A", 10, 20⟩ ⟨⟨"#B"⟩, "Ponto B", 30, -40⟩
        = haversineD ambienteExato ⟨⟨"#B"⟩, "Ponto B", 30, -40⟩ ⟨⟨"#A"⟩, "Ponto A", 10, 20⟩ ∧
      (Ponto.noGlobo ⟨⟨"#A"⟩, "Ponto A", 10, 20⟩ → Ponto.noGlobo ⟨⟨"#B"⟩, "Ponto B", 30, -40⟩ →
        Dbl.igual
          (haversineD ambienteExato ⟨⟨"#A"⟩, "Ponto A", 10, 20⟩ ⟨⟨"#B"⟩, "Ponto B", 30, -40⟩)
          (haversineD ambienteExato ⟨⟨"#B"⟩, "Ponto B", 30, -40⟩ ⟨⟨"#A"⟩, "Ponto A", 10, 20⟩)
          = true) :=
  haversineD_simetrica ambienteExato (22 / 7) ⟨⟨"#A"⟩, "Ponto A", 10, 20⟩
    ⟨⟨"#B"⟩, "Ponto B", 30, -40⟩ arredondamento_exato cmath_exato

/-- C13 (counterexample): in binary64 arithmetic, for the points `#A` of latitude `1e308`
and `#B` of latitude 0, both `haversine(A, B)` and `haversine(B, A)` are NaN, and the
comparison `haversine(A, B) == haversine(B, A)` is false.  The values of `sin`, `cos`
and `acos` on finite arguments play no part (`arcoD_overflow_esq`,
`arcoD_overflow_dir`). -/
theorem haversineD_nao_simetrica :
    haversineD ambienteBinario ⟨⟨"#A"⟩, "Ponto A", 1e308, 0⟩ ⟨⟨"#B"⟩, "Ponto B", 0, 0⟩
      = Dbl.nan ∧
    haversineD ambienteBinario ⟨⟨"#B"⟩, "Ponto B", 0, 0⟩ ⟨⟨"#A"⟩, "Ponto A", 1e308, 0⟩
      = Dbl.nan ∧
    Dbl.igual
      (haversineD ambienteBinario ⟨⟨"#A"⟩, "Ponto A", 1e308, 0⟩ ⟨⟨"#B"⟩, "Ponto B", 0, 0⟩)
      (haversineD ambienteBinario ⟨⟨"#B"⟩, "Ponto B", 0, 0⟩ ⟨⟨"#A"⟩, "Ponto A", 1e308, 0⟩)
      = false := by
  have h1 : haversineD ambienteBinario ⟨⟨"#A"⟩, "Ponto A", 1e308, 0⟩
      ⟨⟨"#B"⟩, "Ponto B", 0, 0⟩ = Dbl.nan := by
    unfold haversineD
    rw [if_neg (by decide)]
    exact arcoD_overflow_esq _ _ _ 0 0 0
  have h2 : haversineD ambienteBinario ⟨⟨"#B"⟩, "Ponto B", 0, 0⟩
      ⟨⟨"#A"⟩, "Ponto A", 1e308, 0⟩ = Dbl.nan := by
    unfold haversineD
    rw [if_neg (by decide)]
    exact arcoD_overflow_dir _ _ _ 0 0 0
  refine ⟨h1, h2, ?_⟩
  rw [h1, h2]
  rfl

/-- C14 (amended): for two points whose coordinates are within the ranges of the data
model (latitude in `[-90, 90]`, longitude in `[-180, 180]`), when the rounding is that
of a round-to-nearest unit and `sin`, `cos` take their values in `[-1, 1]` and `acos`
maps `[-1, 1]` into `[0, PI]`, `haversine(A, B)` is a finite value `q` with
`0 <= q <= PI * 6371`, the product being rounded. -/
theorem haversineD_limites (E : Ambiente) (PI : ℚ) (A B : Ponto)
    (hA : Arredondamento E.arr) (hC : Cmath E PI) (ha : A.noGlobo) (hb : B.noGlobo) :
    ∃ q, haversineD E A B = Dbl.fin q ∧ 0 ≤ q ∧ q ≤ E.arr (PI * 6371) :=
  haversineD_finito hA hC ha hb

/-- Witness of C14 (amended): the points `#A (90,0)` and `#B (90,10)` in the environment
without rounding error, with `PI = 22/7`. -/
theorem haversineD_limites_witness :
    ∃ q, haversineD ambienteExato ⟨⟨"#A"⟩, "Ponto A", 90, 0⟩ ⟨⟨"#B"⟩, "Ponto B", 90, 10⟩
        = Dbl.fin q ∧ 0 ≤ q ∧ q ≤ ambienteExato.arr (22 / 7 * 6371) :=
  haversineD_limites ambienteExato (22 / 7) ⟨⟨"#A"⟩, "Ponto A", 90, 0⟩
    ⟨⟨"#B"⟩, "Ponto B", 90, 10⟩ arredondamento_exato cmath_exato
    (by unfold Ponto.noGlobo; norm_num) (by unfold Ponto.noGlobo; norm_num)

/-- C14 (counterexample): in binary64 arithmetic, for the points `#A` of latitude `1e308`
and `#B` of latitude 0 the product `MY_PI*latitude` overflows, `haversine(A, B)` is NaN,
and both comparisons `0 <= haversine(A, B)` and `haversine(A, B) <= MY_PI*6371` are
false.  The values of `sin`, `cos` and `acos` on finite arguments play no part
(`arcoD_overflow_esq`). -/
theorem haversineD_indefinido :
    haversineD ambienteBinario ⟨⟨"#A"⟩, "Ponto A", 1e308, 0⟩ ⟨⟨"#B"⟩, "Ponto B", 0, 0⟩
      = Dbl.nan ∧
    Dbl.le (Dbl.fin 0)
      (haversineD ambienteBinario ⟨⟨"#A"⟩, "Ponto A", 1e308, 0⟩ ⟨⟨"#B"⟩, "Ponto B", 0, 0⟩)
      = false ∧
    Dbl.le
      (haversineD ambienteBinario ⟨⟨"#A"⟩, "Ponto A", 1e308, 0⟩ ⟨⟨"#B"⟩, "Ponto B", 0, 0⟩)
      (Dbl.mul Dbl.arredonda (Dbl.ofRat Dbl.arredonda 3.14159265358979323846)
        (Dbl.fin 6371)) = false := by
  have h1 : haversineD ambienteBinario ⟨⟨"#A"⟩, "Ponto A", 1e308, 0⟩
      ⟨⟨"#B"⟩, "Ponto B", 0, 0⟩ = Dbl.nan := by
    unfold haversineD
    rw [if_neg (by decide)]
    exact arcoD_overflow_esq _ _ _ 0 0 0
  refine ⟨h1, ?_, ?_⟩
  · rw [h1]; rfl
  · rw [h1]
    cases Dbl.mul Dbl.arredonda (Dbl.ofRat Dbl.arredonda 3.14159265358979323846)
      (Dbl.fin 6371) <;> rfl

/-! ## The search on `double` values: one route of the expansion loop -/

theorem nohOKD_mono {P : Planejador} {arr : ℚ → ℚ} {id_origem : IDPonto}
    {F F' : List NohD} (hsub : ∀ m ∈ F, m ∈ F') {n : NohD}
    (h : NohOKD P arr id_origem F n) : NohOKD P arr id_origem F' n := by
  rcases h with ho | ⟨m, hm, rest⟩
  · exact Or.inl ho
  · exact Or.inr ⟨m, hsub m hm, rest⟩

theorem sucessorD_of_liga (P : Planejador) (E : Ambiente) (pt_dest : Ponto)
    (atual : NohD) (F A : List NohD) (rota : Rota) (v : IDPonto)
    (hl : rota.liga atual.id_pt v) (hv : v ∉ F.map (fun n => n.id_pt)) :
    sucessorD P E pt_dest atual F A rota =
      match A.find? (fun n => decide (n.id_pt = v)) with
      | some it =>
        if Dbl.lt (Dbl.add E.arr (Dbl.add E.arr atual.g (Dbl.fin rota.comprimento))
            (haversineD E (P.getPonto v) pt_dest)) (it.f E.arr) then
          A.eraseP (fun n => decide (n.id_pt = v)) ++
            [⟨v, rota.id, Dbl.add E.arr atual.g (Dbl.fin rota.comprimento),
              haversineD E (P.getPonto v) pt_dest⟩]
        else A
      | none =>
        A ++ [⟨v, rota.id, Dbl.add E.arr atual.g (Dbl.fin rota.comprimento),
          haversineD E (P.getPonto v) pt_dest⟩] := by
  have hinc : ¬ (rota.extremidade0 ≠ atual.id_pt ∧ rota.extremidade1 ≠ atual.id_pt) := by
    rcases hl with ⟨h0, _⟩ | ⟨h1, _⟩
    · exact fun h => h.1 h0
    · exact fun h => h.2 h1
  have hany : F.any (fun n => decide (n.id_pt = v)) = false := by
    rw [List.any_eq_false]
    intro n hn
    have : n.id_pt ≠ v := fun e => hv (e ▸ List.mem_map_of_mem (fun n => n.id_pt) hn)
    simpa using this
  unfold sucessorD
  simp only [if_neg hinc, id_suc_liga hl, hany, Bool.false_eq_true, if_false]

theorem sucessorD_cases (P : Planejador) (E : Ambiente) (pt_dest : Ponto)
    (atual : NohD) (F A : List NohD) (rota : Rota) :
    sucessorD P E pt_dest atual F A rota = A ∨
      ∃ v, rota.liga atual.id_pt v ∧ v ∉ F.map (fun n => n.id_pt) := by
  by_cases hinc : rota.extremidade0 ≠ atual.id_pt ∧ rota.extremidade1 ≠ atual.id_pt
  · left; unfold sucessorD; simp only [if_pos hinc]
  · by_cases hany : F.any (fun n => decide (n.id_pt =
        (if rota.extremidade0 = atual.id_pt then rota.extremidade1
          else rota.extremidade0))) = true
    · left; unfold sucessorD; simp only [if_neg hinc, hany, if_true]
    · right
      refine ⟨if rota.extremidade0 = atual.id_pt then rota.extremidade1
          else rota.extremidade0, ?_, ?_⟩
      · by_cases e : rota.extremidade0 = atual.id_pt
        · simp only [e, if_true]; exact Or.inl ⟨e, rfl⟩
        · simp only [e, if_false]
          have e1 : rota.extremidade1 = atual.id_pt := by
            by_contra e1; exact hinc ⟨e, e1⟩
          exact Or.inr ⟨e1, rfl⟩
      · intro hmem
        apply hany
        rw [List.any_eq_true]
        obtain ⟨n, hn, hid⟩ := List.mem_map.1 hmem
        exact ⟨n, hn, by simpa using hid⟩

theorem sucessorD_abOK {P : Planejador} {E : Ambiente} {id_origem : IDPonto}
    {pt_dest : Ponto} {atual : NohD} {F A : List NohD} {rota : Rota}
    (hA : AbOKD P E.arr id_origem F A) (hr : rota ∈ P.rotas) (hat : atual ∈ F) :
    AbOKD P E.arr id_origem F (sucessorD P E pt_dest atual F A rota) := by
  rcases sucessorD_cases P E pt_dest atual F A rota with h | ⟨v, hl, hv⟩
  · rw [h]; exact hA
  · rw [sucessorD_of_liga P E pt_dest atual F A rota v hl hv]
    have hnovo : NohOKD P E.arr id_origem F
        ⟨v, rota.id, Dbl.add E.arr atual.g (Dbl.fin rota.comprimento),
          haversineD E (P.getPonto v) pt_dest⟩ :=
      Or.inr ⟨atual, hat, rota, hr, hl, rfl, rfl⟩
    cases hf : A.find? (fun n => decide (n.id_pt = v)) with
    | none =>
      simp only []
      rw [List.find?_eq_none] at hf
      refine ⟨?_, ?_, ?_⟩
      · rw [List.map_append, List.nodup_append]
        refine ⟨hA.nodup, by simp, ?_⟩
        intro x hx hx'
        simp only [List.map_cons, List.map_nil, List.mem_singleton] at hx'
        obtain ⟨n, hn, hid⟩ := List.mem_map.1 hx
        have := hf n hn
        simp only [decide_eq_true_eq] at this
        exact this (hid.trans hx')
      · intro n hn
        rcases List.mem_append.1 hn with h | h
        · exact hA.fora n h
        · rw [List.mem_singleton.1 h]; exact hv
      · intro n hn
        rcases List.mem_append.1 hn with h | h
        · exact hA.gerado n h
        · rw [List.mem_singleton.1 h]; exact hnovo
    | some it =>
      simp only []
      split
      · refine ⟨?_, ?_, ?_⟩
        · rw [List.map_append, List.nodup_append]
          refine ⟨hA.nodup.sublist ((List.eraseP_sublist A).map _), by simp, ?_⟩
          intro x hx hx'
          simp only [List.map_cons, List.map_nil, List.mem_singleton] at hx'
          obtain ⟨n, hn, hid⟩ := List.mem_map.1 hx
          exact eraseP_sem_id (fun n : NohD => n.id_pt) v A hA.nodup n hn (hid.trans hx')
        · intro n hn
          rcases List.mem_append.1 hn with h | h
          · exact hA.fora n (List.mem_of_mem_eraseP h)
          · rw [List.mem_singleton.1 h]; exact hv
        · intro n hn
          rcases List.mem_append.1 hn with h | h
          · exact hA.gerado n (List.mem_of_mem_eraseP h)
          · rw [List.mem_singleton.1 h]; exact hnovo
      · exact hA

theorem expandeD_abOK {P : Planejador} {E : Ambiente} {id_origem : IDPonto}
    {pt_dest : Ponto} {atual : NohD} {F : List NohD} (hat : atual ∈ F) :
    ∀ (rs : List Rota) (A : List NohD), (∀ r ∈ rs, r ∈ P.rotas) →
      AbOKD P E.arr id_origem F A →
      AbOKD P E.arr id_origem F (rs.foldl (sucessorD P E pt_dest atual F) A) := by
  intro rs
  induction rs with
  | nil => intro A _ hA; exact hA
  | cons r rs ih =>
    intro A hsub hA
    rw [List.foldl_cons]
    exact ih _ (fun x hx => hsub x (List.mem_cons_of_mem _ hx))
      (sucessorD_abOK hA (hsub r (List.mem_cons_self _ _)) hat)

/-! ## The search on `double` values: the loop invariant -/

theorem invD_perm {P : Planejador} {arr : ℚ → ℚ} {id_origem : IDPonto}
    {A A' F : List NohD} (h : InvD P arr id_origem A F)
    (hp : A'.Perm A) : InvD P arr id_origem A' F := by
  refine ⟨?_, ?_, h.fechado⟩
  · exact (((hp.append_right F).map _).nodup_iff).2 h.nodup
  · intro n hn; exact h.aberto n (hp.mem_iff.1 hn)

theorem invD_inicial (P : Planejador) (arr : ℚ → ℚ) (id_origem : IDPonto) (h0 : Dbl) :
    InvD P arr id_origem [⟨id_origem, IDRota.default, Dbl.fin 0, h0⟩] [] := by
  refine ⟨by simp, ?_, ?_⟩
  · intro n hn
    rw [List.mem_singleton.1 hn]
    exact Or.inl ⟨rfl, rfl, rfl⟩
  · intro F1 n F2 h
    exact absurd h (by simp)

theorem invD_passo {P : Planejador} {E : Ambiente} {id_origem : IDPonto}
    {pt_dest : Ponto} {atual : NohD} {A F : List NohD}
    (h : InvD P E.arr id_origem (atual :: A) F) :
    InvD P E.arr id_origem
      (P.rotas.foldl (sucessorD P E pt_dest atual (F ++ [atual])) A) (F ++ [atual]) := by
  have hnd := h.nodup
  rw [List.cons_append, List.map_cons, List.nodup_cons, List.map_append,
    List.mem_append, List.nodup_append] at hnd
  obtain ⟨hat_fora, hndA, hndF, hdisj⟩ := hnd
  have hatA : atual.id_pt ∉ A.map (fun n => n.id_pt) := fun x => hat_fora (Or.inl x)
  have hatF : atual.id_pt ∉ F.map (fun n => n.id_pt) := fun x => hat_fora (Or.inr x)
  have hat : atual ∈ F ++ [atual] := List.mem_append_right _ (List.mem_singleton.2 rfl)
  have hsubF : ∀ m ∈ F, m ∈ F ++ [atual] := fun m hm => List.mem_append_left _ hm
  have hidsF' : ∀ v, v ∈ (F ++ [atual]).map (fun n => n.id_pt) ↔
      v ∈ F.map (fun n => n.id_pt) ∨ v = atual.id_pt := by
    intro v; simp
  have hAb : AbOKD P E.arr id_origem (F ++ [atual]) A := by
    refine ⟨hndA, ?_, ?_⟩
    · intro n hn hmem
      have hnid : n.id_pt ∈ A.map (fun n => n.id_pt) := List.mem_map_of_mem _ hn
      rcases (hidsF' _).1 hmem with hF | he
      · exact hdisj hnid hF
      · exact hatA (he ▸ hnid)
    · intro n hn
      exact nohOKD_mono hsubF (h.aberto n (List.mem_cons_of_mem _ hn))
  have hAb' : AbOKD P E.arr id_origem (F ++ [atual])
      (P.rotas.foldl (sucessorD P E pt_dest atual (F ++ [atual])) A) :=
    expandeD_abOK hat P.rotas A (fun r hr => hr) hAb
  refine ⟨?_, hAb'.gerado, ?_⟩
  · rw [List.map_append, List.nodup_append]
    refine ⟨hAb'.nodup, ?_, ?_⟩
    · rw [List.map_append, List.nodup_append]
      refine ⟨hndF, by simp, ?_⟩
      intro x hx hx'
      simp only [List.map_cons, List.map_nil, List.mem_singleton] at hx'
      exact hatF (hx' ▸ hx)
    · intro x hx hx'
      obtain ⟨n, hn, hid⟩ := List.mem_map.1 hx
      exact hAb'.fora n hn (hid ▸ hx')
  · intro F1 n F2 e
    rcases List.eq_nil_or_concat F2 with rfl | ⟨F2', x, rfl⟩
    · have := List.append_inj' e (by simp)
      have hn : atual = n := by simpa using this.2
      rw [← this.1, ← hn]
      exact h.aberto atual (List.mem_cons_self _ _)
    · have e' : F ++ [atual] = (F1 ++ n :: F2') ++ [x] := by rw [e]; simp
      have := List.append_inj' e' (by simp)
      exact h.fechado F1 n F2' this.1

theorem invD_nodup_fechado {P : Planejador} {arr : ℚ → ℚ} {id_origem : IDPonto}
    {A F : List NohD} (h : InvD P arr id_origem A F) : (F.map (fun n => n.id_pt)).Nodup := by
  have := h.nodup
  rw [List.map_append, List.nodup_append] at this
  exact this.2.1

/-! ## The search on `double` values: the main loop -/

theorem lacoD_vazio (P : Planejador) (E : Ambiente)
    (ordena : (NohD → NohD → Bool) → List NohD → List NohD) (id_destino : IDPonto)
    (pt_dest : Ponto) (fuelR fuel : Nat) (F : List NohD) :
    lacoD P E ordena id_destino pt_dest fuelR fuel [] F
      = some ⟨Dbl.fin (-1), [], 0, F.length⟩ := by
  cases fuel <;> rw [lacoD] <;> rfl

theorem lacoD_zero (P : Planejador) (E : Ambiente)
    (ordena : (NohD → NohD → Bool) → List NohD → List NohD) (id_destino : IDPonto)
    (pt_dest : Ponto) (fuelR : Nat) (a : NohD) (A F : List NohD) :
    lacoD P E ordena id_destino pt_dest fuelR 0 (a :: A) F = none := by
  rw [lacoD]; rfl

theorem lacoD_succ (P : Planejador) (E : Ambiente)
    (ordena : (NohD → NohD → Bool) → List NohD → List NohD) (id_destino : IDPonto)
    (pt_dest : Ponto) (fuelR fuel : Nat) (a : NohD) (A F : List NohD) :
    lacoD P E ordena id_destino pt_dest fuelR (fuel + 1) (a :: A) F =
      match ordena (fun a b => Dbl.lt (a.f E.arr) (b.f E.arr)) (a :: A) with
      | [] => none
      | atual :: Aberto =>
        if atual.id_pt = id_destino then
          match reconstroiD P F fuelR atual [] with
          | some C => some ⟨atual.g, C, Aberto.length, F.length + 1⟩
          | none => none
        else
          lacoD P E ordena id_destino pt_dest fuelR fuel
            (P.rotas.foldl (sucessorD P E pt_dest atual (F ++ [atual])) Aberto)
            (F ++ [atual]) := by
  rw [lacoD]; rfl

theorem lacoD_some {P : Planejador} {E : Ambiente}
    {ordena : (NohD → NohD → Bool) → List NohD → List NohD}
    (hord : ∀ comp l, (ordena comp l).Perm l)
    {id_origem id_destino : IDPonto} {pt_dest : Ponto} {fuelR : Nat} {r : SaidaD} :
    ∀ (fuel : Nat) (A F : List NohD), InvD P E.arr id_origem A F →
      lacoD P E ordena id_destino pt_dest fuelR fuel A F = some r →
      (∃ F' : List NohD, r = ⟨Dbl.fin (-1), [], 0, F'.length⟩) ∨
      (∃ atual A' F' C, InvD P E.arr id_origem (atual :: A') F' ∧
        atual.id_pt = id_destino ∧
        reconstroiD P F' fuelR atual [] = some C ∧
        r = ⟨atual.g, C, A'.length, F'.length + 1⟩) := by
  intro fuel
  induction fuel with
  | zero =>
    intro A F _ h
    cases A with
    | nil =>
      rw [lacoD_vazio] at h
      exact Or.inl ⟨F, (Option.some.inj h).symm⟩
    | cons a A => rw [lacoD_zero] at h; simp at h
  | succ fuel ih =>
    intro A F hinv h
    cases A with
    | nil =>
      rw [lacoD_vazio] at h
      exact Or.inl ⟨F, (Option.some.inj h).symm⟩
    | cons a A =>
      rw [lacoD_succ] at h
      cases hs : ordena (fun a b => Dbl.lt (a.f E.arr) (b.f E.arr)) (a :: A) with
      | nil => rw [hs] at h; simp at h
      | cons atual A' =>
        rw [hs] at h
        simp only at h
        have hinv' : InvD P E.arr id_origem (atual :: A') F :=
          invD_perm hinv (hs ▸ hord _ (a :: A))
        by_cases hd : atual.id_pt = id_destino
        · rw [if_pos hd] at h
          cases hrec : reconstroiD P F fuelR atual [] with
          | none => rw [hrec] at h; simp at h
          | some C =>
            rw [hrec] at h
            simp only [Option.some.injEq] at h
            exact Or.inr ⟨atual, A', F, C, hinv', hd, hrec, h.symm⟩
        · rw [if_neg hd] at h
          exact ih _ _ (invD_passo hinv') h

/-! ## The search on `double` values: path reconstruction -/

theorem reconstroiD_sentinela (P : Planejador) (F : List NohD) (fuel : Nat) (n : NohD)
    (C : Caminho) (h : n.id_rt = IDRota.default) : reconstroiD P F fuel n C = some C := by
  cases fuel <;> rw [reconstroiD, if_neg (by simpa using h)]

theorem reconstroiD_zero (P : Planejador) (F : List NohD) (n : NohD) (C : Caminho)
    (h : n.id_rt ≠ IDRota.default) : reconstroiD P F 0 n C = none := by
  rw [reconstroiD, if_pos h]

theorem reconstroiD_succ (P : Planejador) (F : List NohD) (fuel : Nat) (n : NohD)
    (C : Caminho) (h : n.id_rt ≠ IDRota.default) :
    reconstroiD P F (fuel + 1) n C =
      match F.find? (fun x => decide (x.id_pt =
          if (P.getRota n.id_rt).extremidade0 = n.id_pt then (P.getRota n.id_rt).extremidade1
          else (P.getRota n.id_rt).extremidade0)) with
      | some it => reconstroiD P F fuel it ((n.id_rt, n.id_pt) :: C)
      | none => reconstroiD P F fuel
          { n with id_pt :=
              if (P.getRota n.id_rt).extremidade0 = n.id_pt
              then (P.getRota n.id_rt).extremidade1
              else (P.getRota n.id_rt).extremidade0 } ((n.id_rt, n.id_pt) :: C) := by
  rw [reconstroiD, if_pos h]

theorem reconstroiD_mono (P : Planejador) (F : List NohD) :
    ∀ (fuel fuel' : Nat) (n : NohD) (C R : Caminho), fuel ≤ fuel' →
      reconstroiD P F fuel n C = some R → reconstroiD P F fuel' n C = some R := by
  intro fuel
  induction fuel with
  | zero =>
    intro fuel' n C R _ h
    by_cases hrt : n.id_rt = IDRota.default
    · rw [reconstroiD_sentinela P F _ n C hrt] at h ⊢; exact h
    · rw [reconstroiD_zero P F n C hrt] at h; simp at h
  | succ fuel ih =>
    intro fuel' n C R hle h
    obtain ⟨fuel'', rfl⟩ : ∃ k, fuel' = k + 1 := ⟨fuel' - 1, by omega⟩
    by_cases hrt : n.id_rt = IDRota.default
    · rw [reconstroiD_sentinela P F _ n C hrt] at h ⊢; exact h
    · rw [reconstroiD_succ P F _ n C hrt] at h ⊢
      cases hf : F.find? (fun x => decide (x.id_pt =
          if (P.getRota n.id_rt).extremidade0 = n.id_pt then (P.getRota n.id_rt).extremidade1
          else (P.getRota n.id_rt).extremidade0)) with
      | none =>
        rw [hf] at h
        exact ih _ _ _ _ (by omega) h
      | some it =>
        rw [hf] at h
        exact ih _ _ _ _ (by omega) h

theorem reconstroiD_ok {P : Planejador} {arr : ℚ → ℚ} {id_origem : IDPonto}
    (hP : Invariantes P) {F : List NohD}
    (hnd : (F.map (fun n => n.id_pt)).Nodup)
    (hF : ∀ F1 n F2, F = F1 ++ n :: F2 → NohOKD P arr id_origem F1 n) :
    ∀ (k : Nat) (G1 G2 : List NohD), F = G1 ++ G2 → G1.length ≤ k →
      ∀ n, NohOKD P arr id_origem G1 n → ∀ fuel, k ≤ fuel → ∀ C : Caminho,
        ∃ C', reconstroiD P F fuel n C = some (C' ++ C) ∧
          TrilhaD P arr id_origem C' n.id_pt n.g := by
  intro k
  induction k with
  | zero =>
    intro G1 G2 _ hlen n hn fuel _ C
    have hG : G1 = [] := List.length_eq_zero.1 (Nat.le_zero.1 hlen)
    rcases hn with ⟨hid, hrt, hg⟩ | ⟨m, hm, _⟩
    · refine ⟨[], ?_, ?_⟩
      · rw [reconstroiD_sentinela P F _ n C hrt]; rfl
      · rw [hid, hg]; exact TrilhaD.nil
    · rw [hG] at hm; simp at hm
  | succ k ih =>
    intro G1 G2 hG hlen n hn fuel hfuel C
    rcases hn with ⟨hid, hrt, hg⟩ | ⟨m, hm, rota, hr, hl, hrt, hg⟩
    · refine ⟨[], ?_, ?_⟩
      · rw [reconstroiD_sentinela P F _ n C hrt]; rfl
      · rw [hid, hg]; exact TrilhaD.nil
    · obtain ⟨fuel', rfl⟩ : ∃ j, fuel = j + 1 := ⟨fuel - 1, by omega⟩
      obtain ⟨H1, H2, e⟩ := List.append_of_mem hm
      have hFe : F = H1 ++ m :: (H2 ++ G2) := by rw [hG, e]; simp
      have hmF : m ∈ F := by rw [hFe]; simp
      have hlen' : H1.length ≤ k := by
        have := congrArg List.length e
        simp at this
        omega
      obtain ⟨C', hrec, htr⟩ := ih H1 (m :: (H2 ++ G2)) hFe hlen' m (hF H1 m _ hFe) fuel'
        (by omega) ((n.id_rt, n.id_pt) :: C)
      refine ⟨C' ++ [(rota.id, n.id_pt)], ?_, ?_⟩
      · have hne : n.id_rt ≠ IDRota.default := hrt ▸ rota_id_ne_default hP hr
        rw [reconstroiD_succ P F _ n C hne]
        have hget : P.getRota n.id_rt = rota := hrt ▸ getRota_unica P hP.rotas_unicas rota hr
        rw [hget, id_suc_liga (liga_symm hl)]
        have hfind := find_unico (fun n : NohD => n.id_pt) F m hmF hnd
        simp only at hfind
        rw [hfind]
        simp only
        rw [hrec, hrt]
        simp
      · rw [hg]
        exact TrilhaD.snoc htr hr hl

theorem trilhaD_soma {P : Planejador} {arr : ℚ → ℚ} (hP : Invariantes P) {a b : IDPonto}
    {C : Caminho} {L : Dbl} (h : TrilhaD P arr a C b L) : somaCaminhoD arr P C = L := by
  induction h with
  | nil => simp [somaCaminhoD]
  | @snoc C u v L rota _ hr _ ih =>
    have hne := rota_id_ne_default hP hr
    have hget := getRota_unica P hP.rotas_unicas rota hr
    unfold somaCaminhoD at ih ⊢
    rw [List.filter_append, List.foldl_append, ih]
    simp [hne, hget]

/-! ## The search on `double` values: outcomes -/

theorem calculaCaminhoD_cases {P : Planejador} {E : Ambiente}
    {ordena : (NohD → NohD → Bool) → List NohD → List NohD}
    {id_origem id_destino : IDPonto} {C : Caminho} {NA NF : Int} {fuel : Nat} {r : SaidaD}
    (h : P.calculaCaminhoD E ordena id_origem id_destino C NA NF fuel = some r) :
    r = ⟨Dbl.fin (-1), [], -1, -1⟩ ∨
      lacoD P E ordena id_destino (P.getPonto id_destino) fuel fuel
        [⟨id_origem, IDRota.default, Dbl.fin 0,
          haversineD E (P.getPonto id_origem) (P.getPonto id_destino)⟩] [] = some r := by
  unfold Planejador.calculaCaminhoD at h
  by_cases he : P.empty = true
  · rw [if_pos he] at h
    exact Or.inl (Option.some.inj h).symm
  · rw [if_neg he] at h
    simp only at h
    by_cases ho : (!(P.getPonto id_origem).valid) = true
    · rw [if_pos ho] at h
      exact Or.inl (Option.some.inj h).symm
    · rw [if_neg ho] at h
      by_cases hd : (!(P.getPonto id_destino).valid) = true
      · rw [if_pos hd] at h
        exact Or.inl (Option.some.inj h).symm
      · rw [if_neg hd] at h
        exact Or.inr h

theorem Dbl.nao_negativo_menos_um : Dbl.le (Dbl.fin 0) (Dbl.fin (-1)) = false := by
  simp only [Dbl.le]
  norm_num

theorem calculaCaminhoD_sucesso {P : Planejador} {E : Ambiente}
    {ordena : (NohD → NohD → Bool) → List NohD → List NohD}
    (hord : ∀ comp l, (ordena comp l).Perm l)
    {id_origem id_destino : IDPonto} {C : Caminho} {NA NF : Int} {fuel : Nat} {r : SaidaD}
    (hP : Invariantes P)
    (h : P.calculaCaminhoD E ordena id_origem id_destino C NA NF fuel = some r)
    (hs : Dbl.le (Dbl.fin 0) r.comprimento = true) :
    TrilhaD P E.arr id_origem r.C id_destino r.comprimento := by
  rcases calculaCaminhoD_cases h with hr | hl
  · rw [hr, Dbl.nao_negativo_menos_um] at hs
    exact absurd hs (by simp)
  · rcases lacoD_some hord fuel _ _ (invD_inicial P E.arr id_origem _) hl with
      ⟨F, hr⟩ | ⟨atual, A, F, C', hinv, hd, hrec, hr⟩
    · rw [hr, Dbl.nao_negativo_menos_um] at hs
      exact absurd hs (by simp)
    · obtain ⟨D, hrec', htr⟩ := reconstroiD_ok hP (invD_nodup_fechado hinv) hinv.fechado
        F.length F [] (by simp) (le_refl _) atual
        (hinv.aberto atual (List.mem_cons_self _ _)) (max fuel F.length)
        (le_max_right _ _) []
      have hmono := reconstroiD_mono P F fuel (max fuel F.length) atual [] C'
        (le_max_left _ _) hrec
      rw [hmono] at hrec'
      have hC : C' = D := by simpa using hrec'
      rw [hr]
      simp only
      rw [hC]
      exact hd ▸ htr


theorem insereOrdenadoD_perm (comp : NohD → NohD → Bool) (a : NohD) :
    ∀ l : List NohD, (insereOrdenadoD comp a l).Perm (a :: l) := by
  intro l
  induction l with
  | nil => exact List.Perm.refl _
  | cons b l ih =>
    unfold insereOrdenadoD
    split
    · exact ((List.Perm.cons b ih).trans (List.Perm.swap a b l))
    · exact List.Perm.refl _

theorem sortD_perm (comp : NohD → NohD → Bool) : ∀ l : List NohD, (sortD comp l).Perm l := by
  intro l
  induction l with
  | nil => exact List.Perm.refl _
  | cons a l ih =>
    unfold sortD
    exact (insereOrdenadoD_perm comp a _).trans (List.Perm.cons a ih)

theorem Dbl.igual_refl {x : Dbl} (h : Dbl.le (Dbl.fin 0) x = true) : Dbl.igual x x = true := by
  cases x with
  | fin q => simp [Dbl.igual]
  | pinf => rfl
  | ninf => exact absurd h (by simp [Dbl.le])
  | nan => exact absurd h (by simp [Dbl.le])

theorem invariantes_mapaDecimos : Invariantes mapaDecimos :=
  ⟨by decide, by decide, by decide, by decide, by decide⟩

/-- C3: on a map satisfying the data-model invariants, in every floating-point
environment (whatever the rounding of the additions and the values of `haversine`) and
whatever rearrangement `std::list::sort` makes of `Aberto`, when `calculaCaminho`
succeeds (returns a value `>= 0`) the returned `double` is the one accumulated from
`0.0` by adding, in the order of the returned path, the `comprimento` of the routes
referenced by its steps, each non-sentinel `IDRota` being looked up with `getRota`; the
two values are the same `double` and the comparison `==` between them is true. -/
theorem calculaCaminhoD_soma (P : Planejador) (E : Ambiente)
    (ordena : (NohD → NohD → Bool) → List NohD → List NohD)
    (id_origem id_destino : IDPonto) (C : Caminho) (NA NF : Int) (fuel : Nat) (r : SaidaD)
    (hP : Invariantes P) (hord : ∀ comp l, (ordena comp l).Perm l)
    (h : P.calculaCaminhoD E ordena id_origem id_destino C NA NF fuel = some r)
    (hs : Dbl.le (Dbl.fin 0) r.comprimento = true) :
    somaCaminhoD E.arr P r.C = r.comprimento ∧
      Dbl.igual (somaCaminhoD E.arr P r.C) r.comprimento = true := by
  have e := trilhaD_soma hP (calculaCaminhoD_sucesso hord hP h hs)
  refine ⟨e, ?_⟩
  rw [e]
  exact Dbl.igual_refl hs

/-- Witness of C3: in binary64 arithmetic, on the map whose routes have the lengths
0.1, 0.2 and 0.3, the search from `#A` to `#D` returns 0.6000000000000001 (the `double`
`1351079888211149 / 2^51`), which is the accumulation `((0.0 + 0.1) + 0.2) + 0.3`. -/
theorem calculaCaminhoD_soma_witness :
    somaCaminhoD Dbl.arredonda mapaDecimos
        [(⟨"&R1"⟩, ⟨"#B"⟩), (⟨"&R2"⟩, ⟨"#C"⟩), (⟨"&R3"⟩, ⟨"#D"⟩)]
      = Dbl.fin (1351079888211149 / 2251799813685248) ∧
    Dbl.igual
      (somaCaminhoD Dbl.arredonda mapaDecimos
        [(⟨"&R1"⟩, ⟨"#B"⟩), (⟨"&R2"⟩, ⟨"#C"⟩), (⟨"&R3"⟩, ⟨"#D"⟩)])
      (Dbl.fin (1351079888211149 / 2251799813685248)) = true :=
  calculaCaminhoD_soma mapaDecimos ambienteBinario sortD ⟨"#A"⟩ ⟨"#D"⟩ [] 0 0 10
    ⟨Dbl.fin (1351079888211149 / 2251799813685248),
      [(⟨"&R1"⟩, ⟨"#B"⟩), (⟨"&R2"⟩, ⟨"#C"⟩), (⟨"&R3"⟩, ⟨"#D"⟩)], 0, 4⟩
    invariantes_mapaDecimos sortD_perm (by decide!) (by decide!)

/-- The order of the accumulation matters in binary64 arithmetic: the lengths of the
path of `mapaDecimos` added from the last step to the first, `(0.3 + 0.2) + 0.1`, give
0.6 (the `double` `5404319552844595 / 2^53`), which is not the value the search
returns. -/
theorem somaCaminhoD_ordem :
    somaCaminhoD Dbl.arredonda mapaDecimos
        [(⟨"&R3"⟩, ⟨"#D"⟩), (⟨"&R2"⟩, ⟨"#C"⟩), (⟨"&R1"⟩, ⟨"#B"⟩)]
      = Dbl.fin (5404319552844595 / 9007199254740992) ∧
    Dbl.igual (Dbl.fin (5404319552844595 / 9007199254740992))
      (Dbl.fin (1351079888211149 / 2251799813685248)) = false := by
  decide!


/-! ## Exact runs of the search on `double` values -/

theorem haversine_valor (E : Ambiente) (A B : Ponto) :
    haversine (arcoValor E) A B = (haversineD E A B).valor := by
  unfold haversine haversineD arcoValor
  by_cases h : A.id = B.id
  · rw [if_pos h, if_pos h]; rfl
  · rw [if_neg h, if_neg h]

theorem SomasExatas.heuristica_fin {P : Planejador} {E : Ambiente}
    {id_origem id_destino : IDPonto} (hS : SomasExatas P E id_origem id_destino)
    {p : Ponto} (hp : p ∈ P.pontos) :
    haversineD E p (P.getPonto id_destino)
      = Dbl.fin (haversine (arcoValor E) p (P.getPonto id_destino)) := by
  obtain ⟨q, hq⟩ := hS.finita p hp
  rw [haversine_valor, hq]
  rfl

theorem getPonto_extremidade {P : Planejador} (hP : Invariantes P) {rota : Rota}
    (hr : rota ∈ P.rotas) {u v : IDPonto} (hl : rota.liga u v) :
    P.getPonto v ∈ P.pontos := by
  have he := hP.extremidades rota hr
  rcases hl with ⟨_, h1⟩ | ⟨_, h0⟩
  · rw [h1] at he
    exact (getPonto_presente P v he.2).1
  · rw [h0] at he
    exact (getPonto_presente P v he.1).1

theorem getPonto_valido {P : Planejador} {v : IDPonto} (h : (P.getPonto v).valid = true) :
    P.getPonto v ∈ P.pontos := by
  by_cases hex : ∃ p ∈ P.pontos, p.id = v
  · exact (getPonto_presente P v hex).1
  · have : P.getPonto v = Ponto.default := by
      apply getPonto_ausente
      intro p hp e
      exact hex ⟨p, hp, e⟩
    rw [this, Ponto_default_not_valid] at h
    exact absurd h (by simp)

theorem nohOK_gerado {P : Planejador} {arco : ℚ → ℚ → ℚ → ℚ → ℚ} {id_origem : IDPonto}
    {pt_dest : Ponto} {F : List Noh} {n : Noh}
    (hF : ∀ m ∈ F, Alcanca P id_origem m.id_pt m.g ∧
      ∀ L', Alcanca P id_origem m.id_pt L' → m.g ≤ L')
    (h : NohOK P arco id_origem pt_dest F n) : Gerado P id_origem n.id_pt n.g := by
  rcases h.2 with ⟨hid, _, hg⟩ | ⟨m, hm, rota, hr, hl, _, _, hg⟩
  · exact Or.inl ⟨hid, hg⟩
  · exact Or.inr ⟨m.id_pt, m.g, rota, (hF m hm).1, (hF m hm).2, hr, hl, hg⟩

theorem f_paraD {P : Planejador} {E : Ambiente} {id_origem id_destino : IDPonto}
    (hS : SomasExatas P E id_origem id_destino) {F : List Noh} {a b : Noh}
    (hF : ∀ m ∈ F, Alcanca P id_origem m.id_pt m.g ∧
      ∀ L', Alcanca P id_origem m.id_pt L' → m.g ≤ L')
    (ha : NohOK P (arcoValor E) id_origem (P.getPonto id_destino) F a)
    (hb : NohOK P (arcoValor E) id_origem (P.getPonto id_destino) F b) :
    Dbl.lt (a.paraD.f E.arr) (b.paraD.f E.arr) = decide (a.f < b.f) := by
  have e := hS.ordem a.id_pt a.g b.id_pt b.g (nohOK_gerado hF ha) (nohOK_gerado hF hb)
  rw [← ha.1, ← hb.1] at e
  exact e

theorem insereOrdenadoD_map (compD : NohD → NohD → Bool) (comp : Noh → Noh → Bool)
    (a : Noh) :
    ∀ l : List Noh, (∀ b ∈ l, compD b.paraD a.paraD = comp b a) →
      insereOrdenadoD compD a.paraD (l.map Noh.paraD)
        = (insereOrdenado comp a l).map Noh.paraD := by
  intro l
  induction l with
  | nil => intro _; rfl
  | cons b l ih =>
    intro h
    have hb := h b (List.mem_cons_self _ _)
    rw [List.map_cons]
    unfold insereOrdenadoD insereOrdenado
    rw [hb]
    by_cases hc : comp b a = true
    · rw [if_pos hc, if_pos hc, ih (fun x hx => h x (List.mem_cons_of_mem _ hx))]
      rfl
    · rw [if_neg hc, if_neg hc]
      rfl

theorem sortD_map (compD : NohD → NohD → Bool) (comp : Noh → Noh → Bool) :
    ∀ l : List Noh, (∀ a ∈ l, ∀ b ∈ l, compD a.paraD b.paraD = comp a b) →
      sortD compD (l.map Noh.paraD) = (sort comp l).map Noh.paraD := by
  intro l
  induction l with
  | nil => intro _; rfl
  | cons a l ih =>
    intro h
    rw [List.map_cons]
    unfold sortD sort
    rw [ih (fun x hx y hy => h x (List.mem_cons_of_mem _ hx) y (List.mem_cons_of_mem _ hy))]
    apply insereOrdenadoD_map
    intro b hb
    have hbl : b ∈ l := (sort_perm comp l).mem_iff.1 hb
    exact h b (List.mem_cons_of_mem _ hbl) a (List.mem_cons_self _ _)

theorem find_paraD (v : IDPonto) (l : List Noh) :
    (l.map Noh.paraD).find? (fun n => decide (n.id_pt = v))
      = (l.find? (fun n => decide (n.id_pt = v))).map Noh.paraD := by
  induction l with
  | nil => rfl
  | cons b l ih =>
    rw [List.map_cons]
    by_cases hb : b.id_pt = v
    · have hb' : b.paraD.id_pt = v := hb
      rw [List.find?_cons_of_pos _ (by simpa using hb'),
        List.find?_cons_of_pos _ (by simpa using hb)]
      rfl
    · have hb' : ¬ b.paraD.id_pt = v := hb
      rw [List.find?_cons_of_neg _ (by simpa using hb'),
        List.find?_cons_of_neg _ (by simpa using hb), ih]

theorem eraseP_paraD (v : IDPonto) (l : List Noh) :
    (l.map Noh.paraD).eraseP (fun n => decide (n.id_pt = v))
      = (l.eraseP (fun n => decide (n.id_pt = v))).map Noh.paraD := by
  induction l with
  | nil => rfl
  | cons b l ih =>
    rw [List.map_cons]
    by_cases hb : b.id_pt = v
    · have hb' : b.paraD.id_pt = v := hb
      rw [List.eraseP_cons_of_pos (by simpa using hb'),
        List.eraseP_cons_of_pos (by simpa using hb)]
    · have hb' : ¬ b.paraD.id_pt = v := hb
      rw [List.eraseP_cons_of_neg (by simpa using hb'),
        List.eraseP_cons_of_neg (by simpa using hb), ih]
      rfl

theorem any_paraD (v : IDPonto) (l : List Noh) :
    (l.map Noh.paraD).any (fun n => decide (n.id_pt = v))
      = l.any (fun n => decide (n.id_pt = v)) := by
  induction l with
  | nil => rfl
  | cons b l ih =>
    rw [List.map_cons, List.any_cons, List.any_cons, ih]
    rfl

theorem ids_paraD (l : List Noh) :
    (l.map Noh.paraD).map (fun n => n.id_pt) = l.map (fun n => n.id_pt) := by
  rw [List.map_map]
  rfl

theorem reconstroiD_map (P : Planejador) (F : List Noh) :
    ∀ (fuel : Nat) (n : Noh) (C : Caminho),
      reconstroiD P (F.map Noh.paraD) fuel n.paraD C = reconstroi P F fuel n C := by
  intro fuel
  induction fuel with
  | zero =>
    intro n C
    by_cases hrt : n.id_rt = IDRota.default
    · rw [reconstroi_sentinela P F _ n C hrt, reconstroiD_sentinela P _ _ n.paraD C hrt]
    · rw [reconstroi_zero P F n C hrt, reconstroiD_zero P _ n.paraD C hrt]
  | succ fuel ih =>
    intro n C
    by_cases hrt : n.id_rt = IDRota.default
    · rw [reconstroi_sentinela P F _ n C hrt, reconstroiD_sentinela P _ _ n.paraD C hrt]
    · rw [reconstroi_succ P F _ n C hrt, reconstroiD_succ P _ _ n.paraD C hrt]
      have hfind := find_paraD
        (if (P.getRota n.id_rt).extremidade0 = n.id_pt then (P.getRota n.id_rt).extremidade1
          else (P.getRota n.id_rt).extremidade0) F
      have e1 : n.paraD.id_rt = n.id_rt := rfl
      have e2 : n.paraD.id_pt = n.id_pt := rfl
      rw [e1, e2, hfind]
      cases hf : F.find? (fun x => decide (x.id_pt =
          if (P.getRota n.id_rt).extremidade0 = n.id_pt then (P.getRota n.id_rt).extremidade1
          else (P.getRota n.id_rt).extremidade0)) with
      | none =>
        simp only [Option.map_none']
        exact ih { n with id_pt :=
          if (P.getRota n.id_rt).extremidade0 = n.id_pt then (P.getRota n.id_rt).extremidade1
          else (P.getRota n.id_rt).extremidade0 } _
      | some it =>
        simp only [Option.map_some']
        exact ih _ _


theorem sucessorD_map {P : Planejador} {E : Ambiente} {id_origem id_destino : IDPonto}
    (hP : Invariantes P) (hS : SomasExatas P E id_origem id_destino)
    {atual : Noh} {F A : List Noh} {rota : Rota}
    (hF : ∀ m ∈ F, Alcanca P id_origem m.id_pt m.g ∧
      ∀ L', Alcanca P id_origem m.id_pt L' → m.g ≤ L')
    (hA : AbOK P (arcoValor E) id_origem (P.getPonto id_destino) F A)
    (hr : rota ∈ P.rotas) (hat : atual ∈ F) :
    sucessorD P E (P.getPonto id_destino) atual.paraD (F.map Noh.paraD)
        (A.map Noh.paraD) rota
      = (sucessor P (arcoValor E) (P.getPonto id_destino) atual F A rota).map Noh.paraD := by
  have eid : atual.paraD.id_pt = atual.id_pt := rfl
  by_cases hinc : rota.extremidade0 ≠ atual.id_pt ∧ rota.extremidade1 ≠ atual.id_pt
  · unfold sucessorD sucessor
    rw [eid, if_pos hinc, if_pos hinc]
  · by_cases hany : F.any (fun n => decide (n.id_pt =
        (if rota.extremidade0 = atual.id_pt then rota.extremidade1
          else rota.extremidade0))) = true
    · unfold sucessorD sucessor
      simp only [eid, if_neg hinc, any_paraD, hany, if_true]
    · have hl : rota.liga atual.id_pt (if rota.extremidade0 = atual.id_pt
          then rota.extremidade1 else rota.extremidade0) := by
        by_cases e : rota.extremidade0 = atual.id_pt
        · simp only [e, if_true]; exact Or.inl ⟨e, rfl⟩
        · simp only [e, if_false]
          have e1 : rota.extremidade1 = atual.id_pt := by
            by_contra e1; exact hinc ⟨e, e1⟩
          exact Or.inr ⟨e1, rfl⟩
      have hv : (if rota.extremidade0 = atual.id_pt then rota.extremidade1
          else rota.extremidade0) ∉ F.map (fun n => n.id_pt) := by
        intro hmem
        apply hany
        rw [List.any_eq_true]
        obtain ⟨n, hn, hid⟩ := List.mem_map.1 hmem
        exact ⟨n, hn, by simpa using hid⟩
      generalize (if rota.extremidade0 = atual.id_pt then rota.extremidade1
          else rota.extremidade0) = v at hl hv
      have hvD : v ∉ (F.map Noh.paraD).map (fun n => n.id_pt) := by
        rw [ids_paraD]; exact hv
      have hlD : rota.liga atual.paraD.id_pt v := hl
      rw [sucessor_of_liga P (arcoValor E) _ atual F A rota v hl hv,
        sucessorD_of_liga P E _ atual.paraD _ _ rota v hlD hvD, find_paraD]
      have hg : Dbl.add E.arr atual.paraD.g (Dbl.fin rota.comprimento)
          = Dbl.fin (atual.g + rota.comprimento) :=
        hS.custo atual.id_pt atual.g (hF atual hat).1 (hF atual hat).2 rota hr v hl
      have hh : haversineD E (P.getPonto v) (P.getPonto id_destino)
          = Dbl.fin (heuristica P (arcoValor E) (P.getPonto id_destino) v) :=
        hS.heuristica_fin (getPonto_extremidade hP hr hl)
      rw [hg, hh]
      have hnovo : Gerado P id_origem v (atual.g + rota.comprimento) :=
        Or.inr ⟨atual.id_pt, atual.g, rota, (hF atual hat).1, (hF atual hat).2, hr, hl, rfl⟩
      cases hf : A.find? (fun n => decide (n.id_pt = v)) with
      | none =>
        simp only [Option.map_none', List.map_append, List.map_cons, List.map_nil]
        rfl
      | some it =>
        simp only [Option.map_some']
        have hit : it ∈ A := List.mem_of_find?_eq_some hf
        have hitOK := hA.gerado it hit
        have hcmp := hS.ordem v (atual.g + rota.comprimento) it.id_pt it.g hnovo
          (nohOK_gerado hF hitOK)
        rw [← hitOK.1] at hcmp
        have hfD : it.paraD.f E.arr = Dbl.add E.arr (Dbl.fin it.g) (Dbl.fin it.h) := rfl
        rw [hfD, hcmp]
        by_cases hlt : atual.g + rota.comprimento
            + heuristica P (arcoValor E) (P.getPonto id_destino) v < it.f
        · have hlt' : atual.g + rota.comprimento
              + heuristica P (arcoValor E) (P.getPonto id_destino) v < it.g + it.h := hlt
          rw [if_pos hlt, decide_eq_true hlt', if_pos rfl, eraseP_paraD]
          simp only [List.map_append, List.map_cons, List.map_nil]
          rfl
        · have hlt' : ¬ atual.g + rota.comprimento
              + heuristica P (arcoValor E) (P.getPonto id_destino) v < it.g + it.h := hlt
          rw [if_neg hlt, decide_eq_false hlt', if_neg (by simp)]

theorem expandeD_map {P : Planejador} {E : Ambiente} {id_origem id_destino : IDPonto}
    (hP : Invariantes P) (hS : SomasExatas P E id_origem id_destino)
    {atual : Noh} {F : List Noh}
    (hF : ∀ m ∈ F, Alcanca P id_origem m.id_pt m.g ∧
      ∀ L', Alcanca P id_origem m.id_pt L' → m.g ≤ L')
    (hat : atual ∈ F) :
    ∀ (rs : List Rota) (A : List Noh), (∀ r ∈ rs, r ∈ P.rotas) →
      AbOK P (arcoValor E) id_origem (P.getPonto id_destino) F A →
      rs.foldl (sucessorD P E (P.getPonto id_destino) atual.paraD (F.map Noh.paraD))
          (A.map Noh.paraD)
        = (rs.foldl (sucessor P (arcoValor E) (P.getPonto id_destino) atual F) A).map
            Noh.paraD := by
  intro rs
  induction rs with
  | nil => intro A _ _; rfl
  | cons r rs ih =>
    intro A hsub hA
    have hr := hsub r (List.mem_cons_self _ _)
    rw [List.foldl_cons, List.foldl_cons, sucessorD_map hP hS hF hA hr hat]
    exact ih _ (fun x hx => hsub x (List.mem_cons_of_mem _ hx)) (sucessor_abOK hA hr hat)

theorem inv_fechado_otimo {P : Planejador} {arco : ℚ → ℚ → ℚ → ℚ → ℚ}
    {id_origem id_destino : IDPonto} {pt_dest : Ponto} {A F : List Noh}
    (h : Inv P arco id_origem id_destino pt_dest A F) (hc : Consistente P arco pt_dest) :
    ∀ m ∈ F, Alcanca P id_origem m.id_pt m.g ∧
      ∀ L', Alcanca P id_origem m.id_pt L' → m.g ≤ L' :=
  fun m hm => ⟨inv_fechado_alcanca h hm, fun L' hL => h.otimo hc m hm L' hL⟩

/-- When the floating-point operations are free of rounding error where it matters and
the heuristic is consistent, the main loop on `double` values goes through the states
of the main loop in exact arithmetic and gives the same result. -/
theorem lacoD_map {P : Planejador} {E : Ambiente} {id_origem id_destino : IDPonto}
    (hP : Invariantes P) (hS : SomasExatas P E id_origem id_destino)
    (hc : Consistente P (arcoValor E) (P.getPonto id_destino)) (fuelR : Nat) :
    ∀ (fuel : Nat) (A F : List Noh),
      Inv P (arcoValor E) id_origem id_destino (P.getPonto id_destino) A F →
      lacoD P E sortD id_destino (P.getPonto id_destino) fuelR fuel
          (A.map Noh.paraD) (F.map Noh.paraD)
        = (laco P (arcoValor E) id_destino (P.getPonto id_destino) fuelR fuel A F).map
            Saida.paraD := by
  intro fuel
  induction fuel with
  | zero =>
    intro A F _
    cases A with
    | nil =>
      rw [List.map_nil, lacoD_vazio, laco_vazio]
      simp [Saida.paraD]
    | cons a A => rw [List.map_cons, lacoD_zero, laco_zero]; rfl
  | succ fuel ih =>
    intro A F hinv
    cases A with
    | nil =>
      rw [List.map_nil, lacoD_vazio, laco_vazio]
      simp [Saida.paraD]
    | cons a A =>
      rw [List.map_cons, lacoD_succ, laco_succ, ← List.map_cons]
      have hFo := inv_fechado_otimo hinv hc
      have hsort : sortD (fun a b => Dbl.lt (a.f E.arr) (b.f E.arr))
          ((a :: A).map Noh.paraD)
          = (sort (fun a b => decide (a.f < b.f)) (a :: A)).map Noh.paraD := by
        apply sortD_map
        intro x hx y hy
        exact f_paraD hS hFo (hinv.aberto x hx) (hinv.aberto y hy)
      rw [hsort]
      cases hs : sort (fun a b => decide (a.f < b.f)) (a :: A) with
      | nil => rfl
      | cons atual A' =>
        rw [List.map_cons]
        simp only
        have hinv' : Inv P (arcoValor E) id_origem id_destino (P.getPonto id_destino)
            (atual :: A') F := inv_perm hinv (hs ▸ sort_perm _ (a :: A))
        have hmin := sort_min (a :: A) atual A' hs
        have eid : atual.paraD.id_pt = atual.id_pt := rfl
        rw [eid]
        by_cases hd : atual.id_pt = id_destino
        · rw [if_pos hd, if_pos hd, reconstroiD_map]
          cases reconstroi P F fuelR atual [] with
          | none => rfl
          | some C => simp [Saida.paraD, Noh.paraD]
        · rw [if_neg hd, if_neg hd]
          have hinv2 := inv_passo hinv' hmin hd
          have hat : atual ∈ F ++ [atual] :=
            List.mem_append_right _ (List.mem_singleton.2 rfl)
          have hexp := expandeD_map hP hS (inv_fechado_otimo hinv2 hc) hat P.rotas A'
            (fun r hr => hr) (abOK_inicial hinv')
          have hmapF : F.map Noh.paraD ++ [atual.paraD] = (F ++ [atual]).map Noh.paraD := by
            simp
          rw [hmapF, hexp]
          exact ih _ _ hinv2

theorem calculaCaminhoD_map {P : Planejador} {E : Ambiente} {id_origem id_destino : IDPonto}
    (hP : Invariantes P) (hS : SomasExatas P E id_origem id_destino)
    (hc : Consistente P (arcoValor E) (P.getPonto id_destino))
    (C : Caminho) (NA NF : Int) (fuel : Nat) :
    P.calculaCaminhoD E sortD id_origem id_destino C NA NF fuel
      = (P.calculaCaminho (arcoValor E) id_origem id_destino C NA NF fuel).map
          Saida.paraD := by
  unfold Planejador.calculaCaminhoD Planejador.calculaCaminho
  by_cases he : P.empty = true
  · rw [if_pos he, if_pos he]
    simp [Saida.paraD]
  · rw [if_neg he, if_neg he]
    simp only
    by_cases ho : (!(P.getPonto id_origem).valid) = true
    · rw [if_pos ho, if_pos ho]
      simp [Saida.paraD]
    · rw [if_neg ho, if_neg ho]
      by_cases hd : (!(P.getPonto id_destino).valid) = true
      · rw [if_pos hd, if_pos hd]
        simp [Saida.paraD]
      · rw [if_neg hd, if_neg hd]
        have hvo : (P.getPonto id_origem).valid = true := by simpa using ho
        have hh := hS.heuristica_fin (getPonto_valido hvo)
        rw [hh]
        exact lacoD_map hP hS hc fuel fuel _ []
          (inv_inicial P (arcoValor E) id_origem id_destino (P.getPonto id_destino))


theorem Dbl.add_exato {a b : ℚ} (h : |a + b| ≤ 2 ^ 53) :
    Dbl.add ambienteExato.arr (Dbl.fin a) (Dbl.fin b) = Dbl.fin (a + b) := by
  have h' : |a + b| ≤ (((2 : ℤ) ^ 53 : ℤ) : ℚ) := by
    push_cast
    exact h
  exact Dbl.ofRat_fin arredondamento_exato ((2 : ℤ) ^ 53) (by norm_num) h'

/-- In the environment without rounding error the operations of a search are exact as
soon as `haversine` is finite and the stored costs and heuristic values are bounded by
`2^52`. -/
theorem somasExatas_exato (P : Planejador) (id_origem id_destino : IDPonto)
    (hfin : ∀ p ∈ P.pontos, ∃ q, haversineD ambienteExato p (P.getPonto id_destino) = Dbl.fin q)
    (hh : ∀ v, |heuristica P (arcoValor ambienteExato) (P.getPonto id_destino) v| ≤ 2 ^ 52)
    (hg : ∀ v x, Gerado P id_origem v x → |x| ≤ 2 ^ 52) :
    SomasExatas P ambienteExato id_origem id_destino := by
  refine ⟨hfin, ?_, ?_⟩
  · intro u L hL hmin rota hr v hl
    have hx := hg v (L + rota.comprimento) (Or.inr ⟨u, L, rota, hL, hmin, hr, hl, rfl⟩)
    exact Dbl.add_exato (le_trans hx (by norm_num))
  · intro v1 x1 v2 x2 h1 h2
    have b1 : |x1 + heuristica P (arcoValor ambienteExato) (P.getPonto id_destino) v1|
        ≤ 2 ^ 53 := by
      have := abs_add x1 (heuristica P (arcoValor ambienteExato) (P.getPonto id_destino) v1)
      have := hg v1 x1 h1
      have := hh v1
      norm_num at *
      linarith
    have b2 : |x2 + heuristica P (arcoValor ambienteExato) (P.getPonto id_destino) v2|
        ≤ 2 ^ 53 := by
      have := abs_add x2 (heuristica P (arcoValor ambienteExato) (P.getPonto id_destino) v2)
      have := hg v2 x2 h2
      have := hh v2
      norm_num at *
      linarith
    rw [Dbl.add_exato b1, Dbl.add_exato b2]
    rfl

theorem minimo_potencial {P : Planejador} {id_origem : IDPonto} (φ : IDPonto → ℚ)
    (hφ : ∀ r ∈ P.rotas, φ r.extremidade0 ≤ r.comprimento + φ r.extremidade1 ∧
      φ r.extremidade1 ≤ r.comprimento + φ r.extremidade0)
    (h0 : φ id_origem = 0) {u : IDPonto} {L : ℚ} (hL : Alcanca P id_origem u L) :
    φ u ≤ L := by
  obtain ⟨rs, hrs, htot⟩ := alcanca_conecta P hL
  have h := potencial_conecta P (fun v => -φ v)
    (fun r hr => ⟨by have := (hφ r hr).2; simp only; linarith,
      by have := (hφ r hr).1; simp only; linarith⟩)
    rs id_origem u hrs
  simp only [h0] at h
  linarith

theorem minimo_mapaEquador {u : IDPonto} {L : ℚ}
    (hL : Alcanca mapaEquador ⟨"#A"⟩ u L)
    (hmin : ∀ L', Alcanca mapaEquador ⟨"#A"⟩ u L' → L ≤ L')
    (hu : u = ⟨"#A"⟩ ∨ u = ⟨"#B"⟩ ∨ u = ⟨"#C"⟩) : L = distanciaEquador u := by
  have hA : Alcanca mapaEquador ⟨"#A"⟩ ⟨"#A"⟩ 0 := Alcanca.refl
  have hB : Alcanca mapaEquador ⟨"#A"⟩ ⟨"#B"⟩ (0 + 112) :=
    Alcanca.passo hA (show (⟨⟨"&R1"⟩, "Rota 1", ⟨"#A"⟩, ⟨"#B"⟩, 112⟩ : Rota)
      ∈ mapaEquador.rotas by simp [mapaEquador]) (Or.inl ⟨rfl, rfl⟩)
  have hC : Alcanca mapaEquador ⟨"#A"⟩ ⟨"#C"⟩ (0 + 112 + 112) :=
    Alcanca.passo hB (show (⟨⟨"&R2"⟩, "Rota 2", ⟨"#B"⟩, ⟨"#C"⟩, 112⟩ : Rota)
      ∈ mapaEquador.rotas by simp [mapaEquador]) (Or.inl ⟨rfl, rfl⟩)
  have hlow := minimo_potencial distanciaEquador (by decide!) (by decide!) hL
  rcases hu with rfl | rfl | rfl
  · have := hmin _ hA
    have e : distanciaEquador ⟨"#A"⟩ = 0 := by decide!
    rw [e] at hlow ⊢
    linarith
  · have := hmin _ hB
    have e : distanciaEquador ⟨"#B"⟩ = 112 := by decide!
    rw [e] at hlow ⊢
    linarith
  · have := hmin _ hC
    have e : distanciaEquador ⟨"#C"⟩ = 224 := by decide!
    rw [e] at hlow ⊢
    linarith

theorem gerado_mapaEquador {v : IDPonto} {x : ℚ}
    (h : Gerado mapaEquador ⟨"#A"⟩ v x) : (v, x) ∈ geradosEquador := by
  rcases h with ⟨hv, hx⟩ | ⟨u, L, rota, hL, hmin, hr, hl, hx⟩
  · rw [hv, hx]; simp [geradosEquador]
  · simp only [mapaEquador, List.mem_cons, List.mem_singleton, List.not_mem_nil,
      or_false] at hr
    rcases hr with rfl | rfl
    · rcases hl with ⟨e, e2⟩ | ⟨e, e2⟩
      · have e' : (⟨"#A"⟩ : IDPonto) = u := e
        have e2' : (⟨"#B"⟩ : IDPonto) = v := e2
        subst e' e2'
        have hLv := minimo_mapaEquador hL hmin (Or.inl rfl)
        rw [hx, hLv]
        decide!
      · have e' : (⟨"#B"⟩ : IDPonto) = u := e
        have e2' : (⟨"#A"⟩ : IDPonto) = v := e2
        subst e' e2'
        have hLv := minimo_mapaEquador hL hmin (Or.inr (Or.inl rfl))
        rw [hx, hLv]
        decide!
    · rcases hl with ⟨e, e2⟩ | ⟨e, e2⟩
      · have e' : (⟨"#B"⟩ : IDPonto) = u := e
        have e2' : (⟨"#C"⟩ : IDPonto) = v := e2
        subst e' e2'
        have hLv := minimo_mapaEquador hL hmin (Or.inr (Or.inl rfl))
        rw [hx, hLv]
        decide!
      · have e' : (⟨"#C"⟩ : IDPonto) = u := e
        have e2' : (⟨"#B"⟩ : IDPonto) = v := e2
        subst e' e2'
        have hLv := minimo_mapaEquador hL hmin (Or.inr (Or.inr rfl))
        rw [hx, hLv]
        decide!

theorem ordem_mapaEquador :
    ∀ a ∈ geradosEquador, ∀ b ∈ geradosEquador,
      Dbl.lt
          (Dbl.add ambienteBinario.arr (Dbl.fin a.2)
            (Dbl.fin (heuristica mapaEquador (arcoValor ambienteBinario)
              (mapaEquador.getPonto ⟨"#C"⟩) a.1)))
          (Dbl.add ambienteBinario.arr (Dbl.fin b.2)
            (Dbl.fin (heuristica mapaEquador (arcoValor ambienteBinario)
              (mapaEquador.getPonto ⟨"#C"⟩) b.1)))
        = decide (a.2 + heuristica mapaEquador (arcoValor ambienteBinario)
            (mapaEquador.getPonto ⟨"#C"⟩) a.1
          < b.2 + heuristica mapaEquador (arcoValor ambienteBinario)
            (mapaEquador.getPonto ⟨"#C"⟩) b.1) := by
  decide!

theorem custo_mapaEquador :
    ∀ rota ∈ mapaEquador.rotas,
      Dbl.add ambienteBinario.arr (Dbl.fin (distanciaEquador rota.extremidade0))
          (Dbl.fin rota.comprimento)
        = Dbl.fin (distanciaEquador rota.extremidade0 + rota.comprimento) ∧
      Dbl.add ambienteBinario.arr (Dbl.fin (distanciaEquador rota.extremidade1))
          (Dbl.fin rota.comprimento)
        = Dbl.fin (distanciaEquador rota.extremidade1 + rota.comprimento) := by
  decide!

theorem finita_mapaEquador :
    ∀ p ∈ mapaEquador.pontos,
      haversineD ambienteBinario p (mapaEquador.getPonto ⟨"#C"⟩)
        = Dbl.fin (haversineD ambienteBinario p (mapaEquador.getPonto ⟨"#C"⟩)).valor := by
  decide!

/-- In binary64 arithmetic the operations of the search from `#A` to `#C` on the equator
map are free of rounding error where it matters: the costs are the integers 112, 224
and 336, and the rounded sums `g + h` are in the order of the exact sums. -/
theorem somasExatas_mapaEquador : SomasExatas mapaEquador ambienteBinario ⟨"#A"⟩ ⟨"#C"⟩ := by
  refine ⟨fun p hp => ⟨_, finita_mapaEquador p hp⟩, ?_, ?_⟩
  · intro u L hL hmin rota hr v hl
    have hu : u = ⟨"#A"⟩ ∨ u = ⟨"#B"⟩ ∨ u = ⟨"#C"⟩ := by
      have hr' := hr
      simp only [mapaEquador, List.mem_cons, List.mem_singleton, List.not_mem_nil,
        or_false] at hr'
      rcases hr' with rfl | rfl <;> rcases hl with ⟨e, _⟩ | ⟨e, _⟩
      · exact Or.inl e.symm
      · exact Or.inr (Or.inl e.symm)
      · exact Or.inr (Or.inl e.symm)
      · exact Or.inr (Or.inr e.symm)
    rw [minimo_mapaEquador hL hmin hu]
    rcases hl with ⟨e, _⟩ | ⟨e, _⟩
    · rw [← e]; exact (custo_mapaEquador rota hr).1
    · rw [← e]; exact (custo_mapaEquador rota hr).2
  · intro v1 x1 v2 x2 h1 h2
    exact ordem_mapaEquador (v1, x1) (gerado_mapaEquador h1) (v2, x2) (gerado_mapaEquador h2)

theorem consistente_mapaEquador :
    Consistente mapaEquador (arcoValor ambienteBinario) (mapaEquador.getPonto ⟨"#C"⟩) := by
  unfold Consistente
  decide!

/-- C1 (amended): on a map satisfying the data-model invariants, when the heuristic is
consistent (along every route it changes by at most the length of the route) and the
floating-point operations of the search are free of rounding error where it matters
(`haversine` finite, the sums `atual.g + rota.comprimento` exact on the lengths of
shortest route sequences, the comparisons of `g + h` in the order of the exact sums),
a successful call of `calculaCaminho` (one that returns a value `>= 0`) returns a
finite length, which is the length of a route sequence connecting origin to
destination, and no connecting route sequence is shorter. -/
theorem calculaCaminhoD_minimo (P : Planejador) (E : Ambiente)
    (id_origem id_destino : IDPonto) (C : Caminho) (NA NF : Int) (fuel : Nat) (r : SaidaD)
    (hP : Invariantes P)
    (hc : Consistente P (arcoValor E) (P.getPonto id_destino))
    (hS : SomasExatas P E id_origem id_destino)
    (h : P.calculaCaminhoD E sortD id_origem id_destino C NA NF fuel = some r)
    (hs : Dbl.le (Dbl.fin 0) r.comprimento = true) :
    ∃ q, r.comprimento = Dbl.fin q ∧
      (∃ rs, conecta P id_origem rs id_destino ∧ comprimentoTotal rs = q) ∧
      ∀ rs, conecta P id_origem rs id_destino → q ≤ comprimentoTotal rs := by
  rw [calculaCaminhoD_map hP hS hc] at h
  cases h0 : P.calculaCaminho (arcoValor E) id_origem id_destino C NA NF fuel with
  | none => rw [h0] at h; simp at h
  | some r0 =>
    rw [h0] at h
    simp only [Option.map_some', Option.some.injEq] at h
    subst h
    have hs0 : 0 ≤ r0.comprimento := by
      have : Dbl.le (Dbl.fin 0) (Dbl.fin r0.comprimento) = true := hs
      simpa [Dbl.le] using this
    exact ⟨r0.comprimento, rfl,
      calculaCaminho_minimo P (arcoValor E) id_origem id_destino C NA NF fuel r0 hc h0 hs0⟩

/-- Witness of C1 (amended): the equator map with 112 km routes in binary64 arithmetic,
search from `#A` to `#C`, which returns 224. -/
theorem calculaCaminhoD_minimo_witness :
    ∃ q, (Dbl.fin 224 : Dbl) = Dbl.fin q ∧
      (∃ rs, conecta mapaEquador ⟨"#A"⟩ rs ⟨"#C"⟩ ∧ comprimentoTotal rs = q) ∧
      ∀ rs, conecta mapaEquador ⟨"#A"⟩ rs ⟨"#C"⟩ → q ≤ comprimentoTotal rs :=
  calculaCaminhoD_minimo mapaEquador ambienteBinario ⟨"#A"⟩ ⟨"#C"⟩ [] 0 0 10
    ⟨Dbl.fin 224, [(⟨"&R1"⟩, ⟨"#B"⟩), (⟨"&R2"⟩, ⟨"#C"⟩)], 0, 3⟩
    invariantes_mapaEquador consistente_mapaEquador somasExatas_mapaEquador
    (by decide!) (by decide!)


/-- Rounding error alone defeats minimality.  On `mapaGrande` the heuristic is 0 at
every point, hence consistent; in binary64 arithmetic the search from `#S` to `#G`
returns `10^16 + 4` with the path `[(&R3,#G)]`, because the cost `3 + 10^16` of the
route sequence `&R1`, `&R2` is rounded to `10^16 + 4` and the test
`custo_g + custo_h < it->f()` fails; the route sequence `&R1`, `&R2` has length
`10^16 + 3`, which is what the search in exact arithmetic returns. -/
theorem calculaCaminhoD_arredondado :
    Invariantes mapaGrande ∧ (∀ r ∈ mapaGrande.rotas, 0 ≤ r.comprimento) ∧
    Consistente mapaGrande (arcoValor ambienteBinario) (mapaGrande.getPonto ⟨"#G"⟩) ∧
    mapaGrande.calculaCaminhoD ambienteBinario sortD ⟨"#S"⟩ ⟨"#G"⟩ [] 0 0 10
      = some ⟨Dbl.fin 10000000000000004, [(⟨"&R3"⟩, ⟨"#G"⟩)], 0, 3⟩ ∧
    mapaGrande.calculaCaminho (arcoValor ambienteBinario) ⟨"#S"⟩ ⟨"#G"⟩ [] 0 0 10
      = some ⟨10000000000000003, [(⟨"&R1"⟩, ⟨"#A"⟩), (⟨"&R2"⟩, ⟨"#G"⟩)], 0, 3⟩ ∧
    conecta mapaGrande ⟨"#S"⟩
      [⟨⟨"&R1"⟩, "Rota 1", ⟨"#S"⟩, ⟨"#A"⟩, 3⟩,
        ⟨⟨"&R2"⟩, "Rota 2", ⟨"#A"⟩, ⟨"#G"⟩, 10000000000000000⟩] ⟨"#G"⟩ ∧
    comprimentoTotal
      [⟨⟨"&R1"⟩, "Rota 1", ⟨"#S"⟩, ⟨"#A"⟩, 3⟩,
        ⟨⟨"&R2"⟩, "Rota 2", ⟨"#A"⟩, ⟨"#G"⟩, 10000000000000000⟩] = 10000000000000003 := by
  refine ⟨⟨by decide, by decide, by decide, by decide, by decide⟩, by decide!, ?_,
    by decide!, by decide!, ?_, ?_⟩
  · unfold Consistente
    decide!
  · simp [conecta, mapaGrande]
  · simp [comprimentoTotal]; norm_num


/-! ## The call as a transformation of the memory -/

theorem lacoD_mono {P : Planejador} {E : Ambiente}
    {ordena : (NohD → NohD → Bool) → List NohD → List NohD} {id_destino : IDPonto}
    {pt_dest : Ponto} {fuelR fuelR' : Nat} (hR : fuelR ≤ fuelR') {r : SaidaD} :
    ∀ (fuel fuel' : Nat) (A F : List NohD), fuel ≤ fuel' →
      lacoD P E ordena id_destino pt_dest fuelR fuel A F = some r →
      lacoD P E ordena id_destino pt_dest fuelR' fuel' A F = some r := by
  intro fuel
  induction fuel with
  | zero =>
    intro fuel' A F _ h
    cases A with
    | nil => rw [lacoD_vazio] at h ⊢; exact h
    | cons a A => rw [lacoD_zero] at h; simp at h
  | succ fuel ih =>
    intro fuel' A F hle h
    cases A with
    | nil => rw [lacoD_vazio] at h ⊢; exact h
    | cons a A =>
      obtain ⟨k, rfl⟩ : ∃ k, fuel' = k + 1 := ⟨fuel' - 1, by omega⟩
      rw [lacoD_succ] at h ⊢
      cases hs : ordena (fun a b => Dbl.lt (a.f E.arr) (b.f E.arr)) (a :: A) with
      | nil => rw [hs] at h; simp at h
      | cons atual A' =>
        rw [hs] at h
        simp only at h ⊢
        by_cases hd : atual.id_pt = id_destino
        · rw [if_pos hd] at h ⊢
          cases hrec : reconstroiD P F fuelR atual [] with
          | none => rw [hrec] at h; simp at h
          | some C =>
            rw [hrec] at h
            rw [reconstroiD_mono P F fuelR fuelR' atual [] C hR hrec]
            exact h
        · rw [if_neg hd] at h ⊢
          exact ih k _ _ (by omega) h

theorem calculaCaminhoD_mono {P : Planejador} {E : Ambiente}
    {ordena : (NohD → NohD → Bool) → List NohD → List NohD}
    {id_origem id_destino : IDPonto} {C C' : Caminho} {NA NF NA' NF' : Int}
    {fuel fuel' : Nat} {r : SaidaD} (hle : fuel ≤ fuel')
    (h : P.calculaCaminhoD E ordena id_origem id_destino C NA NF fuel = some r) :
    P.calculaCaminhoD E ordena id_origem id_destino C' NA' NF' fuel' = some r := by
  unfold Planejador.calculaCaminhoD at h ⊢
  by_cases he : P.empty = true
  · rw [if_pos he] at h ⊢; exact h
  · rw [if_neg he] at h ⊢
    simp only at h ⊢
    by_cases ho : (!(P.getPonto id_origem).valid) = true
    · rw [if_pos ho] at h ⊢; exact h
    · rw [if_neg ho] at h ⊢
      by_cases hd : (!(P.getPonto id_destino).valid) = true
      · rw [if_pos hd] at h ⊢; exact h
      · rw [if_neg hd] at h ⊢
        exact lacoD_mono hle fuel fuel' _ _ hle h

theorem calculaCaminhoMem_eq (m : Memoria) (E : Ambiente)
    (ordena : (NohD → NohD → Bool) → List NohD → List NohD)
    (id_origem id_destino : IDPonto) (fuel : Nat) :
    calculaCaminhoMem m E ordena id_origem id_destino fuel =
      (m.planejador.calculaCaminhoD E ordena id_origem id_destino m.C m.NA m.NF fuel).map
        (fun r => (r.comprimento, ⟨m.planejador, r.C, r.NA, r.NF⟩)) := by
  unfold calculaCaminhoMem Planejador.calculaCaminhoD
  by_cases he : m.planejador.empty = true
  · simp [he]
  · by_cases ho : (m.planejador.getPonto id_origem).valid = true
    · by_cases hd : (m.planejador.getPonto id_destino).valid = true
      · simp only [he, ho, hd, Bool.not_true, Bool.false_eq_true, if_false]
        cases lacoD m.planejador E ordena id_destino (m.planejador.getPonto id_destino)
          fuel fuel
          [⟨id_origem, IDRota.default, Dbl.fin 0,
            haversineD E (m.planejador.getPonto id_origem)
              (m.planejador.getPonto id_destino)⟩] [] <;> rfl
      · simp [he, ho, hd]
    · simp [he, ho]

/-- C15: a call of `calculaCaminho`, as a transformation of the memory (the map and the
variables `C`, `NA`, `NF`), in every floating-point environment and for every sorting
routine, leaves the map unchanged; the returned length and the final `C`, `NA`, `NF` are
the same whatever `C`, `NA`, `NF` held before the call; and a second call on the memory
left by the first one returns the same length and leaves the same memory.  A result
does not change when more fuel is given, and a call that runs out of fuel does so
whatever `C`, `NA`, `NF` held. -/
theorem calculaCaminhoMem_deterministico (m : Memoria) (E : Ambiente)
    (ordena : (NohD → NohD → Bool) → List NohD → List NohD)
    (id_origem id_destino : IDPonto) (fuel : Nat) (C' : Caminho) (NA' NF' : Int) :
    (∀ x m1, calculaCaminhoMem m E ordena id_origem id_destino fuel = some (x, m1) →
      m1.planejador = m.planejador ∧
      (∀ fuel', fuel ≤ fuel' →
        calculaCaminhoMem ⟨m.planejador, C', NA', NF'⟩ E ordena id_origem id_destino fuel'
          = some (x, m1)) ∧
      calculaCaminhoMem m1 E ordena id_origem id_destino fuel = some (x, m1)) ∧
    (calculaCaminhoMem m E ordena id_origem id_destino fuel = none →
      calculaCaminhoMem ⟨m.planejador, C', NA', NF'⟩ E ordena id_origem id_destino fuel
        = none) := by
  constructor
  · intro x m1 h
    rw [calculaCaminhoMem_eq] at h
    cases hr : m.planejador.calculaCaminhoD E ordena id_origem id_destino m.C m.NA m.NF
        fuel with
    | none => rw [hr] at h; simp at h
    | some r =>
      rw [hr] at h
      simp only [Option.map_some', Option.some.injEq, Prod.mk.injEq] at h
      obtain ⟨hx, hm1⟩ := h
      subst hm1
      subst hx
      refine ⟨rfl, ?_, ?_⟩
      · intro fuel' hle
        rw [calculaCaminhoMem_eq]
        have : m.planejador.calculaCaminhoD E ordena id_origem id_destino C' NA' NF' fuel'
            = some r := calculaCaminhoD_mono hle hr
        simp only [this, Option.map_some']
      · rw [calculaCaminhoMem_eq]
        have : m.planejador.calculaCaminhoD E ordena id_origem id_destino r.C r.NA r.NF fuel
            = some r := calculaCaminhoD_mono (le_refl _) hr
        simp only [this, Option.map_some']
  · intro h
    rw [calculaCaminhoMem_eq] at h ⊢
    cases hr : m.planejador.calculaCaminhoD E ordena id_origem id_destino m.C m.NA m.NF
        fuel with
    | none =>
      have : m.planejador.calculaCaminhoD E ordena id_origem id_destino C' NA' NF' fuel
          = none := hr
      simp only [this, Option.map_none']
    | some r => rw [hr] at h; simp at h


end Planner
